import Mathlib

/-!
# Verification of the thrift-compact-protocol codec

A shallow embedding, in Lean, of the TypeScript sources of the
`thrift-compact-protocol` package (files `src/types.ts` with `BufferReader`,
and the `BufferWriter` file), together with proofs about the embedded
definitions.

Conventions used throughout the embedding:

* JavaScript numbers that only ever hold integral values are modelled as
  `Int`.  JavaScript's bitwise operators (`&`, `|`, `^`, `<<`, `>>`) operate
  on 32-bit two's-complement integers (ECMAScript `ToInt32`); they are
  modelled by the `js*` functions below, built from exact two's-complement
  operations on `Int` (`intAnd`, `intOr`, `intXor`, ...).
* JavaScript `bigint` values are modelled as `Int` with exact
  (arbitrary-precision two's-complement) bitwise semantics.
* Byte buffers are `List Nat` with every element `< 256`.
* Exceptions (`ThriftError`, `RangeError` from Node's `Buffer` accessors)
  are modelled with `Except Err`.  The distinct `throw` sites of the source
  are mapped to distinct constructors of `Err`.
* The reader's recursive procedures (`skip`, `read_val_recursive`,
  `read_struct`) recurse on the byte stream, not on a structurally
  decreasing argument, so the embedding gives them an explicit `fuel`
  parameter; `Err.fuel` marks exhaustion.  All theorems about them either
  hold for every fuel or assume sufficient fuel.
-/

namespace Thrift

/-! ## Two's-complement integer operations

`intAnd`, `intOr`, `intXor` are bitwise operations on `Int` under the usual
two's-complement reading of negative numbers (infinite sign extension),
matching JavaScript `bigint` operators.  `intShr` is an arithmetic right
shift (floor division), `intShl` an exact left shift. -/

/-- Two's complement bitwise AND on `Int` (JS `bigint` `&`); `Int.land`
is exactly this operation. -/
def intAnd (a b : Int) : Int := Int.land a b

/-- Two's complement bitwise OR on `Int` (JS `bigint` `|`). -/
def intOr (a b : Int) : Int := Int.lor a b

/-- Two's complement bitwise XOR on `Int` (JS `bigint` `^`). -/
def intXor (a b : Int) : Int := Int.xor a b

/-- Arithmetic right shift on `Int` (JS `bigint` `>>`): floor division. -/
def intShr (a : Int) (k : Nat) : Int := Int.fdiv a (2 ^ k)

/-- Exact left shift on `Int` (JS `bigint` `<<`). -/
def intShl (a : Int) (k : Nat) : Int := a * 2 ^ k

/-! ## ECMAScript 32-bit number bitwise operators -/

/-- ECMAScript `ToUint32` of an integral number. -/
def toUInt32 (n : Int) : Int := n % 4294967296

/-- ECMAScript `ToInt32` of an integral number. -/
def toInt32 (n : Int) : Int :=
  if n % 4294967296 < 2147483648 then n % 4294967296
  else n % 4294967296 - 4294967296

/-- JS number `a & b`. -/
def jsAnd (a b : Int) : Int := intAnd (toInt32 a) (toInt32 b)

/-- JS number `a | b`. -/
def jsOr (a b : Int) : Int := intOr (toInt32 a) (toInt32 b)

/-- JS number `a ^ b`. -/
def jsXor (a b : Int) : Int := intXor (toInt32 a) (toInt32 b)

/-- JS number `a << k` (shift count is taken mod 32). -/
def jsShl (a : Int) (k : Int) : Int :=
  toInt32 (toUInt32 (toInt32 a) * 2 ^ ((toUInt32 k).toNat % 32))

/-- JS number `a >> k` (arithmetic shift, shift count mod 32). -/
def jsShr (a : Int) (k : Int) : Int :=
  intShr (toInt32 a) ((toUInt32 k).toNat % 32)

/-! ## Thrift type tags

`enum ThriftType` of `src/types.ts`, as `Int` wire tags:
STOP=0, TRUE=1, FALSE=2, BYTE=3, INT_16=4, INT_32=5, INT_64=6, DOUBLE=7,
BINARY=8, LIST=9, SET=10, MAP=11, STRUCT=12, FLOAT=13, BOOLEAN=161
(internal, never on the wire). -/

/-- `isThriftBoolean` from `src/types.ts`: masks to the low nibble and
compares against TRUE, FALSE and BOOLEAN (the last comparison is against
161 and can never hold after masking). -/
def isThriftBoolean (type : Int) : Bool :=
  let t := jsAnd type 15
  t = 1 || t = 2 || t = 161

/-- Error kinds; each constructor corresponds to one family of `throw`
sites in the source (identified by the thrown message), plus the two
embedding-specific kinds `range` (Node `Buffer` accessor RangeError) and
`fuel` (recursion fuel exhausted / source-level divergence). -/
inductive Err where
  /-- Node `Buffer` read/write out of range. -/
  | range
  /-- Embedding only: recursion fuel exhausted. -/
  | fuel
  /-- `read_val`: `Type ... not implemented`. -/
  | notImplemented (t : Int)
  /-- `read_val_recursive`: `No fields defined for struct`. -/
  | emptyStruct
  /-- `read_struct`: `Mismatching type for for field ...`. -/
  | mismatchField (expected got : Int)
  /-- `read_val_recursive` (map): `Unexpected key type ...`. -/
  | mismatchKey (expected got : Int)
  /-- `read_val_recursive` (map): `Unexpected value type ...`. -/
  | mismatchValue (expected got : Int)
  /-- `read_val_recursive` (list/set): `Unexpected item type ...`. -/
  | mismatchItem (expected got : Int)
  /-- `write_val`: `booleans can only be used in structs`. -/
  | boolContext
  /-- `write_val`: `Value ... of type ... is not supported by write_val()`. -/
  | unsupportedWrite (t : Int)
  deriving Repr, DecidableEq

/-- Is the error one of the spec's `TypeMismatch` family (the four
"Mismatching/Unexpected ... type" messages)? -/
def Err.isTypeMismatch : Err → Bool
  | .mismatchField .. => true
  | .mismatchKey .. => true
  | .mismatchValue .. => true
  | .mismatchItem .. => true
  | _ => false

/-! ## Schema algebra

The schema classes of `src/types.ts` (`t.TStruct`, `t.TList`, ...) carry no
behaviour beyond their `thrift_type` tag and their structure, so they are
embedded as a plain tree.  `TBinary` keeps its STRING/BINARY kind.  A
struct shape is an ordered list of named, numbered fields; the
`isOptional` marker is consulted by neither the reader nor the writer and
is omitted. -/

mutual
inductive Ty where
  | boolean
  | byte
  | i16
  | i32
  | i64
  | double
  | float
  | binaryStr
  | binaryBin
  | tlist (item : Ty)
  | tset (item : Ty)
  | tmap (key value : Ty)
  | tstruct (shape : Shape)
  deriving Repr, DecidableEq
inductive Shape where
  | nil
  | field (name : String) (num : Int) (ty : Ty) (rest : Shape)
  deriving Repr, DecidableEq
end

/-- The `thrift_type` tag of a schema node. -/
def Ty.tag : Ty → Int
  | .boolean => 161
  | .byte => 3
  | .i16 => 4
  | .i32 => 5
  | .i64 => 6
  | .double => 7
  | .float => 13
  | .binaryStr => 8
  | .binaryBin => 8
  | .tlist _ => 9
  | .tset _ => 10
  | .tmap _ _ => 11
  | .tstruct _ => 12

/-! ## Values

JavaScript values traversed by the engines.  Strings are carried as their
UTF-8 bytes (`Buffer.from(s, 'utf8')` / `buf.toString('utf8')` translate
between the two in the source; the embedding works at the byte level on
both sides).  `vraw` holds the 8/4 raw little-endian bytes of a
double/float value read by the reader; their IEEE-754 interpretation is
never needed (the writer rejects these types).  Maps and structs are entry
lists in JS enumeration order. -/

mutual
inductive Val where
  | vbool (b : Bool)
  | vnum (n : Int)
  | vi64 (n : Int)
  | vstr (bytes : List Nat)
  | vbin (bytes : List Nat)
  | vraw (bytes : List Nat)
  | vlist (items : VList)
  | vmap (entries : VMap)
  | vstruct (fields : VFields)
  deriving Repr, DecidableEq
inductive VList where
  | nil
  | cons (v : Val) (rest : VList)
  deriving Repr, DecidableEq
inductive VMap where
  | nil
  | cons (k : Val) (v : Val) (rest : VMap)
  deriving Repr, DecidableEq
inductive VFields where
  | nil
  | cons (name : String) (v : Val) (rest : VFields)
  deriving Repr, DecidableEq
end

def VList.length : VList → Nat
  | .nil => 0
  | .cons _ rest => rest.length + 1

def VMap.length : VMap → Nat
  | .nil => 0
  | .cons _ _ rest => rest.length + 1

def VFields.isEmpty : VFields → Bool
  | .nil => true
  | .cons .. => false

/-- JS truthiness of a value (`val ? ... : ...` in `write_val`). -/
def truthy : Val → Bool
  | .vbool b => b
  | .vnum n => n != 0
  | .vi64 n => n != 0
  | .vstr bs => bs != []
  | .vbin _ => true
  | .vraw _ => true
  | .vlist _ => true
  | .vmap _ => true
  | .vstruct _ => true

/-- `entries.find(([k]) => keyName == k)` on a JS object's entry list. -/
def findField (name : String) : VFields → Option Val
  | .nil => none
  | .cons n v rest => if n = name then some v else findField name rest

/-! ## Writer (`BufferWriter`)

State: output bytes (the growing `Buffer`; the `_cursor` always equals its
length and carries no further information, so it is omitted),
`_prev_field_id` and the saved-id stack.  `Array.push`/`pop` operate at the
same end, modelled by cons/uncons at the head. -/

structure WState where
  out : List Nat
  prev : Int
  stack : List Int
  deriving Repr, DecidableEq

def WState.init : WState := ⟨[], 0, []⟩

/-- `_push_stack` (writer). -/
def pushStackW (s : WState) : WState :=
  { s with stack := s.prev :: s.stack, prev := 0 }

/-- `_pop_stack` (writer): restores only when the stack is nonempty. -/
def popStackW (s : WState) : WState :=
  match s.stack with
  | [] => s
  | p :: rest => { s with prev := p, stack := rest }

/-- `_write_byte` / `Buffer.writeUInt8`: RangeError unless an integer in
[0, 255]. -/
def writeByte (b : Int) (s : WState) : Except Err WState :=
  if 0 ≤ b ∧ b ≤ 255 then .ok { s with out := s.out ++ [b.toNat] } else .error .range

/-- `BufferWriter.bigintToZigZag`: `(n << 1n) ^ (n >> 63n)`. -/
def bigintToZigZag (n : Int) : Int := intXor (intShl n 1) (intShr n 63)

/-- `BufferWriter.toZigZag`: `(n << 1) ^ (n >> (bits - 1))`. -/
def toZigZag (n bits : Int) : Int := jsXor (jsShl n 1) (jsShr n (bits - 1))

/-- `BufferReader.fromZigZag`: `(n >> 1) ^ -(n & 1)`. -/
def fromZigZag (n : Int) : Int := jsXor (jsShr n 1) (-(jsAnd n 1))

/-- `BufferReader.fromZigZagToBigInt`: `(n >> 1n) ^ -(n & 1n)`. -/
def fromZigZagToBigInt (n : Int) : Int := intXor (intShr n 1) (-(intAnd n 1))

/-- Loop body of `_write_varint` (`~0x7f` is `-128`).  The loop terminates
on every input in at most 7 iterations — after one step the argument is a
32-bit value — so the fixed fuel of 40 in `writeVarint` is unreachable. -/
def writeVarintLoop : Nat → Int → WState → Except Err WState
  | 0, _, _ => .error .fuel
  | k + 1, num, s =>
    let byte := jsAnd num (-128)
    if byte = 0 then writeByte num s
    else if byte = -128 then writeByte 0 s
    else do
      let s ← writeByte (jsOr (jsAnd num 255) 128) s
      writeVarintLoop k (jsShr num 7) s

/-- `_write_varint`. -/
def writeVarint (num : Int) (s : WState) : Except Err WState :=
  writeVarintLoop 40 num s

/-- Loop body of `_write_bigint_varint`. -/
def writeBigVarintLoop : Nat → Int → WState → Except Err WState
  | 0, _, _ => .error .fuel
  | k + 1, n, s =>
    if intAnd n (-128) = 0 then writeByte n s
    else do
      let s ← writeByte (intOr (intAnd n 127) 128) s
      writeBigVarintLoop k (intShr n 7) s

/-- `_write_bigint_varint`.  For a negative argument the source loops
forever (`n >> 7n` on a bigint never escapes the negatives), modelled as
`Err.fuel`; for nonnegative `n` at most `n.natAbs + 2` iterations are
needed, so the fuel is unreachable. -/
def writeBigVarint (n : Int) (s : WState) : Except Err WState :=
  writeBigVarintLoop (n.natAbs + 2) n s

/-- `_write_word`. -/
def writeWord (val : Int) (s : WState) : Except Err WState :=
  writeVarint (toZigZag val 16) s

/-- `_write_int`. -/
def writeInt (val : Int) (s : WState) : Except Err WState :=
  writeVarint (toZigZag val 32) s

/-- `_write_long`; a number argument goes through `BigInt(val)`, identical
for integral numbers. -/
def writeLong (val : Int) (s : WState) : Except Err WState :=
  writeBigVarint (bigintToZigZag val) s

/-- `_write_field_begin`. -/
def writeFieldBegin (fieldId : Int) (type : Int) (s : WState) : Except Err WState := do
  let delta := fieldId - s.prev
  let s ←
    if 0 < delta ∧ delta < 16 then writeByte (jsOr (jsShl delta 4) type) s
    else do
      let s ← writeByte type s
      writeWord fieldId s
  .ok { s with prev := fieldId }

/-- `_write_string`: both branches (JS string via `Buffer.from(val,
'utf8')`, and Buffer) write a varint length followed by the raw bytes;
`bs` is that byte sequence. -/
def writeString (bs : List Nat) (s : WState) : Except Err WState := do
  let s ← writeVarint (↑bs.length) s
  .ok { s with out := s.out ++ bs }

/-- `write_val`.  Dispatch is on the type tag (numeric values as in the
source: BOOLEAN=161, BYTE=3, INT_16=4, INT_32=5, INT_64=6, BINARY=8).
A value whose shape does not fit the tag would make the source apply a JS
coercion or crash inside a Buffer accessor; those paths are modelled as
`Err.range` and are unreachable for conforming values. -/
def writeVal (fieldId : Option Int) (type : Int) (val : Val) (s : WState) : Except Err WState := do
  if type = 161 then
    match fieldId with
    | none => .error .boolContext
    | some fid => writeFieldBegin fid (if truthy val then 1 else 2) s
  else do
    let s ←
      match fieldId with
      | some fid => writeFieldBegin fid type s
      | none => pure s
    if type = 3 then
      match val with
      | .vnum n => writeByte n s
      | _ => .error .range
    else if type = 4 then
      match val with
      | .vnum n => writeWord n s
      | _ => .error .range
    else if type = 5 then
      match val with
      | .vnum n => writeInt n s
      | _ => .error .range
    else if type = 6 then
      match val with
      | .vi64 n => writeLong n s
      | .vnum n => writeLong n s
      | _ => .error .range
    else if type = 8 then
      match val with
      | .vstr bs => writeString bs s
      | .vbin bs => writeString bs s
      | _ => .error .range
    else .error (.unsupportedWrite type)

/-- Entry loop of `write_map`. -/
def writeMapEntries : VMap → Int → Int → WState → Except Err WState
  | .nil, _, _, s => .ok s
  | .cons k v rest, kt, vt, s => do
    let s ← writeVal none kt k s
    let s ← writeVal none vt v s
    writeMapEntries rest kt vt s

/-- `write_map` (MAP = 11). -/
def writeMap (fieldId keyType valueType : Int) (entries : VMap) (s : WState) :
    Except Err WState := do
  let s ← writeFieldBegin fieldId 11 s
  if entries.length = 0 then writeByte 0 s
  else do
    let s ← writeVarint (↑entries.length) s
    let s ← writeByte (jsOr (jsShl (jsAnd keyType 15) 4) (jsAnd valueType 15)) s
    writeMapEntries entries keyType valueType s

/-- `write_stop` (STOP = 0). -/
def writeStop (s : WState) : Except Err WState := do
  let s ← writeByte 0 s
  .ok (popStackW s)

/-- Item loop of `write_list`. -/
def writeListItems : VList → Int → WState → Except Err WState
  | .nil, _, s => .ok s
  | .cons v rest, t, s => do
    let s ← writeVal none t v s
    writeListItems rest t s

/-- `write_list` — note the header always carries the LIST tag (9), also
when called for a SET-typed field. -/
def writeList (fieldId itemType : Int) (items : VList) (s : WState) : Except Err WState := do
  let s ← writeFieldBegin fieldId 9 s
  let s ←
    if items.length < 15 then
      writeByte (jsOr (jsShl (↑items.length) 4) itemType) s
    else do
      let s ← writeByte (jsOr 240 itemType) s
      writeVarint (↑items.length) s
  writeListItems items itemType s

/-- `write_struct_begin` (STRUCT = 12). -/
def writeStructBegin (fieldId : Int) (s : WState) : Except Err WState := do
  let s ← writeFieldBegin fieldId 12 s
  .ok (pushStackW s)

mutual
/-- Field loop of `write_struct`: iterate the schema shape in declaration
order, look the field up in the object by name, skip absent entries,
dispatch on the field's schema type. -/
def writeStructFields : Shape → VFields → WState → Except Err WState
  | .nil, _, s => .ok s
  | .field name num ty rest, obj, s => do
    let s ←
      match findField name obj with
      | none => pure s
      | some v =>
        match ty with
        | .tlist item =>
          match v with
          | .vlist items => writeList num item.tag items s
          | _ => .error .range
        | .tset item =>
          match v with
          | .vlist items => writeList num item.tag items s
          | _ => .error .range
        | .tmap kt vt =>
          match v with
          | .vmap entries => writeMap num kt.tag vt.tag entries s
          | _ => .error .range
        | .tstruct sub => do
          let s ← writeStructBegin num s
          match v with
          | .vstruct fields => writeStruct fields sub s
          | _ => .error .range
        | _ => writeVal (some num) ty.tag v s
    writeStructFields rest obj s

/-- `write_struct`: write present fields (none when the object is empty),
then STOP. -/
def writeStruct (obj : VFields) (shape : Shape) (s : WState) : Except Err WState := do
  let s ← if obj.isEmpty then pure s else writeStructFields shape obj s
  writeStop s
end

/-- `thriftWriteFromObject`: run `write_struct` on a fresh writer, return
the accumulated buffer. -/
def thriftWriteFromObject (obj : VFields) (shape : Shape) : Except Err (List Nat) := do
  let s ← writeStruct obj shape WState.init
  .ok s.out

/-! ## Reader (`BufferReader`)

State: the (fixed) buffer, the clamped cursor, `_prev_field_id` and the
saved-id stack.  `_prev_struct_id` feeds only `pretty_print` (not part of
any claim) and is omitted. -/

structure RState where
  buf : List Nat
  cursor : Nat
  prev : Int
  stack : List Int
  deriving Repr, DecidableEq

/-- `move`: clamp the cursor into [0, length] and return `cursor' - bytes`
(the position the access then uses; at the buffer edges it can lie before
the start or before the new cursor). -/
def moveR (bytes : Int) (s : RState) : Int × RState :=
  let c : Int := min (max ((s.cursor : Int) + bytes) 0) (s.buf.length : Int)
  (c - bytes, { s with cursor := c.toNat })

/-- `readByte` / `Buffer.readUInt8`: RangeError outside the buffer. -/
def readByte (s : RState) : Except Err (Nat × RState) :=
  let (i, s) := moveR 1 s
  if 0 ≤ i ∧ i < (s.buf.length : Int) then .ok (s.buf.getD i.toNat 0, s)
  else .error .range

/-- `readSByte` / `Buffer.readInt8` (same bounds, signed byte). -/
def readSByte (s : RState) : Except Err (Int × RState) :=
  let (i, s) := moveR 1 s
  if 0 ≤ i ∧ i < (s.buf.length : Int) then
    let b := s.buf.getD i.toNat 0
    .ok (if b < 128 then (b : Int) else (b : Int) - 256, s)
  else .error .range

/-- `_push_stack` (reader). -/
def pushStackR (s : RState) : RState :=
  { s with stack := s.prev :: s.stack, prev := 0 }

/-- `_pop_stack` (reader): restores only when the stack is nonempty. -/
def popStackR (s : RState) : RState :=
  match s.stack with
  | [] => s
  | p :: rest => { s with prev := p, stack := rest }

/-- Loop of `readVarInt`, driven by the remaining byte count: the loop
reads one byte per iteration while `cursor < length`, so `length - cursor`
iterations always reach the loop guard's exit. -/
def readVarIntLoop : Nat → RState → Int → Int → Int × RState
  | 0, s, _, result => (result, s)
  | k + 1, s, shift, result =>
    if s.cursor < s.buf.length then
      let b : Int := (↑(s.buf.getD s.cursor 0) : Int)
      let s := { s with cursor := s.cursor + 1 }
      let result := jsOr result (jsShl (jsAnd b 127) shift)
      if jsAnd b 128 = 0 then (result, s)
      else readVarIntLoop k s (shift + 7) result
    else (result, s)

/-- `readVarInt` (32-bit JS-number accumulation). -/
def readVarInt (s : RState) : Int × RState :=
  readVarIntLoop (s.buf.length - s.cursor) s 0 0

/-- Loop of `readVarBigint` (exact bigint accumulation; the loop breaks
unless `(byte & 0x80) === 0x80`). -/
def readVarBigintLoop : Nat → RState → Nat → Int → Int × RState
  | 0, s, _, result => (result, s)
  | k + 1, s, shift, result =>
    if s.cursor < s.buf.length then
      let b : Int := (↑(s.buf.getD s.cursor 0) : Int)
      let s := { s with cursor := s.cursor + 1 }
      let result := intOr result (intShl (intAnd b 127) shift)
      if jsAnd b 128 ≠ 128 then (result, s)
      else readVarBigintLoop k s (shift + 7) result
    else (result, s)

/-- `readVarBigint`. -/
def readVarBigint (s : RState) : Int × RState :=
  readVarBigintLoop (s.buf.length - s.cursor) s 0 0

/-- JS `Buffer.slice(start, end)`: negative indices count from the end,
then both ends are clamped to [0, length]; empty if start ≥ end. -/
def bufSlice (buf : List Nat) (start stop : Int) : List Nat :=
  let len : Int := buf.length
  let a := if start < 0 then max (len + start) 0 else min start len
  let b := if stop < 0 then max (len + stop) 0 else min stop len
  if a < b then (buf.drop a.toNat).take (b - a).toNat else []

/-- `readBinary`: `this._buffer.slice(this.move(len), this._cursor)`. -/
def readBinary (len : Int) (s : RState) : List Nat × RState :=
  let (start, s) := moveR len s
  (bufSlice s.buf start (s.cursor : Int), s)

/-- `read_field`: returns `(type_tag, field_id)`; a zero byte yields
`(STOP, -1)` without touching `prev`. -/
def readField (s : RState) : Except Err ((Int × Int) × RState) := do
  let (b, s) ← readByte s
  if b = 0 then .ok ((0, -1), s)
  else
    let delta := jsShr (jsAnd (↑b) 240) 4
    if delta = 0 then
      let (v, s) := readVarInt s
      let s := { s with prev := fromZigZag v }
      .ok ((jsAnd (↑b) 15, s.prev), s)
    else
      let s := { s with prev := s.prev + delta }
      .ok ((jsAnd (↑b) 15, s.prev), s)

/-- `read_val`: scalar decode by wire tag.  DOUBLE/FLOAT read 8/4
little-endian bytes (`readDoubleLE`/`readFloatLE` bounds as in Node);
their IEEE-754 interpretation is kept as the raw bytes (`vraw`) — no
verified claim depends on the numeric float value, only on the bytes
consumed. -/
def readVal (type : Int) (s : RState) : Except Err (Val × RState) :=
  if type = 1 then .ok (.vbool true, s)
  else if type = 2 then .ok (.vbool false, s)
  else if type = 3 then do
    let (v, s) ← readSByte s
    .ok (.vnum v, s)
  else if type = 8 then
    let (len, s) := readVarInt s
    let (bs, s) := readBinary len s
    .ok (.vbin bs, s)
  else if type = 4 ∨ type = 5 then
    let (v, s) := readVarInt s
    .ok (.vnum (fromZigZag v), s)
  else if type = 6 then
    let (v, s) := readVarBigint s
    .ok (.vi64 (fromZigZagToBigInt v), s)
  else if type = 7 then
    let (i, s) := moveR 8 s
    if 0 ≤ i ∧ i + 8 ≤ (s.buf.length : Int) then .ok (.vraw (bufSlice s.buf i (i + 8)), s)
    else .error .range
  else if type = 13 then
    let (i, s) := moveR 4 s
    if 0 ≤ i ∧ i + 4 ≤ (s.buf.length : Int) then .ok (.vraw (bufSlice s.buf i (i + 4)), s)
    else .error .range
  else .error (.notImplemented type)

/-- `read_list_header`: `(item_type, length)`. -/
def readListHeader (s : RState) : Except Err ((Int × Int) × RState) := do
  let (b, s) ← readByte s
  let type := jsAnd (↑b) 15
  let len := jsShr (↑b) 4
  if len = 15 then
    let (l, s) := readVarInt s
    .ok ((type, l), s)
  else .ok ((type, len), s)

/-- `read_map_header`: peek one byte; `0x00` means the empty map,
otherwise rewind and read a varint length and a key/value types byte. -/
def readMapHeader (s : RState) : Except Err ((Int × Int × Int) × RState) := do
  let saved := s.cursor
  let (b, s) ← readByte s
  if b = 0 then .ok ((0, 0, 0), s)
  else
    let s := { s with cursor := saved }
    let (len, s) := readVarInt s
    let (types, s) ← readByte s
    .ok ((jsShr (↑types) 4, jsAnd (↑types) 15, len), s)

/-- `Object.assign(response, { [keyName]: v })`: update in place if the
key exists, else append. -/
def assocSet (name : String) (v : Val) : VFields → VFields
  | .nil => .cons name v .nil
  | .cons n w rest => if n = name then .cons n v rest else .cons n w (assocSet name v rest)

/-- `fields.find(([_, field]) => field.meta.number == field_index)`. -/
def findByNum (num : Int) : Shape → Option (String × Ty)
  | .nil => none
  | .field n fnum ty rest => if fnum = num then some (n, ty) else findByNum num rest

def Shape.isNil : Shape → Bool
  | .nil => true
  | .field .. => false

/-!
The recursive reader procedures.  They recurse on the byte stream (and on
wire-supplied lengths), so every call in the mutual block consumes one
unit of `fuel`; `Err.fuel` cannot occur with sufficient fuel.  The
`field_path` diagnostic strings and the `console.log` on skipped fields
have no observable effect and are not modelled.
-/

mutual

/-- `skip`: read and discard a value of the given wire type. -/
def skipR : Nat → Int → RState → Except Err RState
  | 0, _, _ => .error .fuel
  | k + 1, type, s =>
    if type = 12 then do
      let s ← skipStructLoop k (pushStackR s)
      .ok (popStackR s)
    else if type = 9 ∨ type = 10 then do
      let ((itemType, len), s) ← readListHeader s
      skipMany k itemType len s
    else if type = 11 then do
      let ((kt, vt, len), s) ← readMapHeader s
      skipPairs k kt vt len s
    else do
      let (_, s) ← readVal type s
      .ok s

/-- The STRUCT case's field loop inside `skip`. -/
def skipStructLoop : Nat → RState → Except Err RState
  | 0, _ => .error .fuel
  | k + 1, s =>
    if s.cursor < s.buf.length then do
      let ((ft, _), s) ← readField s
      if ft = 0 then .ok s
      else do
        let s ← skipR k ft s
        skipStructLoop k s
    else .ok s

/-- `for (let i = 0; i < length; i++) skip(item_type)`. -/
def skipMany : Nat → Int → Int → RState → Except Err RState
  | 0, _, _, _ => .error .fuel
  | k + 1, t, n, s =>
    if 0 < n then do
      let s ← skipR k t s
      skipMany k t (n - 1) s
    else .ok s

/-- The MAP case's pair loop inside `skip`. -/
def skipPairs : Nat → Int → Int → Int → RState → Except Err RState
  | 0, _, _, _, _ => .error .fuel
  | k + 1, kt, vt, n, s =>
    if 0 < n then do
      let s ← skipR k kt s
      let s ← skipR k vt s
      skipPairs k kt vt (n - 1) s
    else .ok s

/-- `read_val_recursive`. -/
def readValRec : Nat → Ty → RState → Except Err (Val × RState)
  | 0, _, _ => .error .fuel
  | k + 1, ty, s =>
    match ty with
    | .tstruct shape =>
      if shape.isNil then .error .emptyStruct
      else do
        let (resp, s) ← readStructLoop k shape .nil (pushStackR s)
        .ok (.vstruct resp, popStackR s)
    | .tmap key value => do
      let ((kt, vt, len), s) ← readMapHeader s
      if len = 0 then .ok (.vmap .nil, s)
      else if kt ≠ key.tag then .error (.mismatchKey key.tag kt)
      else if vt ≠ value.tag then .error (.mismatchValue value.tag vt)
      else do
        let (entries, s) ← readKVs k key value len s
        .ok (.vmap entries, s)
    | .tlist item => readListBody k item s
    | .tset item => readListBody k item s
    | .binaryStr =>
      let (len, s) := readVarInt s
      let (bs, s) := readBinary len s
      .ok (.vstr bs, s)
    | _ => readVal ty.tag s

/-- The shared LIST/SET body of `read_val_recursive`. -/
def readListBody : Nat → Ty → RState → Except Err (Val × RState)
  | 0, _, _ => .error .fuel
  | k + 1, item, s => do
    let ((itemType, len), s) ← readListHeader s
    if len = 0 then .ok (.vlist .nil, s)
    else if itemType ≠ item.tag then .error (.mismatchItem item.tag itemType)
    else do
      let (items, s) ← readItems k item len s
      .ok (.vlist items, s)

/-- `Array(length).fill(null).map(-- read one item --)`; a negative wire
length makes `Array(length)` throw a RangeError. -/
def readItems : Nat → Ty → Int → RState → Except Err (VList × RState)
  | 0, _, _, _ => .error .fuel
  | k + 1, item, n, s =>
    if 0 < n then do
      let (v, s) ← readValRec k item s
      let (rest, s) ← readItems k item (n - 1) s
      .ok (.cons v rest, s)
    else if n = 0 then .ok (.nil, s)
    else .error .range

/-- `Array(length).fill(null).map(-- _read_kv: key, then value --)`. -/
def readKVs : Nat → Ty → Ty → Int → RState → Except Err (VMap × RState)
  | 0, _, _, _, _ => .error .fuel
  | k + 1, key, value, n, s =>
    if 0 < n then do
      let (kv, s) ← readValRec k key s
      let (vv, s) ← readValRec k value s
      let (rest, s) ← readKVs k key value (n - 1) s
      .ok (.cons kv vv rest, s)
    else if n = 0 then .ok (.nil, s)
    else .error .range

/-- The field loop of `read_struct`. -/
def readStructLoop : Nat → Shape → VFields → RState → Except Err (VFields × RState)
  | 0, _, _, _ => .error .fuel
  | k + 1, shape, resp, s =>
    if s.cursor < s.buf.length then do
      let ((ftype, fid), s) ← readField s
      if ftype = 0 then .ok (resp, s)
      else
        match findByNum fid shape with
        | some (name, fty) =>
          let expected := if isThriftBoolean ftype then (161 : Int) else ftype
          if fty.tag ≠ expected then .error (.mismatchField fty.tag ftype)
          else if expected = 161 then
            readStructLoop k shape (assocSet name (.vbool (ftype = 1)) resp) s
          else do
            let (v, s) ← readValRec k fty s
            readStructLoop k shape (assocSet name v resp) s
        | none => do
          let s ← skipR k ftype s
          readStructLoop k shape resp s
    else .ok (resp, s)

end

/-- `read_struct` (public).  Also the root decode: no empty-shape check
and no stack frame here. -/
def readStruct (fuel : Nat) (shape : Shape) (s : RState) : Except Err (VFields × RState) :=
  readStructLoop fuel shape .nil s

/-- `thriftReadToObject`: fresh reader over the buffer, `read_struct` with
the root schema. -/
def thriftReadToObject (fuel : Nat) (buffer : List Nat) (shape : Shape) :
    Except Err VFields := do
  let (resp, _) ← readStruct fuel shape ⟨buffer, 0, 0, []⟩
  .ok resp

/-! # Proof layer

## Arithmetic facts about the embedded JS integer operations -/

theorem toInt32_eq_self {n : Int} (h1 : -2147483648 ≤ n) (h2 : n < 2147483648) :
    toInt32 n = n := by
  unfold toInt32; omega

theorem toUInt32_eq_self {n : Int} (h1 : 0 ≤ n) (h2 : n < 4294967296) :
    toUInt32 n = n := by
  unfold toUInt32; omega

theorem intAnd_ofNat (m n : Nat) :
    intAnd (Int.ofNat m) (Int.ofNat n) = Int.ofNat (m &&& n) := rfl

theorem intOr_ofNat (m n : Nat) :
    intOr (Int.ofNat m) (Int.ofNat n) = Int.ofNat (m ||| n) := rfl

theorem intXor_ofNat (m n : Nat) :
    intXor (Int.ofNat m) (Int.ofNat n) = Int.ofNat (m ^^^ n) := rfl

theorem intAnd_ofNat_negSucc (m n : Nat) :
    intAnd (Int.ofNat m) (Int.negSucc n) = Int.ofNat (Nat.ldiff m n) := rfl

theorem intXor_ofNat_negSucc (m n : Nat) :
    intXor (Int.ofNat m) (Int.negSucc n) = Int.negSucc (m ^^^ n) := rfl

theorem intXor_negSucc_negSucc (m n : Nat) :
    intXor (Int.negSucc m) (Int.negSucc n) = Int.ofNat (m ^^^ n) := rfl

theorem natAnd_two_pow_sub_one (m k : Nat) : m &&& (2 ^ k - 1) = m % 2 ^ k := by
  apply Nat.eq_of_testBit_eq
  intro i
  rw [Nat.testBit_land, Nat.testBit_two_pow_sub_one, Nat.testBit_mod_two_pow]
  exact Bool.and_comm _ _

theorem natLdiff_two_pow_sub_one (m k : Nat) :
    Nat.ldiff m (2 ^ k - 1) = 2 ^ k * (m / 2 ^ k) := by
  have hshift : 2 ^ k * (m / 2 ^ k) = (m >>> k) <<< k := by
    rw [Nat.shiftRight_eq_div_pow, Nat.shiftLeft_eq]; ring
  apply Nat.eq_of_testBit_eq
  intro i
  rw [Nat.testBit_ldiff, Nat.testBit_two_pow_sub_one, hshift,
    Nat.testBit_shiftLeft, Nat.testBit_shiftRight]
  by_cases h : k ≤ i
  · have hki : k + (i - k) = i := by omega
    simp [h, hki, Nat.not_lt.mpr h]
  · simp [h, Nat.lt_of_not_le h]

/-- Disjoint OR is addition: low bits below `2^s`, high bits a multiple of
`2^s`. -/
theorem natOr_eq_add {a : Nat} (b s : Nat) (ha : a < 2 ^ s) :
    a ||| 2 ^ s * b = a + 2 ^ s * b := by
  have hshift : 2 ^ s * b = b <<< s := by rw [Nat.shiftLeft_eq]; ring
  apply Nat.eq_of_testBit_eq
  intro i
  rw [Nat.testBit_lor, Nat.add_comm a (2 ^ s * b),
    Nat.testBit_mul_pow_two_add b ha i, hshift, Nat.testBit_shiftLeft]
  by_cases h : i < s
  · simp [h, Nat.not_le.mpr h]
  · have hlow : a.testBit i = false :=
      Nat.testBit_lt_two_pow (lt_of_lt_of_le ha (Nat.pow_le_pow_right (by omega) (by omega)))
    simp [h, hlow, Nat.not_lt.mp h]

theorem toInt32_congr {a b : Int} (h : a % 4294967296 = b % 4294967296) :
    toInt32 a = toInt32 b := by
  unfold toInt32; rw [h]

theorem jsAnd_eq_natAnd {a b : Int} (ha : 0 ≤ a) (ha2 : a < 2147483648)
    (hb : 0 ≤ b) (hb2 : b < 2147483648) :
    jsAnd a b = (↑(a.toNat &&& b.toNat) : Int) := by
  unfold jsAnd
  rw [toInt32_eq_self (by omega) ha2, toInt32_eq_self (by omega) hb2]
  conv_lhs => rw [← Int.toNat_of_nonneg ha, ← Int.toNat_of_nonneg hb]
  exact intAnd_ofNat _ _

theorem jsOr_eq_natOr {a b : Int} (ha : 0 ≤ a) (ha2 : a < 2147483648)
    (hb : 0 ≤ b) (hb2 : b < 2147483648) :
    jsOr a b = (↑(a.toNat ||| b.toNat) : Int) := by
  unfold jsOr
  rw [toInt32_eq_self (by omega) ha2, toInt32_eq_self (by omega) hb2]
  conv_lhs => rw [← Int.toNat_of_nonneg ha, ← Int.toNat_of_nonneg hb]
  exact intOr_ofNat _ _

/-- `a & ~0x7f` on a nonnegative in-range number clears the low 7 bits. -/
theorem jsAnd_neg128 {a : Int} (ha : 0 ≤ a) (ha2 : a < 2147483648) :
    jsAnd a (-128) = a - a % 128 := by
  unfold jsAnd
  rw [toInt32_eq_self (by omega) ha2,
    show toInt32 (-128) = Int.negSucc 127 by decide]
  have h1 : intAnd a (Int.negSucc 127) = (↑(Nat.ldiff a.toNat 127) : Int) := by
    conv_lhs => rw [← Int.toNat_of_nonneg ha]
    exact intAnd_ofNat_negSucc _ _
  rw [h1, show (127 : Nat) = 2 ^ 7 - 1 by norm_num, natLdiff_two_pow_sub_one,
    show (2 : Nat) ^ 7 = 128 by norm_num]
  omega

/-- `a & 0x7f` on a nonnegative in-range number is `a % 128`. -/
theorem jsAnd_127 {a : Int} (ha : 0 ≤ a) (ha2 : a < 2147483648) :
    jsAnd a 127 = a % 128 := by
  rw [jsAnd_eq_natAnd ha ha2 (by omega) (by omega),
    show (127 : Int).toNat = 2 ^ 7 - 1 by decide, natAnd_two_pow_sub_one,
    show (2 : Nat) ^ 7 = 128 by norm_num]
  omega

/-- `a & 0xff` on a nonnegative in-range number is `a % 256`. -/
theorem jsAnd_255 {a : Int} (ha : 0 ≤ a) (ha2 : a < 2147483648) :
    jsAnd a 255 = a % 256 := by
  rw [jsAnd_eq_natAnd ha ha2 (by omega) (by omega),
    show (255 : Int).toNat = 2 ^ 8 - 1 by decide, natAnd_two_pow_sub_one,
    show (2 : Nat) ^ 8 = 256 by norm_num]
  omega

/-- `a & 0x0f` on a nonnegative in-range number is `a % 16`. -/
theorem jsAnd_15 {a : Int} (ha : 0 ≤ a) (ha2 : a < 2147483648) :
    jsAnd a 15 = a % 16 := by
  rw [jsAnd_eq_natAnd ha ha2 (by omega) (by omega),
    show (15 : Int).toNat = 2 ^ 4 - 1 by decide, natAnd_two_pow_sub_one,
    show (2 : Nat) ^ 4 = 16 by norm_num]
  omega

/-- `a & 1` on a nonnegative in-range number is `a % 2`. -/
theorem jsAnd_1 {a : Int} (ha : 0 ≤ a) (ha2 : a < 2147483648) :
    jsAnd a 1 = a % 2 := by
  rw [jsAnd_eq_natAnd ha ha2 (by omega) (by omega),
    show (1 : Int).toNat = 2 ^ 1 - 1 by decide, natAnd_two_pow_sub_one,
    show (2 : Nat) ^ 1 = 2 by norm_num]
  omega

theorem jsShl_eq {a : Int} (k : Nat) (ha : -2147483648 ≤ a) (ha2 : a < 2147483648)
    (hk : k < 32) (hlow : -2147483648 ≤ a * 2 ^ k) (hhigh : a * 2 ^ k < 2147483648) :
    jsShl a (k : Int) = a * 2 ^ k := by
  unfold jsShl
  rw [toInt32_eq_self ha ha2]
  have hknat : (toUInt32 (k : Int)).toNat % 32 = k := by
    rw [toUInt32_eq_self (by omega) (by omega)]
    omega
  rw [hknat]
  have hc : toInt32 (toUInt32 a * 2 ^ k) = toInt32 (a * 2 ^ k) := by
    apply toInt32_congr
    unfold toUInt32
    conv_lhs => rw [Int.mul_emod]
    conv_rhs => rw [Int.mul_emod]
    rw [Int.emod_emod_of_dvd _ (by norm_num)]
  rw [hc, toInt32_eq_self hlow hhigh]

theorem jsShr_eq {a : Int} (k : Nat) (ha : -2147483648 ≤ a) (ha2 : a < 2147483648)
    (hk : k < 32) :
    jsShr a (k : Int) = a / 2 ^ k := by
  unfold jsShr intShr
  rw [toInt32_eq_self ha ha2]
  have hknat : (toUInt32 (k : Int)).toNat % 32 = k := by
    rw [toUInt32_eq_self (by omega) (by omega)]
    omega
  rw [hknat, Int.fdiv_eq_ediv _ (by positivity)]

theorem intShr_eq_ediv (a : Int) (k : Nat) : intShr a k = a / 2 ^ k := by
  unfold intShr
  rw [Int.fdiv_eq_ediv _ (by positivity)]

theorem intXor_zero (a : Int) : intXor a 0 = a := by
  unfold intXor
  cases a with
  | ofNat m =>
    show Int.xor (Int.ofNat m) (Int.ofNat 0) = Int.ofNat m
    rw [show Int.xor (Int.ofNat m) (Int.ofNat 0) = Int.ofNat (m ^^^ 0) from rfl]
    simp
  | negSucc m =>
    show Int.xor (Int.negSucc m) (Int.ofNat 0) = Int.negSucc m
    rw [show Int.xor (Int.negSucc m) (Int.ofNat 0) = Int.negSucc (m ^^^ 0) from rfl]
    simp

theorem intXor_neg_one (a : Int) : intXor a (-1) = -a - 1 := by
  unfold intXor
  cases a with
  | ofNat m =>
    rw [show ((-1 : Int)) = Int.negSucc 0 from rfl,
      show Int.xor (Int.ofNat m) (Int.negSucc 0) = Int.negSucc (m ^^^ 0) from rfl]
    simp [Int.negSucc_eq]
    ring
  | negSucc m =>
    rw [show ((-1 : Int)) = Int.negSucc 0 from rfl,
      show Int.xor (Int.negSucc m) (Int.negSucc 0) = Int.ofNat (m ^^^ 0) from rfl]
    simp [Int.negSucc_eq]

theorem intAnd_nonneg_eq {a b : Int} (ha : 0 ≤ a) (hb : 0 ≤ b) :
    intAnd a b = (↑(a.toNat &&& b.toNat) : Int) := by
  conv_lhs => rw [← Int.toNat_of_nonneg ha, ← Int.toNat_of_nonneg hb]
  exact intAnd_ofNat _ _

theorem intOr_nonneg_eq {a b : Int} (ha : 0 ≤ a) (hb : 0 ≤ b) :
    intOr a b = (↑(a.toNat ||| b.toNat) : Int) := by
  conv_lhs => rw [← Int.toNat_of_nonneg ha, ← Int.toNat_of_nonneg hb]
  exact intOr_ofNat _ _

theorem intAnd_1 {a : Int} (ha : 0 ≤ a) : intAnd a 1 = a % 2 := by
  rw [intAnd_nonneg_eq ha (by omega),
    show (1 : Int).toNat = 2 ^ 1 - 1 by decide, natAnd_two_pow_sub_one,
    show (2 : Nat) ^ 1 = 2 by norm_num]
  omega

theorem intAnd_127 {a : Int} (ha : 0 ≤ a) : intAnd a 127 = a % 128 := by
  rw [intAnd_nonneg_eq ha (by omega),
    show (127 : Int).toNat = 2 ^ 7 - 1 by decide, natAnd_two_pow_sub_one,
    show (2 : Nat) ^ 7 = 128 by norm_num]
  omega

theorem intAnd_neg128 {a : Int} (ha : 0 ≤ a) : intAnd a (-128) = a - a % 128 := by
  rw [show ((-128 : Int)) = Int.negSucc 127 from rfl]
  have h1 : intAnd a (Int.negSucc 127) = (↑(Nat.ldiff a.toNat 127) : Int) := by
    conv_lhs => rw [← Int.toNat_of_nonneg ha]
    exact intAnd_ofNat_negSucc _ _
  rw [h1, show (127 : Nat) = 2 ^ 7 - 1 by norm_num, natLdiff_two_pow_sub_one,
    show (2 : Nat) ^ 7 = 128 by norm_num]
  omega


/-! ## Zigzag: specification-level pair and correspondence -/

/-- Specification zigzag: the standard bijection into the nonnegatives. -/
def zig (n : Int) : Int := if 0 ≤ n then 2 * n else -2 * n - 1

/-- Specification inverse of `zig`. -/
def unzig (z : Int) : Int := if z % 2 = 0 then z / 2 else -(z / 2) - 1

theorem unzig_zig (n : Int) : unzig (zig n) = n := by
  unfold zig unzig
  split_ifs <;> omega

theorem zig_nonneg (n : Int) : 0 ≤ zig n := by
  unfold zig; split_ifs <;> omega

theorem jsXor_zero_right {a : Int} (h1 : -2147483648 ≤ a) (h2 : a < 2147483648) :
    jsXor a 0 = a := by
  unfold jsXor
  rw [show toInt32 0 = 0 by decide, intXor_zero, toInt32_eq_self h1 h2]

theorem jsXor_neg_one_right {a : Int} (h1 : -2147483648 ≤ a) (h2 : a < 2147483648) :
    jsXor a (-1) = -a - 1 := by
  unfold jsXor
  rw [show toInt32 (-1) = -1 by decide, toInt32_eq_self h1 h2, intXor_neg_one]

theorem jsShl_one {a : Int} (h1 : -1073741824 ≤ a) (h2 : a < 1073741824) :
    jsShl a 1 = 2 * a := by
  have := jsShl_eq (a := a) 1 (by omega) (by omega) (by omega) (by omega) (by omega)
  rw [show (((1 : Nat)) : Int) = (1 : Int) by norm_num] at this
  rw [this]; ring

/-- `toZigZag n 16` agrees with the pure zigzag on the 16-bit signed range. -/
theorem toZigZag16_eq {n : Int} (h1 : -32768 ≤ n) (h2 : n < 32768) :
    toZigZag n 16 = zig n := by
  unfold toZigZag
  have e2 : jsShr n (16 - 1) = n / 32768 := by
    have := jsShr_eq (a := n) 15 (by omega) (by omega) (by omega)
    rw [show (((15 : Nat)) : Int) = ((16 : Int) - 1) by norm_num] at this
    rw [this]; norm_num
  rw [jsShl_one (by omega) (by omega), e2]
  by_cases h : 0 ≤ n
  · rw [show n / 32768 = 0 by omega, jsXor_zero_right (by omega) (by omega)]
    unfold zig; rw [if_pos h]
  · rw [show n / 32768 = -1 by omega, jsXor_neg_one_right (by omega) (by omega)]
    unfold zig; rw [if_neg h]; ring

/-- `toZigZag n 32` agrees with the pure zigzag on `[-2^30, 2^30)` (outside
this range the 32-bit wrap-around of `<<`/`>>` makes them diverge). -/
theorem toZigZag32_eq {n : Int} (h1 : -1073741824 ≤ n) (h2 : n < 1073741824) :
    toZigZag n 32 = zig n := by
  unfold toZigZag
  have e2 : jsShr n (32 - 1) = n / 2147483648 := by
    have := jsShr_eq (a := n) 31 (by omega) (by omega) (by omega)
    rw [show (((31 : Nat)) : Int) = ((32 : Int) - 1) by norm_num] at this
    rw [this]; norm_num
  rw [jsShl_one (by omega) (by omega), e2]
  by_cases h : 0 ≤ n
  · rw [show n / 2147483648 = 0 by omega, jsXor_zero_right (by omega) (by omega)]
    unfold zig; rw [if_pos h]
  · rw [show n / 2147483648 = -1 by omega, jsXor_neg_one_right (by omega) (by omega)]
    unfold zig; rw [if_neg h]; ring

/-- `fromZigZag` agrees with the pure inverse on `[0, 2^31)`. -/
theorem fromZigZag_eq {z : Int} (h1 : 0 ≤ z) (h2 : z < 2147483648) :
    fromZigZag z = unzig z := by
  unfold fromZigZag
  have e1 : jsShr z 1 = z / 2 := by
    have := jsShr_eq (a := z) 1 (by omega) (by omega) (by omega)
    rw [show (((1 : Nat)) : Int) = (1 : Int) by norm_num] at this
    rw [this]; norm_num
  rw [e1, jsAnd_1 h1 h2]
  unfold unzig
  by_cases h : z % 2 = 0
  · rw [if_pos h, h, show -(0 : Int) = 0 by norm_num,
      jsXor_zero_right (by omega) (by omega)]
  · rw [if_neg h, show z % 2 = 1 by omega, show -(1 : Int) = -1 by norm_num,
      jsXor_neg_one_right (by omega) (by omega)]

theorem intShl_one (n : Int) : intShl n 1 = 2 * n := by
  unfold intShl; ring

/-- `bigintToZigZag` agrees with the pure zigzag on the 64-bit signed
range. -/
theorem bigintToZigZag_eq {n : Int} (h1 : -9223372036854775808 ≤ n)
    (h2 : n < 9223372036854775808) :
    bigintToZigZag n = zig n := by
  unfold bigintToZigZag
  rw [intShl_one, intShr_eq_ediv]
  by_cases h : 0 ≤ n
  · rw [show n / 2 ^ 63 = 0 by omega, intXor_zero]
    unfold zig; rw [if_pos h]
  · rw [show n / 2 ^ 63 = -1 by omega, intXor_neg_one]
    unfold zig; rw [if_neg h]; ring

/-- `fromZigZagToBigInt` agrees with the pure inverse on all nonnegative
inputs. -/
theorem fromZigZagToBigInt_eq {z : Int} (h1 : 0 ≤ z) :
    fromZigZagToBigInt z = unzig z := by
  unfold fromZigZagToBigInt
  rw [intShr_eq_ediv, intAnd_1 h1, show (2 : Int) ^ 1 = 2 by norm_num]
  unfold unzig
  by_cases h : z % 2 = 0
  · rw [if_pos h, h, show -(0 : Int) = 0 by norm_num, intXor_zero]
  · rw [if_neg h, show z % 2 = 1 by omega, show -(1 : Int) = -1 by norm_num,
      intXor_neg_one]


/-! ## Varint byte sequences -/

/-- The standard varint encoding of a natural number: little-endian base-128
digits, continuation bit on all but the last. -/
def natVarint (n : Nat) : List Nat :=
  if _ : n < 128 then [n] else (n % 128 + 128) :: natVarint (n / 128)
termination_by n
decreasing_by exact Nat.div_lt_self (by omega) (by omega)

theorem natVarint_length_pos (n : Nat) : 1 ≤ (natVarint n).length := by
  unfold natVarint
  split <;> simp

theorem natVarint_small {n : Nat} (h : n < 128) : natVarint n = [n] := by
  unfold natVarint
  rw [dif_pos h]

theorem natVarint_large {n : Nat} (h : ¬n < 128) :
    natVarint n = (n % 128 + 128) :: natVarint (n / 128) := by
  conv_lhs => unfold natVarint
  rw [dif_neg h]

set_option maxRecDepth 4000 in
theorem byteOr128 : ∀ m, m < 256 → m ||| 128 = m % 128 + 128 := by decide

set_option maxRecDepth 4000 in
theorem byteAnd128 : ∀ m, m < 256 → m &&& 128 = if m < 128 then 0 else 128 := by decide

/-- `_write_varint` emits the standard varint for arguments in `[0, 2^31)`
(outside that range the `& ~0x7f` / `>> 7` arithmetic on negative 32-bit
values truncates; see the C3 counterexample). -/
theorem writeVarintLoop_ok (n : Nat) : ∀ (k : Nat) (s : WState),
    n < 2147483648 → (natVarint n).length ≤ k →
    writeVarintLoop k (↑n) s = .ok { s with out := s.out ++ natVarint n } := by
  induction n using Nat.strong_induction_on with
  | _ n ih =>
    intro k s hn hk
    have hlen := natVarint_length_pos n
    obtain ⟨k', rfl⟩ : ∃ k', k = k' + 1 := ⟨k - 1, by omega⟩
    unfold writeVarintLoop
    rw [jsAnd_neg128 (by omega) (by omega)]
    by_cases h : n < 128
    · rw [if_pos (by omega : (↑n : Int) - ↑n % 128 = 0)]
      unfold writeByte
      rw [if_pos ⟨by omega, by omega⟩, natVarint_small h]
      simp
    · rw [if_neg (by omega : ¬((↑n : Int) - ↑n % 128 = 0)),
        if_neg (by omega : ¬((↑n : Int) - ↑n % 128 = -128))]
      rw [jsAnd_255 (by omega) (by omega),
        jsOr_eq_natOr (by omega) (by omega) (by omega) (by omega)]
      have ht : ((↑n : Int) % 256).toNat = n % 256 := by omega
      have ht2 : ((128 : Int)).toNat = 128 := by omega
      rw [ht, ht2, byteOr128 (n % 256) (by omega),
        show n % 256 % 128 = n % 128 by omega]
      show (writeByte _ s).bind _ = _
      unfold writeByte
      rw [if_pos ⟨by omega, by omega⟩]
      show writeVarintLoop k' (jsShr (↑n) 7) _ = _
      have hshr : jsShr (↑n) 7 = ↑(n / 128) := by
        have := jsShr_eq (a := (↑n : Int)) 7 (by omega) (by omega) (by omega)
        rw [show (((7 : Nat)) : Int) = (7 : Int) by norm_num] at this
        rw [this]
        omega
      rw [hshr, ih (n / 128) (Nat.div_lt_self (by omega) (by omega)) k' _ (by omega)
        (by rw [natVarint_large h] at hk; simp at hk; omega)]
      rw [natVarint_large h]
      simp
      omega


/-- Cast form of `jsShl` on naturals. -/
theorem jsShl_cast (n s : Nat) (hs : s < 32) (hb : n * 2 ^ s < 2147483648) :
    jsShl (↑n) (↑s) = (↑(n * 2 ^ s) : Int) := by
  have hcast : ((n * 2 ^ s : Nat) : Int) = (↑n : Int) * (2 : Int) ^ s := by
    push_cast; ring
  have hle : n ≤ n * 2 ^ s := Nat.le_mul_of_pos_right n (by positivity)
  have hnn : (0 : Int) ≤ (↑n : Int) * 2 ^ s :=
    mul_nonneg (Int.natCast_nonneg n) (pow_nonneg (by norm_num) _)
  have hub : ((n * 2 ^ s : Nat) : Int) < 2147483648 := by exact_mod_cast hb
  rw [hcast] at hub
  rw [jsShl_eq s (by omega) (by omega) hs
    (le_trans (by norm_num) hnn) hub, ← hcast]

/-- Cast form of `jsOr` on naturals. -/
theorem jsOr_cast (a b : Nat) (ha : a < 2147483648) (hb : b < 2147483648) :
    jsOr (↑a) (↑b) = (↑(a ||| b) : Int) := by
  rw [jsOr_eq_natOr (Int.natCast_nonneg a) (by exact_mod_cast ha)
    (Int.natCast_nonneg b) (by exact_mod_cast hb), Int.toNat_natCast, Int.toNat_natCast]

/-- Cast form of `jsAnd` on naturals. -/
theorem jsAnd_cast (a b : Nat) (ha : a < 2147483648) (hb : b < 2147483648) :
    jsAnd (↑a) (↑b) = (↑(a &&& b) : Int) := by
  rw [jsAnd_eq_natAnd (Int.natCast_nonneg a) (by exact_mod_cast ha)
    (Int.natCast_nonneg b) (by exact_mod_cast hb), Int.toNat_natCast, Int.toNat_natCast]

/-- One `readVarInt` loop iteration on a terminal byte (`d < 128`). -/
theorem readVarIntLoop_last (n j acc k : Nat) (pre post : List Nat) (p : Int)
    (st : List Int) (h : n < 128) (hacc2 : acc < 2 ^ (7 * j))
    (hbound : n * 2 ^ (7 * j) + acc < 2147483648) (h7j : 7 * j < 32) :
    readVarIntLoop (k + 1) ⟨pre ++ [n] ++ post, pre.length, p, st⟩ (↑(7 * j)) (↑acc) =
      ((↑(acc + n * 2 ^ (7 * j)) : Int),
       ⟨pre ++ [n] ++ post, pre.length + 1, p, st⟩) := by
  have hguard : pre.length < (pre ++ [n] ++ post).length := by simp
  have hget0 : (pre ++ [n] ++ post).getD pre.length 0 = n := by
    rw [List.append_assoc, List.getD_append_right _ _ _ _ (le_refl _), Nat.sub_self]
    rfl
  have hand127 : jsAnd (↑n) 127 = (↑n : Int) := by
    rw [jsAnd_127 (by omega) (by omega)]
    exact Int.emod_eq_of_lt (by omega) (by omega)
  have hshl : jsShl (↑n) (↑(7 * j)) = (↑(n * 2 ^ (7 * j)) : Int) :=
    jsShl_cast n (7 * j) h7j (by omega)
  have hor : jsOr (↑acc) (↑(n * 2 ^ (7 * j))) = (↑(acc + n * 2 ^ (7 * j)) : Int) := by
    rw [jsOr_cast acc (n * 2 ^ (7 * j)) (by omega) (by omega),
      Nat.mul_comm n (2 ^ (7 * j)), natOr_eq_add n (7 * j) hacc2,
      Nat.mul_comm (2 ^ (7 * j)) n]
  have hand128 : jsAnd (↑n) 128 = 0 := by
    rw [show ((128 : Int)) = ((128 : Nat) : Int) by norm_num,
      jsAnd_cast n 128 (by omega) (by omega), byteAnd128 n (by omega), if_pos h]
    simp
  unfold readVarIntLoop
  rw [if_pos hguard, hget0]
  dsimp only
  rw [hand127, hshl, hor, hand128, if_pos rfl]

/-- One `readVarInt` loop iteration on a continuation byte
(`d = m + 128`, `m < 128`). -/
theorem readVarIntLoop_cont (m j acc k : Nat) (rest : List Nat) (pre post : List Nat)
    (p : Int) (st : List Int) (hm : m < 128) (hacc2 : acc < 2 ^ (7 * j))
    (hbound : m * 2 ^ (7 * j) + acc < 2147483648) (h7j : 7 * j < 32) :
    readVarIntLoop (k + 1) ⟨pre ++ ((m + 128) :: rest) ++ post, pre.length, p, st⟩
        (↑(7 * j)) (↑acc) =
      readVarIntLoop k ⟨pre ++ ((m + 128) :: rest) ++ post, pre.length + 1, p, st⟩
        ((↑(7 * j) : Int) + 7) (↑(acc + 2 ^ (7 * j) * m)) := by
  have hguard : pre.length < (pre ++ ((m + 128) :: rest) ++ post).length := by simp
  have hget0 : (pre ++ ((m + 128) :: rest) ++ post).getD pre.length 0 = m + 128 := by
    rw [List.append_assoc, List.getD_append_right _ _ _ _ (le_refl _), Nat.sub_self]
    rfl
  have hand127 : jsAnd (↑(m + 128)) 127 = (↑m : Int) := by
    rw [jsAnd_127 (by omega) (by omega)]
    have hmod : (m + 128) % 128 = m := by omega
    have hc : ((↑((m + 128) % 128)) : Int) = ↑m := by rw [hmod]
    exact_mod_cast hc
  have hshl : jsShl (↑m) (↑(7 * j)) = (↑(m * 2 ^ (7 * j)) : Int) :=
    jsShl_cast m (7 * j) h7j (by omega)
  have hor : jsOr (↑acc) (↑(m * 2 ^ (7 * j))) = (↑(acc + 2 ^ (7 * j) * m) : Int) := by
    rw [jsOr_cast acc (m * 2 ^ (7 * j)) (by omega) (by omega),
      Nat.mul_comm m (2 ^ (7 * j)), natOr_eq_add m (7 * j) hacc2]
  have hand128 : jsAnd (↑(m + 128)) 128 = 128 := by
    rw [show ((128 : Int)) = ((128 : Nat) : Int) by norm_num,
      jsAnd_cast _ 128 (by omega) (by omega), byteAnd128 _ (by omega),
      if_neg (by omega)]
  conv_lhs => unfold readVarIntLoop
  rw [if_pos hguard, hget0]
  dsimp only
  rw [hand127, hshl, hor, hand128, if_neg (by norm_num)]

/-- Reading back a standard varint: the loop accumulates exactly the encoded
value, provided the total stays below `2^31` (no 32-bit overflow). -/
theorem readVarIntLoop_ok (n : Nat) : ∀ (j acc k : Nat)
    (pre post : List Nat) (p : Int) (st : List Int),
    acc < 2 ^ (7 * j) → n * 2 ^ (7 * j) + acc < 2147483648 →
    (n = 0 → j = 0) → (natVarint n).length ≤ k →
    readVarIntLoop k ⟨pre ++ natVarint n ++ post, pre.length, p, st⟩ (↑(7 * j)) (↑acc) =
      ((↑(acc + n * 2 ^ (7 * j)) : Int),
       ⟨pre ++ natVarint n ++ post, pre.length + (natVarint n).length, p, st⟩) := by
  induction n using Nat.strong_induction_on with
  | _ n ih =>
    intro j acc k pre post p st hacc2 hbound hj0 hk
    have hlen := natVarint_length_pos n
    obtain ⟨k', rfl⟩ : ∃ k', k = k' + 1 := ⟨k - 1, by omega⟩
    have hPpos : 0 < 2 ^ (7 * j) := by positivity
    have h7j : 7 * j < 32 := by
      by_cases hn0 : n = 0
      · rw [hj0 hn0]; omega
      · have h1n : 1 ≤ n := by omega
        have hmul : 2 ^ (7 * j) ≤ n * 2 ^ (7 * j) := Nat.le_mul_of_pos_left _ (by omega)
        have hp : 2 ^ (7 * j) < 2 ^ 31 := by
          have h31 : (2 : Nat) ^ 31 = 2147483648 := by norm_num
          omega
        have := (Nat.pow_lt_pow_iff_right (by omega : 1 < 2)).mp hp
        omega
    by_cases h : n < 128
    · rw [natVarint_small h]
      have := readVarIntLoop_last n j acc k' pre post p st h hacc2 hbound h7j
      rw [this]
      simp
    · rw [natVarint_large h]
      have hstep := readVarIntLoop_cont (n % 128) j acc k' (natVarint (n / 128))
        pre post p st (by omega) hacc2
        (by have := Nat.mul_le_mul_right (2 ^ (7 * j)) (Nat.mod_le n 128); omega) h7j
      rw [show (n % 128 + 128) :: natVarint (n / 128) =
        ((n % 128 + 128) :: natVarint (n / 128) : List Nat) from rfl] at hstep
      rw [hstep]
      have hP1 : 2 ^ (7 * (j + 1)) = 2 ^ (7 * j) * 128 := by
        rw [show 7 * (j + 1) = 7 * j + 7 by ring, pow_add]; norm_num
      have heq : n / 128 * 2 ^ (7 * (j + 1)) + (acc + 2 ^ (7 * j) * (n % 128)) =
          n * 2 ^ (7 * j) + acc := by
        have hsplit : n = 128 * (n / 128) + n % 128 := by omega
        rw [hP1]
        conv_rhs => rw [hsplit]
        ring
      have hacc2p : acc + 2 ^ (7 * j) * (n % 128) < 2 ^ (7 * (j + 1)) := by
        rw [hP1]
        have hmlt : n % 128 ≤ 127 := by omega
        nlinarith
      have hboundp : n / 128 * 2 ^ (7 * (j + 1)) + (acc + 2 ^ (7 * j) * (n % 128)) <
          2147483648 := by rw [heq]; exact hbound
      have hkp : (natVarint (n / 128)).length ≤ k' := by
        rw [natVarint_large h] at hk; simp at hk; omega
      have hbufeq : pre ++ (n % 128 + 128) :: natVarint (n / 128) ++ post =
          (pre ++ [n % 128 + 128]) ++ natVarint (n / 128) ++ post := by simp
      have hcur : pre.length + 1 = (pre ++ [n % 128 + 128]).length := by simp
      have hshift : (↑(7 * j) : Int) + 7 = (↑(7 * (j + 1)) : Int) := by push_cast; ring
      rw [hbufeq, hcur, hshift,
        ih (n / 128) (Nat.div_lt_self (by omega) (by omega)) (j + 1)
          (acc + 2 ^ (7 * j) * (n % 128)) k' (pre ++ [n % 128 + 128]) post p st
          hacc2p hboundp (by intro h0; omega) hkp,
        Prod.mk.injEq]
      refine ⟨congrArg Nat.cast (by omega), ?_⟩
      simp
      omega


theorem natVarint_length_le_pow : ∀ (k : Nat), 1 ≤ k → ∀ n, n < 2 ^ (7 * k) →
    (natVarint n).length ≤ k := by
  intro k
  induction k with
  | zero => omega
  | succ k ihk =>
    intro _ n hn
    by_cases h : n < 128
    · rw [natVarint_small h]; simp
    · rw [natVarint_large h]
      have hk1 : 1 ≤ k := by
        by_contra hk0
        have : k = 0 := by omega
        subst this
        norm_num at hn
        omega
      have hdiv : n / 128 < 2 ^ (7 * k) := by
        have : n < 2 ^ (7 * k) * 128 := by
          rw [show 7 * (k + 1) = 7 * k + 7 by ring, pow_add] at hn
          norm_num at hn
          omega
        omega
      have := ihk hk1 (n / 128) hdiv
      simp
      omega

theorem natVarint_length_le31 {n : Nat} (h : n < 2147483648) :
    (natVarint n).length ≤ 5 := by
  apply natVarint_length_le_pow 5 (by omega)
  norm_num
  omega

theorem natVarint_length_le_self (n : Nat) : (natVarint n).length ≤ n + 1 := by
  induction n using Nat.strong_induction_on with
  | _ n ih =>
    by_cases h : n < 128
    · rw [natVarint_small h]; simp
    · rw [natVarint_large h]
      have hd := ih (n / 128) (Nat.div_lt_self (by omega) (by omega))
      have : n / 128 + 2 ≤ n + 1 := by omega
      simp
      omega

/-- `_write_varint` on a nonnegative 31-bit value writes the standard
varint. -/
theorem writeVarint_ok {z : Int} (hz : 0 ≤ z) (hz2 : z < 2147483648) (s : WState) :
    writeVarint z s = .ok { s with out := s.out ++ natVarint z.toNat } := by
  unfold writeVarint
  have h40 : (natVarint z.toNat).length ≤ 40 :=
    le_trans (natVarint_length_le31 (by omega)) (by omega)
  have hzz : z = ((z.toNat : Nat) : Int) := by omega
  rw [hzz]
  exact writeVarintLoop_ok z.toNat 40 s (by omega) h40

/-- `readVarInt` on a buffer holding a standard varint of `n < 2^31`. -/
theorem readVarInt_ok (n : Nat) (pre post : List Nat) (p : Int) (st : List Int)
    (hn : n < 2147483648) :
    readVarInt ⟨pre ++ natVarint n ++ post, pre.length, p, st⟩ =
      ((↑n : Int), ⟨pre ++ natVarint n ++ post, pre.length + (natVarint n).length, p, st⟩) := by
  unfold readVarInt
  have hkk : (natVarint n).length ≤
      (⟨pre ++ natVarint n ++ post, pre.length, p, st⟩ : RState).buf.length -
        (⟨pre ++ natVarint n ++ post, pre.length, p, st⟩ : RState).cursor := by
    simp
  have := readVarIntLoop_ok n 0 0 _ pre post p st
    (by norm_num) (by simpa using hn) (fun _ => rfl) hkk
  simpa using this

/-! ### Bigint varints -/

/-- One `readVarBigint` iteration on a terminal byte. -/
theorem readVarBigintLoop_last (n j acc k : Nat) (pre post : List Nat) (p : Int)
    (st : List Int) (h : n < 128) (hacc2 : acc < 2 ^ (7 * j)) :
    readVarBigintLoop (k + 1) ⟨pre ++ [n] ++ post, pre.length, p, st⟩ (7 * j) (↑acc) =
      ((↑(acc + n * 2 ^ (7 * j)) : Int),
       ⟨pre ++ [n] ++ post, pre.length + 1, p, st⟩) := by
  have hguard : pre.length < (pre ++ [n] ++ post).length := by simp
  have hget0 : (pre ++ [n] ++ post).getD pre.length 0 = n := by
    rw [List.append_assoc, List.getD_append_right _ _ _ _ (le_refl _), Nat.sub_self]
    rfl
  have hand127 : intAnd (↑n) 127 = (↑n : Int) := by
    rw [intAnd_127 (Int.natCast_nonneg n)]
    exact Int.emod_eq_of_lt (by omega) (by omega)
  have hshl : intShl (↑n) (7 * j) = (↑(n * 2 ^ (7 * j)) : Int) := by
    unfold intShl; push_cast; ring
  have hor : intOr (↑acc) (↑(n * 2 ^ (7 * j))) = (↑(acc + n * 2 ^ (7 * j)) : Int) := by
    rw [intOr_nonneg_eq (Int.natCast_nonneg _) (Int.natCast_nonneg _),
      Int.toNat_natCast, Int.toNat_natCast,
      Nat.mul_comm n (2 ^ (7 * j)), natOr_eq_add n (7 * j) hacc2,
      Nat.mul_comm (2 ^ (7 * j)) n]
  have hand128 : jsAnd (↑n) 128 = 0 := by
    rw [show ((128 : Int)) = ((128 : Nat) : Int) by norm_num,
      jsAnd_cast n 128 (by omega) (by omega), byteAnd128 n (by omega), if_pos h]
    simp
  unfold readVarBigintLoop
  rw [if_pos hguard, hget0]
  dsimp only
  rw [hand127, hshl, hor, hand128, if_pos (by norm_num : ((0 : Int) ≠ 128))]

/-- One `readVarBigint` iteration on a continuation byte. -/
theorem readVarBigintLoop_cont (m j acc k : Nat) (rest pre post : List Nat)
    (p : Int) (st : List Int) (hm : m < 128) (hacc2 : acc < 2 ^ (7 * j)) :
    readVarBigintLoop (k + 1) ⟨pre ++ ((m + 128) :: rest) ++ post, pre.length, p, st⟩
        (7 * j) (↑acc) =
      readVarBigintLoop k ⟨pre ++ ((m + 128) :: rest) ++ post, pre.length + 1, p, st⟩
        (7 * j + 7) (↑(acc + 2 ^ (7 * j) * m)) := by
  have hguard : pre.length < (pre ++ ((m + 128) :: rest) ++ post).length := by simp
  have hget0 : (pre ++ ((m + 128) :: rest) ++ post).getD pre.length 0 = m + 128 := by
    rw [List.append_assoc, List.getD_append_right _ _ _ _ (le_refl _), Nat.sub_self]
    rfl
  have hand127 : intAnd (↑(m + 128)) 127 = (↑m : Int) := by
    rw [intAnd_127 (Int.natCast_nonneg _)]
    have hmod : (m + 128) % 128 = m := by omega
    have hc : ((↑((m + 128) % 128)) : Int) = ↑m := by rw [hmod]
    exact_mod_cast hc
  have hshl : intShl (↑m) (7 * j) = (↑(m * 2 ^ (7 * j)) : Int) := by
    unfold intShl; push_cast; ring
  have hor : intOr (↑acc) (↑(m * 2 ^ (7 * j))) = (↑(acc + 2 ^ (7 * j) * m) : Int) := by
    rw [intOr_nonneg_eq (Int.natCast_nonneg _) (Int.natCast_nonneg _),
      Int.toNat_natCast, Int.toNat_natCast,
      Nat.mul_comm m (2 ^ (7 * j)), natOr_eq_add m (7 * j) hacc2]
  have hand128 : jsAnd (↑(m + 128)) 128 = 128 := by
    rw [show ((128 : Int)) = ((128 : Nat) : Int) by norm_num,
      jsAnd_cast _ 128 (by omega) (by omega), byteAnd128 _ (by omega),
      if_neg (by omega)]
  conv_lhs => unfold readVarBigintLoop
  rw [if_pos hguard, hget0]
  dsimp only
  rw [hand127, hshl, hor, hand128, if_neg (by norm_num : ¬((128 : Int) ≠ 128))]

/-- Reading back a standard varint as a bigint is exact at every width. -/
theorem readVarBigintLoop_ok (n : Nat) : ∀ (j acc k : Nat)
    (pre post : List Nat) (p : Int) (st : List Int),
    acc < 2 ^ (7 * j) → (natVarint n).length ≤ k →
    readVarBigintLoop k ⟨pre ++ natVarint n ++ post, pre.length, p, st⟩ (7 * j) (↑acc) =
      ((↑(acc + n * 2 ^ (7 * j)) : Int),
       ⟨pre ++ natVarint n ++ post, pre.length + (natVarint n).length, p, st⟩) := by
  induction n using Nat.strong_induction_on with
  | _ n ih =>
    intro j acc k pre post p st hacc2 hk
    have hlen := natVarint_length_pos n
    obtain ⟨k', rfl⟩ : ∃ k', k = k' + 1 := ⟨k - 1, by omega⟩
    by_cases h : n < 128
    · rw [natVarint_small h]
      rw [readVarBigintLoop_last n j acc k' pre post p st h hacc2]
      simp
    · rw [natVarint_large h]
      have hstep := readVarBigintLoop_cont (n % 128) j acc k' (natVarint (n / 128))
        pre post p st (by omega) hacc2
      rw [hstep]
      have hP1 : 2 ^ (7 * (j + 1)) = 2 ^ (7 * j) * 128 := by
        rw [show 7 * (j + 1) = 7 * j + 7 by ring, pow_add]; norm_num
      have hacc2p : acc + 2 ^ (7 * j) * (n % 128) < 2 ^ (7 * (j + 1)) := by
        rw [hP1]
        have hmlt : n % 128 ≤ 127 := by omega
        have hPpos : 0 < 2 ^ (7 * j) := by positivity
        nlinarith
      have hkp : (natVarint (n / 128)).length ≤ k' := by
        rw [natVarint_large h] at hk; simp at hk; omega
      have hbufeq : pre ++ (n % 128 + 128) :: natVarint (n / 128) ++ post =
          (pre ++ [n % 128 + 128]) ++ natVarint (n / 128) ++ post := by simp
      have hcur : pre.length + 1 = (pre ++ [n % 128 + 128]).length := by simp
      rw [hbufeq, hcur, show 7 * j + 7 = 7 * (j + 1) by ring,
        ih (n / 128) (Nat.div_lt_self (by omega) (by omega)) (j + 1)
          (acc + 2 ^ (7 * j) * (n % 128)) k' (pre ++ [n % 128 + 128]) post p st
          hacc2p hkp,
        Prod.mk.injEq]
      have hsplit : n = 128 * (n / 128) + n % 128 := by omega
      have heq : acc + 2 ^ (7 * j) * (n % 128) + n / 128 * 2 ^ (7 * (j + 1)) =
          acc + n * 2 ^ (7 * j) := by
        rw [hP1]
        conv_rhs => rw [hsplit]
        ring
      refine ⟨congrArg Nat.cast heq, ?_⟩
      simp
      omega

/-- `readVarBigint` on a buffer holding a standard varint. -/
theorem readVarBigint_ok (n : Nat) (pre post : List Nat) (p : Int) (st : List Int) :
    readVarBigint ⟨pre ++ natVarint n ++ post, pre.length, p, st⟩ =
      ((↑n : Int), ⟨pre ++ natVarint n ++ post, pre.length + (natVarint n).length, p, st⟩) := by
  unfold readVarBigint
  have hkk : (natVarint n).length ≤
      (⟨pre ++ natVarint n ++ post, pre.length, p, st⟩ : RState).buf.length -
        (⟨pre ++ natVarint n ++ post, pre.length, p, st⟩ : RState).cursor := by
    simp
  have := readVarBigintLoop_ok n 0 0 _ pre post p st (by norm_num) hkk
  simpa using this

/-- `_write_bigint_varint` on a nonnegative value writes the standard
varint. -/
theorem writeBigVarintLoop_ok (n : Nat) : ∀ (k : Nat) (s : WState),
    (natVarint n).length ≤ k →
    writeBigVarintLoop k (↑n) s = .ok { s with out := s.out ++ natVarint n } := by
  induction n using Nat.strong_induction_on with
  | _ n ih =>
    intro k s hk
    have hlen := natVarint_length_pos n
    obtain ⟨k', rfl⟩ : ∃ k', k = k' + 1 := ⟨k - 1, by omega⟩
    unfold writeBigVarintLoop
    rw [intAnd_neg128 (Int.natCast_nonneg n)]
    by_cases h : n < 128
    · rw [if_pos (by omega : (↑n : Int) - ↑n % 128 = 0)]
      unfold writeByte
      rw [if_pos ⟨by omega, by omega⟩, natVarint_small h]
      simp
    · rw [if_neg (by omega : ¬((↑n : Int) - ↑n % 128 = 0))]
      have hb : intOr (intAnd (↑n) 127) 128 = (↑(n % 128 + 128) : Int) := by
        rw [intAnd_127 (Int.natCast_nonneg n),
          show ((↑n : Int)) % 128 = ↑(n % 128) by omega,
          show ((128 : Int)) = ((128 : Nat) : Int) by norm_num,
          intOr_nonneg_eq (Int.natCast_nonneg _) (Int.natCast_nonneg _),
          Int.toNat_natCast, Int.toNat_natCast,
          show (128 : Nat) = 2 ^ 7 * 1 by norm_num,
          natOr_eq_add 1 7 (by omega)]
      rw [hb]
      show (writeByte _ s).bind _ = _
      unfold writeByte
      rw [if_pos ⟨by omega, by omega⟩]
      show writeBigVarintLoop k' (intShr (↑n) 7) _ = _
      have hshr : intShr (↑n) 7 = (↑(n / 128) : Int) := by
        rw [intShr_eq_ediv]
        norm_num
      rw [hshr, ih (n / 128) (Nat.div_lt_self (by omega) (by omega)) k' _
        (by rw [natVarint_large h] at hk; simp at hk; omega)]
      rw [natVarint_large h]
      simp
      omega

theorem writeBigVarint_ok (n : Nat) (s : WState) :
    writeBigVarint (↑n) s = .ok { s with out := s.out ++ natVarint n } := by
  unfold writeBigVarint
  apply writeBigVarintLoop_ok
  have h1 := natVarint_length_le_self n
  have h2 : ((↑n : Int)).natAbs = n := by omega
  omega


/-! ## The round-trip class of schemas and values -/

/-- Types accepted by `write_val` for container items (everything else
makes `write_val` throw `UnsupportedWrite`, or `InvalidBooleanContext`
for booleans). -/
def itemOK : Ty → Bool
  | .byte => true
  | .i16 => true
  | .i32 => true
  | .i64 => true
  | .binaryStr => true
  | .binaryBin => true
  | _ => false

/-- Map key types admitted by the schema surface (`TMap.create`). -/
def keyOK : Ty → Bool
  | .binaryStr => true
  | .i16 => true
  | .i32 => true
  | _ => false

def Shape.hasName (name : String) : Shape → Bool
  | .nil => false
  | .field n _ _ rest => n = name || rest.hasName name

def Shape.hasNum (num : Int) : Shape → Bool
  | .nil => false
  | .field _ m _ rest => m = num || rest.hasNum num

mutual
/-- The schema fragment on which encode composed with decode is the
identity: no SET fields (the writer emits a LIST tag that the reader then
rejects against the SET schema), no double/float (the writer rejects
them), containers only over `write_val`-supported scalars, nested structs
nonempty (the reader rejects empty nested shapes), field numbers in
`[1, 32767]` and distinct, field names distinct. -/
def GoodTy : Ty → Bool
  | .boolean => true
  | .byte => true
  | .i16 => true
  | .i32 => true
  | .i64 => true
  | .binaryStr => true
  | .binaryBin => true
  | .double => false
  | .float => false
  | .tlist item => itemOK item
  | .tset _ => false
  | .tmap key value => keyOK key && itemOK value
  | .tstruct sub => !sub.isNil && GoodShape sub
def GoodShape : Shape → Bool
  | .nil => true
  | .field name num ty rest =>
      decide (1 ≤ num) && decide (num ≤ 32767) && GoodTy ty &&
      !(rest.hasName name) && !(rest.hasNum num) && GoodShape rest
end

theorem Ty.sizeOf_pos (t : Ty) : 0 < sizeOf t := by
  cases t <;> simp_arith

def bytesOK (bs : List Nat) : Bool :=
  bs.all (· < 256) && decide (bs.length < 2147483648)

mutual
/-- Value conformance to a schema type, within the ranges the codec
round-trips: bytes in `[0, 127]` (`readInt8` reinterprets `[128, 255]` as
negatives and `writeUInt8` rejects negatives), i32 in `[-2^30, 2^30)`
(wider zigzags overflow the 32-bit varint writer), struct fields listed
in schema order (the canonical representative of a JS object under
associative equality). -/
def conform : Ty → Val → Bool
  | .boolean, .vbool _ => true
  | .byte, .vnum n => decide (0 ≤ n) && decide (n ≤ 127)
  | .i16, .vnum n => decide (-32768 ≤ n) && decide (n ≤ 32767)
  | .i32, .vnum n => decide (-1073741824 ≤ n) && decide (n < 1073741824)
  | .i64, .vi64 n =>
      decide (-9223372036854775808 ≤ n) && decide (n < 9223372036854775808)
  | .binaryStr, .vstr bs => bytesOK bs
  | .binaryBin, .vbin bs => bytesOK bs
  | .tlist item, .vlist items =>
      decide (items.length < 2147483648) && conformItems item items
  | .tmap key value, .vmap entries =>
      decide (entries.length < 2147483648) && conformKVs key value entries
  | .tstruct sub, .vstruct fields => conformFields sub fields
  | _, _ => false
termination_by ty _ => (sizeOf ty, 0)
def conformItems : Ty → VList → Bool
  | _, .nil => true
  | item, .cons v rest => conform item v && conformItems item rest
termination_by item l => (sizeOf item, sizeOf l)
def conformKVs : Ty → Ty → VMap → Bool
  | _, _, .nil => true
  | key, value, .cons k v rest =>
      conform key k && conform value v && conformKVs key value rest
termination_by key value m => (sizeOf key + sizeOf value, sizeOf m)
decreasing_by
  all_goals have hkey := Ty.sizeOf_pos key
  all_goals have hvalue := Ty.sizeOf_pos value
  all_goals decreasing_tactic
def conformFields : Shape → VFields → Bool
  | .nil, .nil => true
  | .nil, .cons _ _ _ => false
  | .field _ _ _ rest, .nil => conformFields rest .nil
  | .field name _ ty rest, .cons fname fv frest =>
      if fname = name then conform ty fv && conformFields rest frest
      else conformFields rest (.cons fname fv frest)
termination_by shape fields => (sizeOf shape, sizeOf fields)
end

/-! ## Specification-level byte sequences

These mirror, at the level of pure byte lists, what the writer emits for
conforming values; the writer- and reader-correctness lemmas below relate
both engines to them. -/

/-- The wire tag the writer puts in a field header: booleans fold the
value into the tag, SET-typed fields get the LIST tag (`write_list`). -/
def fieldTag : Ty → Val → Int
  | .boolean, v => if truthy v then 1 else 2
  | .tset _, _ => 9
  | ty, _ => ty.tag

/-- Field header bytes: one byte for a small positive delta, else the tag
byte followed by the zigzag varint of the absolute id. -/
def headerBytes (prev num tag : Int) : List Nat :=
  if 0 < num - prev ∧ num - prev < 16 then [((num - prev) * 16 + tag).toNat]
  else tag.toNat :: natVarint (zig num).toNat

/-- List/set header bytes: packed length for `< 15`, else `0xF0 | tag` and
a varint length. -/
def listHeaderBytes (tag : Int) (len : Nat) : List Nat :=
  if len < 15 then [len * 16 + tag.toNat]
  else (240 + tag.toNat) :: natVarint len

mutual
/-- The value bytes after the field header (empty for booleans — the
header tag carries the value). -/
def valueBytes : Ty → Val → List Nat
  | .boolean, _ => []
  | .byte, v =>
    match v with
    | .vnum n => [n.toNat]
    | _ => []
  | .i16, v =>
    match v with
    | .vnum n => natVarint (zig n).toNat
    | _ => []
  | .i32, v =>
    match v with
    | .vnum n => natVarint (zig n).toNat
    | _ => []
  | .i64, v =>
    match v with
    | .vi64 n => natVarint (zig n).toNat
    | _ => []
  | .binaryStr, v =>
    match v with
    | .vstr bs => natVarint bs.length ++ bs
    | _ => []
  | .binaryBin, v =>
    match v with
    | .vbin bs => natVarint bs.length ++ bs
    | _ => []
  | .double, _ => []
  | .float, _ => []
  | .tlist item, v =>
    match v with
    | .vlist items => listHeaderBytes item.tag items.length ++ itemsBytes item items
    | _ => []
  | .tset item, v =>
    match v with
    | .vlist items => listHeaderBytes item.tag items.length ++ itemsBytes item items
    | _ => []
  | .tmap key value, v =>
    match v with
    | .vmap entries =>
      if entries.length = 0 then [0]
      else natVarint entries.length ++ (key.tag * 16 + value.tag).toNat ::
        kvBytes key value entries
    | _ => []
  | .tstruct sub, v =>
    match v with
    | .vstruct fields => fieldsBytes sub fields 0 ++ [0]
    | _ => []
termination_by ty _ => (sizeOf ty, 0)
def itemsBytes : Ty → VList → List Nat
  | _, .nil => []
  | item, .cons v rest => valueBytes item v ++ itemsBytes item rest
termination_by item l => (sizeOf item, sizeOf l)
def kvBytes : Ty → Ty → VMap → List Nat
  | _, _, .nil => []
  | key, value, .cons k v rest =>
      valueBytes key k ++ valueBytes value v ++ kvBytes key value rest
termination_by key value m => (sizeOf key + sizeOf value, sizeOf m)
decreasing_by
  all_goals have hkey := Ty.sizeOf_pos key
  all_goals have hvalue := Ty.sizeOf_pos value
  all_goals decreasing_tactic
def fieldsBytes : Shape → VFields → Int → List Nat
  | .nil, _, _ => []
  | .field name num ty rest, obj, prev =>
    match findField name obj with
    | none => fieldsBytes rest obj prev
    | some v => headerBytes prev num (fieldTag ty v) ++ valueBytes ty v ++
        fieldsBytes rest obj num
termination_by shape _ _ => (sizeOf shape, 0)
end

/-! ## Writer correctness: field headers and scalar values -/

set_option maxRecDepth 4000 in
theorem byteHeaderOr : ∀ d, d < 16 → ∀ t, t < 16 → 16 * d ||| t = 16 * d + t := by decide

theorem jsOr_small {a b : Int} (ha : 0 ≤ a) (ha2 : a < 2147483648)
    (hb : 0 ≤ b) (hb2 : b < 2147483648)
    (hval : a.toNat ||| b.toNat = a.toNat + b.toNat) :
    jsOr a b = a + b := by
  rw [jsOr_eq_natOr ha ha2 hb hb2, hval]
  push_cast
  omega

theorem zig_lt_two31 {n : Int} (h1 : -1073741824 ≤ n) (h2 : n < 1073741824) :
    zig n < 2147483648 := by
  unfold zig; split_ifs <;> omega

theorem writeFieldBegin_ok (num tag : Int) (s : WState) (hn1 : 1 ≤ num) (hn2 : num ≤ 32767)
    (ht1 : 1 ≤ tag) (ht2 : tag ≤ 15) :
    writeFieldBegin num tag s =
      .ok ⟨s.out ++ headerBytes s.prev num tag, num, s.stack⟩ := by
  unfold writeFieldBegin headerBytes
  by_cases hd : 0 < num - s.prev ∧ num - s.prev < 16
  · rw [if_pos hd, if_pos hd]
    have e1 : jsShl (num - s.prev) 4 = (num - s.prev) * 16 := by
      have h := jsShl_eq (a := num - s.prev) 4 (by omega) (by omega) (by norm_num)
        (by norm_num; omega) (by norm_num; omega)
      norm_num at h
      exact h
    have e2 : jsOr ((num - s.prev) * 16) tag = (num - s.prev) * 16 + tag := by
      apply jsOr_small (by omega) (by omega) (by omega) (by omega)
      rw [show ((num - s.prev) * 16).toNat = 16 * (num - s.prev).toNat by omega,
        byteHeaderOr _ (by omega) _ (by omega)]
    rw [e1, e2]
    unfold writeByte
    rw [if_pos ⟨by omega, by omega⟩]
    rfl
  · rw [if_neg hd, if_neg hd]
    have e1 : writeByte tag s = .ok { s with out := s.out ++ [tag.toNat] } := by
      unfold writeByte
      rw [if_pos ⟨by omega, by omega⟩]
    rw [e1]
    show (do
      let s2 ← writeWord num { s with out := s.out ++ [tag.toNat] }
      Except.ok { s2 with prev := num } : Except Err WState) = _
    unfold writeWord
    rw [toZigZag16_eq (by omega) (by omega),
      writeVarint_ok (zig_nonneg num) (zig_lt_two31 (by omega) (by omega))]
    show Except.ok _ = _
    simp

theorem writeVal_byte_ok (n : Int) (s : WState) (h1 : 0 ≤ n) (h2 : n ≤ 127) :
    writeVal none 3 (.vnum n) s = .ok { s with out := s.out ++ [n.toNat] } := by
  unfold writeVal
  norm_num
  unfold writeByte
  rw [if_pos ⟨h1, by omega⟩]

theorem writeVal_i16_ok (n : Int) (s : WState) (h1 : -32768 ≤ n) (h2 : n ≤ 32767) :
    writeVal none 4 (.vnum n) s =
      .ok { s with out := s.out ++ natVarint (zig n).toNat } := by
  unfold writeVal
  norm_num
  unfold writeWord
  rw [toZigZag16_eq (by omega) (by omega),
    writeVarint_ok (zig_nonneg n) (zig_lt_two31 (by omega) (by omega))]

theorem writeVal_i32_ok (n : Int) (s : WState) (h1 : -1073741824 ≤ n)
    (h2 : n < 1073741824) :
    writeVal none 5 (.vnum n) s =
      .ok { s with out := s.out ++ natVarint (zig n).toNat } := by
  unfold writeVal
  norm_num
  unfold writeInt
  rw [toZigZag32_eq h1 h2, writeVarint_ok (zig_nonneg n) (zig_lt_two31 h1 h2)]

theorem writeVal_i64_ok (n : Int) (s : WState) (h1 : -9223372036854775808 ≤ n)
    (h2 : n < 9223372036854775808) :
    writeVal none 6 (.vi64 n) s =
      .ok { s with out := s.out ++ natVarint (zig n).toNat } := by
  unfold writeVal
  norm_num
  unfold writeLong
  rw [bigintToZigZag_eq h1 h2, show zig n = (((zig n).toNat : Nat) : Int) by
    have := zig_nonneg n; omega]
  exact writeBigVarint_ok (zig n).toNat s

theorem writeString_ok (bs : List Nat) (s : WState) (h : bs.length < 2147483648) :
    writeString bs s = .ok { s with out := s.out ++ (natVarint bs.length ++ bs) } := by
  unfold writeString
  rw [writeVarint_ok (by positivity) (by exact_mod_cast h)]
  show Except.ok _ = _
  simp

theorem writeVal_str_ok (bs : List Nat) (s : WState) (h : bs.length < 2147483648) :
    writeVal none 8 (.vstr bs) s =
      .ok { s with out := s.out ++ (natVarint bs.length ++ bs) } := by
  unfold writeVal
  norm_num
  exact writeString_ok bs s h

theorem writeVal_bin_ok (bs : List Nat) (s : WState) (h : bs.length < 2147483648) :
    writeVal none 8 (.vbin bs) s =
      .ok { s with out := s.out ++ (natVarint bs.length ++ bs) } := by
  unfold writeVal
  norm_num
  exact writeString_ok bs s h

/-! ## Writer correctness: values without a field header, lists, maps -/

theorem bind_ok_elim {A B : Type} {e : Except Err B} (a : A) (f : A → Except Err B)
    (h : f a = e) : Except.bind (Except.ok a) f = e := h

theorem itemOK_tag {ty : Ty} (h : itemOK ty = true) : 1 ≤ ty.tag ∧ ty.tag ≤ 15 := by
  cases ty <;> simp [itemOK] at h <;> simp [Ty.tag]

theorem keyOK_itemOK {ty : Ty} (h : keyOK ty = true) : itemOK ty = true := by
  cases ty <;> simp [keyOK] at h <;> simp [itemOK]

theorem writeVal_none_ok (item : Ty) (v : Val) (s : WState) (hok : itemOK item = true)
    (hc : conform item v = true) :
    writeVal none item.tag v s = .ok { s with out := s.out ++ valueBytes item v } := by
  cases item <;> simp [itemOK] at hok <;> cases v <;> simp [conform] at hc
  all_goals simp only [Ty.tag, valueBytes]
  · exact writeVal_byte_ok _ s hc.1 hc.2
  · exact writeVal_i16_ok _ s hc.1 hc.2
  · exact writeVal_i32_ok _ s hc.1 hc.2
  · exact writeVal_i64_ok _ s hc.1 (by omega)
  · exact writeVal_str_ok _ s (by simp [bytesOK] at hc; exact hc.2)
  · exact writeVal_bin_ok _ s (by simp [bytesOK] at hc; exact hc.2)

theorem writeVal_some_split (fid t : Int) (v : Val) (s : WState) (ht : ¬ t = 161) :
    writeVal (some fid) t v s =
      Except.bind (writeFieldBegin fid t s) (writeVal none t v) := by
  conv_lhs => unfold writeVal
  conv_rhs => unfold writeVal
  simp only [if_neg ht]
  cases writeFieldBegin fid t s <;> rfl

theorem writeField_scalar_ok (num : Int) (item : Ty) (v : Val) (s : WState)
    (hok : itemOK item = true) (hc : conform item v = true)
    (hn1 : 1 ≤ num) (hn2 : num ≤ 32767) :
    writeVal (some num) item.tag v s =
      .ok ⟨s.out ++ (headerBytes s.prev num item.tag ++ valueBytes item v),
        num, s.stack⟩ := by
  rw [writeVal_some_split _ _ _ _ (by have := itemOK_tag hok; omega),
    writeFieldBegin_ok _ _ _ hn1 hn2 (itemOK_tag hok).1 (itemOK_tag hok).2]
  show writeVal none _ _ _ = _
  rw [writeVal_none_ok item v _ hok hc]
  simp

theorem writeListItems_ok (item : Ty) (hok : itemOK item = true) :
    ∀ (items : VList) (s : WState), conformItems item items = true →
    writeListItems items item.tag s =
      .ok { s with out := s.out ++ itemsBytes item items }
  | .nil, s, _ => by
    unfold writeListItems itemsBytes
    simp
  | .cons v rest, s, hc => by
    unfold writeListItems itemsBytes
    rw [conformItems] at hc
    simp only [Bool.and_eq_true] at hc
    rw [writeVal_none_ok item v s hok hc.1]
    show writeListItems rest item.tag _ = _
    rw [writeListItems_ok item hok rest _ hc.2]
    simp

theorem writeMapEntries_ok (key value : Ty) (hkOK : keyOK key = true)
    (hvOK : itemOK value = true) :
    ∀ (entries : VMap) (s : WState), conformKVs key value entries = true →
    writeMapEntries entries key.tag value.tag s =
      .ok { s with out := s.out ++ kvBytes key value entries }
  | .nil, s, _ => by
    unfold writeMapEntries kvBytes
    simp
  | .cons k v rest, s, hc => by
    unfold writeMapEntries kvBytes
    rw [conformKVs] at hc
    simp only [Bool.and_eq_true] at hc
    rw [writeVal_none_ok key k s (keyOK_itemOK hkOK) hc.1.1]
    show Except.bind (writeVal none value.tag v _) _ = _
    rw [writeVal_none_ok value v _ hvOK hc.1.2]
    show writeMapEntries rest key.tag value.tag _ = _
    rw [writeMapEntries_ok key value hkOK hvOK rest _ hc.2]
    simp

set_option maxRecDepth 4000 in
theorem byteOr240 : ∀ t, t < 16 → 240 ||| t = 240 + t := by decide

theorem writeList_ok (num : Int) (item : Ty) (items : VList) (s : WState)
    (hok : itemOK item = true) (hc : conformItems item items = true)
    (hlen : items.length < 2147483648) (hn1 : 1 ≤ num) (hn2 : num ≤ 32767) :
    writeList num item.tag items s =
      .ok ⟨s.out ++ (headerBytes s.prev num 9 ++
        (listHeaderBytes item.tag items.length ++ itemsBytes item items)),
        num, s.stack⟩ := by
  have htag := itemOK_tag hok
  unfold writeList listHeaderBytes
  rw [writeFieldBegin_ok _ _ _ hn1 hn2 (by norm_num) (by norm_num)]
  apply bind_ok_elim
  beta_reduce
  dsimp only
  by_cases hlt : items.length < 15
  · rw [if_pos hlt, if_pos hlt]
    have e1 : jsShl (↑items.length) 4 = (↑items.length : Int) * 16 := by
      have h := jsShl_eq (a := (↑items.length : Int)) 4 (by omega) (by omega)
        (by norm_num) (by norm_num; omega) (by norm_num; omega)
      norm_num at h
      exact h
    have e2 : jsOr ((↑items.length : Int) * 16) item.tag =
        (↑items.length : Int) * 16 + item.tag := by
      apply jsOr_small (by omega) (by omega) (by omega) (by omega)
      rw [show (((items.length : Int)) * 16).toNat = 16 * items.length by omega,
        byteHeaderOr _ (by omega) _ (by omega)]
    rw [e1, e2]
    unfold writeByte
    rw [if_pos ⟨by omega, by omega⟩]
    apply bind_ok_elim
    beta_reduce
    rw [writeListItems_ok item hok items _ hc]
    simp only [Except.ok.injEq, WState.mk.injEq, and_true, eq_self_iff_true]
    rw [show (((items.length : Int)) * 16 + item.tag).toNat =
      items.length * 16 + item.tag.toNat by omega]
    simp
  · rw [if_neg hlt, if_neg hlt]
    have e2 : jsOr 240 item.tag = 240 + item.tag := by
      apply jsOr_small (by omega) (by omega) (by omega) (by omega)
      rw [show ((240 : Int)).toNat = 240 by rfl, byteOr240 _ (by omega)]
    rw [e2]
    unfold writeByte
    rw [if_pos ⟨by omega, by omega⟩]
    apply bind_ok_elim
    beta_reduce
    rw [writeVarint_ok (by positivity) (by exact_mod_cast hlen)]
    apply bind_ok_elim
    beta_reduce
    rw [writeListItems_ok item hok items _ hc]
    simp only [Except.ok.injEq, WState.mk.injEq, and_true, eq_self_iff_true]
    rw [show ((240 : Int) + item.tag).toNat = 240 + item.tag.toNat by omega]
    simp

/-! ## Writer correctness: maps and struct plumbing -/

theorem writeMap_ok (num : Int) (key value : Ty) (entries : VMap) (s : WState)
    (hkOK : keyOK key = true) (hvOK : itemOK value = true)
    (hc : conformKVs key value entries = true) (hlen : entries.length < 2147483648)
    (hn1 : 1 ≤ num) (hn2 : num ≤ 32767) :
    writeMap num key.tag value.tag entries s =
      .ok ⟨s.out ++ (headerBytes s.prev num 11 ++
        valueBytes (.tmap key value) (.vmap entries)), num, s.stack⟩ := by
  have hktag := itemOK_tag (keyOK_itemOK hkOK)
  have hvtag := itemOK_tag hvOK
  simp only [valueBytes]
  unfold writeMap
  rw [writeFieldBegin_ok _ _ _ hn1 hn2 (by norm_num) (by norm_num)]
  apply bind_ok_elim
  beta_reduce
  by_cases h0 : entries.length = 0
  · rw [if_pos h0, if_pos h0]
    unfold writeByte
    rw [if_pos ⟨by omega, by omega⟩]
    simp
  · rw [if_neg h0, if_neg h0]
    rw [writeVarint_ok (by positivity) (by exact_mod_cast hlen)]
    apply bind_ok_elim
    beta_reduce
    have ek : jsAnd key.tag 15 = key.tag := by
      rw [jsAnd_15 (by omega) (by omega)]
      omega
    have ev : jsAnd value.tag 15 = value.tag := by
      rw [jsAnd_15 (by omega) (by omega)]
      omega
    rw [ek, ev]
    have e1 : jsShl key.tag 4 = key.tag * 16 := by
      have h := jsShl_eq (a := key.tag) 4 (by omega) (by omega)
        (by norm_num) (by norm_num; omega) (by norm_num; omega)
      norm_num at h
      exact h
    have e2 : jsOr (key.tag * 16) value.tag = key.tag * 16 + value.tag := by
      apply jsOr_small (by omega) (by omega) (by omega) (by omega)
      rw [show (key.tag * 16).toNat = 16 * key.tag.toNat by omega,
        byteHeaderOr _ (by omega) _ (by omega)]
    rw [e1, e2]
    unfold writeByte
    rw [if_pos ⟨by omega, by omega⟩]
    apply bind_ok_elim
    beta_reduce
    rw [writeMapEntries_ok key value hkOK hvOK entries _ hc]
    simp only [Except.ok.injEq, WState.mk.injEq, and_true, eq_self_iff_true]
    rw [show ((↑entries.length : Int)).toNat = entries.length by omega]
    simp

theorem writeStop_ok (s : WState) :
    writeStop s = .ok (popStackW { s with out := s.out ++ [0] }) := by
  unfold writeStop writeByte
  rw [if_pos ⟨by omega, by omega⟩]
  rfl

theorem writeStructBegin_ok (num : Int) (s : WState)
    (hn1 : 1 ≤ num) (hn2 : num ≤ 32767) :
    writeStructBegin num s =
      .ok ⟨s.out ++ headerBytes s.prev num 12, 0, num :: s.stack⟩ := by
  unfold writeStructBegin
  rw [writeFieldBegin_ok _ _ _ hn1 hn2 (by norm_num) (by norm_num)]
  rfl

def VFields.append : VFields → VFields → VFields
  | .nil, g => g
  | .cons n v rest, g => .cons n v (rest.append g)

def VFields.hasN (name : String) : VFields → Bool
  | .nil => false
  | .cons n _ rest => n = name || rest.hasN name

theorem findField_append_of_not_hasN (name : String) :
    ∀ (a : VFields), a.hasN name = false → ∀ b,
    findField name (a.append b) = findField name b
  | .nil, _, b => rfl
  | .cons n v rest, h, b => by
    rw [VFields.hasN] at h
    simp only [Bool.or_eq_false_iff, decide_eq_false_iff_not] at h
    rw [VFields.append, findField, if_neg h.1]
    exact findField_append_of_not_hasN name rest h.2 b

theorem findField_none_of_not_hasN (name : String) :
    ∀ (a : VFields), a.hasN name = false → findField name a = none
  | .nil, _ => rfl
  | .cons n v rest, h => by
    rw [VFields.hasN] at h
    simp only [Bool.or_eq_false_iff, decide_eq_false_iff_not] at h
    rw [findField, if_neg h.1]
    exact findField_none_of_not_hasN name rest h.2

theorem VFields.append_nil_left (g : VFields) : VFields.append .nil g = g := rfl

theorem VFields.append_cons_right :
    ∀ (a : VFields) (n : String) (v : Val) (b : VFields),
    a.append (.cons n v b) = (a.append (.cons n v .nil)).append b
  | .nil, _, _, _ => rfl
  | .cons m w rest, n, v, b => by
    simp only [VFields.append]
    rw [VFields.append_cons_right rest n v b]

theorem VFields.hasN_append (name : String) :
    ∀ (a b : VFields), (a.append b).hasN name = (a.hasN name || b.hasN name)
  | .nil, b => by rw [VFields.append_nil_left, VFields.hasN, Bool.false_or]
  | .cons n v rest, b => by
    rw [VFields.append, VFields.hasN, VFields.hasN, VFields.hasN_append name rest b,
      Bool.or_assoc]

theorem conformFields_names :
    ∀ (shape : Shape) (f : VFields), conformFields shape f = true →
    ∀ nm, f.hasN nm = true → shape.hasName nm = true
  | .nil, f, hc => by
    cases f with
    | nil => intro nm h; rw [VFields.hasN] at h; exact absurd h (by simp)
    | cons n v rest => rw [conformFields] at hc; exact absurd hc (by simp)
  | .field name num ty rest, f, hc => by
    cases f with
    | nil => intro nm h; rw [VFields.hasN] at h; exact absurd h (by simp)
    | cons fname fv frest =>
      rw [conformFields] at hc
      intro nm h
      rw [VFields.hasN] at h
      rw [Shape.hasName]
      by_cases he : fname = name
      · rw [if_pos he] at hc
        simp only [Bool.and_eq_true] at hc
        rcases Bool.or_eq_true_iff.mp h with h1 | h2
        · subst he
          simp only [decide_eq_true_eq] at h1
          simp [h1]
        · rw [conformFields_names rest frest hc.2 nm h2, Bool.or_true]
      · rw [if_neg he] at hc
        have := conformFields_names rest (.cons fname fv frest) hc nm
          (by rw [VFields.hasN]; exact h)
        rw [this, Bool.or_true]

theorem fieldsBytes_nil_obj :
    ∀ (shape : Shape) (prev : Int), fieldsBytes shape .nil prev = []
  | .nil, _ => by rw [fieldsBytes]
  | .field name num ty rest, prev => by
    rw [fieldsBytes]
    exact fieldsBytes_nil_obj rest prev

theorem shape_hasName_sub {name : String} {rest : Shape} (n2 : String) (t2 : Ty)
    (num2 : Int) (h : Shape.hasName name (.field n2 num2 t2 rest) = false) :
    rest.hasName name = false := by
  rw [Shape.hasName] at h
  simp only [Bool.or_eq_false_iff] at h
  exact h.2

/-! ## Writer correctness: the struct field loop -/

theorem exceptBind_ok {A B : Type} (a : A) (f : A → Except Err B) :
    (do
      let x ← (.ok a : Except Err A)
      f x) = f a := rfl

theorem writeStructFields_ok :
    ∀ (N : Nat) (shape : Shape), sizeOf shape < N →
    ∀ (done rem : VFields) (s : WState),
    GoodShape shape = true → conformFields shape rem = true →
    (∀ nm, done.hasN nm = true → shape.hasName nm = false) →
    ∃ p : Int, writeStructFields shape (done.append rem) s =
      .ok ⟨s.out ++ fieldsBytes shape (done.append rem) s.prev, p, s.stack⟩ := by
  intro N
  induction N with
  | zero => intro shape h; omega
  | succ N ih =>
    intro shape hsz done rem s hg hc hinv
    cases shape with
    | nil =>
      refine ⟨s.prev, ?_⟩
      rw [writeStructFields, fieldsBytes]
      simp
    | field name num ty rest =>
      simp only [GoodShape, Bool.and_eq_true, decide_eq_true_eq,
        Bool.not_eq_true'] at hg
      obtain ⟨⟨⟨⟨⟨h1, h2⟩, hgt⟩, hnm⟩, hnn⟩, hgr⟩ := hg
      have hszrest : sizeOf rest < N := by
        have : sizeOf rest < sizeOf (Shape.field name num ty rest) := by simp_arith
        omega
      have hdnm : done.hasN name = false := by
        by_cases h : done.hasN name = true
        · have := hinv name h
          rw [Shape.hasName] at this
          simp at this
        · simpa using h
      have hinvrest : ∀ nm, done.hasN nm = true → rest.hasName nm = false := by
        intro nm h
        have := hinv nm h
        rw [Shape.hasName] at this
        simp only [Bool.or_eq_false_iff] at this
        exact this.2
      cases rem with
      | nil =>
        rw [conformFields] at hc
        have hfind : findField name (done.append .nil) = none := by
          rw [findField_append_of_not_hasN name done hdnm]
          rfl
        simp only [writeStructFields, fieldsBytes, hfind, pure_bind]
        exact ih rest hszrest done .nil s hgr hc hinvrest
      | cons fname fv frest =>
        rw [conformFields] at hc
        by_cases he : fname = name
        · rw [if_pos he] at hc
          subst he
          simp only [Bool.and_eq_true] at hc
          obtain ⟨hcv, hcr⟩ := hc
          have hfind : findField fname (done.append (.cons fname fv frest)) = some fv := by
            rw [findField_append_of_not_hasN fname done hdnm, findField, if_pos rfl]
          have hcont : ∀ ob : List Nat,
              ∃ p : Int, writeStructFields rest (done.append (.cons fname fv frest))
                ⟨s.out ++ ob, num, s.stack⟩ =
                .ok ⟨(s.out ++ ob) ++
                  fieldsBytes rest (done.append (.cons fname fv frest)) num,
                  p, s.stack⟩ := by
            intro ob
            have hinv2 : ∀ nm, (done.append (.cons fname fv .nil)).hasN nm = true →
                rest.hasName nm = false := by
              intro nm h
              rw [VFields.hasN_append] at h
              simp only [Bool.or_eq_true] at h
              rcases h with h | h
              · exact hinvrest nm h
              · rw [VFields.hasN, VFields.hasN, Bool.or_false] at h
                have : fname = nm := by simpa using h
                subst this
                exact hnm
            obtain ⟨p, hp⟩ := ih rest hszrest (done.append (VFields.cons fname fv .nil))
              frest ⟨s.out ++ ob, num, s.stack⟩ hgr hcr hinv2
            rw [← VFields.append_cons_right] at hp
            exact ⟨p, hp⟩
          simp only [writeStructFields, fieldsBytes, hfind]
          cases ty with
          | boolean =>
            cases fv <;> simp only [conform, Bool.false_eq_true] at hcv
            rename_i b
            dsimp only
            have hw : writeVal (some num) Ty.boolean.tag (Val.vbool b) s =
                .ok ⟨s.out ++ (headerBytes s.prev num (fieldTag Ty.boolean (Val.vbool b)) ++
                  valueBytes Ty.boolean (Val.vbool b)), num, s.stack⟩ := by
              unfold writeVal
              rw [show Ty.boolean.tag = 161 from rfl, if_pos rfl]
              dsimp only
              rw [writeFieldBegin_ok _ _ _ h1 h2 (by split <;> norm_num)
                (by split <;> norm_num)]
              simp [fieldTag, valueBytes]
            simp only [hw, exceptBind_ok]
            obtain ⟨p, hp⟩ := hcont (headerBytes s.prev num
              (fieldTag Ty.boolean (Val.vbool b)) ++ valueBytes Ty.boolean (Val.vbool b))
            refine ⟨p, ?_⟩
            rw [hp]
            simp
          | byte =>
            cases fv <;> simp only [conform, Bool.false_eq_true] at hcv
            rename_i n
            dsimp only
            have hw : writeVal (some num) Ty.byte.tag (Val.vnum n) s =
                .ok ⟨s.out ++ (headerBytes s.prev num (fieldTag Ty.byte (Val.vnum n)) ++
                  valueBytes Ty.byte (Val.vnum n)), num, s.stack⟩ := by
              have h := writeField_scalar_ok num .byte (.vnum n) s rfl
                (by rw [conform]; exact hcv) h1 h2
              simpa [fieldTag] using h
            simp only [hw, exceptBind_ok]
            obtain ⟨p, hp⟩ := hcont (headerBytes s.prev num
              (fieldTag Ty.byte (Val.vnum n)) ++ valueBytes Ty.byte (Val.vnum n))
            refine ⟨p, ?_⟩
            rw [hp]
            simp
          | i16 =>
            cases fv <;> simp only [conform, Bool.false_eq_true] at hcv
            rename_i n
            dsimp only
            have hw : writeVal (some num) Ty.i16.tag (Val.vnum n) s =
                .ok ⟨s.out ++ (headerBytes s.prev num (fieldTag Ty.i16 (Val.vnum n)) ++
                  valueBytes Ty.i16 (Val.vnum n)), num, s.stack⟩ := by
              have h := writeField_scalar_ok num .i16 (.vnum n) s rfl
                (by rw [conform]; exact hcv) h1 h2
              simpa [fieldTag] using h
            simp only [hw, exceptBind_ok]
            obtain ⟨p, hp⟩ := hcont (headerBytes s.prev num
              (fieldTag Ty.i16 (Val.vnum n)) ++ valueBytes Ty.i16 (Val.vnum n))
            refine ⟨p, ?_⟩
            rw [hp]
            simp
          | i32 =>
            cases fv <;> simp only [conform, Bool.false_eq_true] at hcv
            rename_i n
            dsimp only
            have hw : writeVal (some num) Ty.i32.tag (Val.vnum n) s =
                .ok ⟨s.out ++ (headerBytes s.prev num (fieldTag Ty.i32 (Val.vnum n)) ++
                  valueBytes Ty.i32 (Val.vnum n)), num, s.stack⟩ := by
              have h := writeField_scalar_ok num .i32 (.vnum n) s rfl
                (by rw [conform]; exact hcv) h1 h2
              simpa [fieldTag] using h
            simp only [hw, exceptBind_ok]
            obtain ⟨p, hp⟩ := hcont (headerBytes s.prev num
              (fieldTag Ty.i32 (Val.vnum n)) ++ valueBytes Ty.i32 (Val.vnum n))
            refine ⟨p, ?_⟩
            rw [hp]
            simp
          | i64 =>
            cases fv <;> simp only [conform, Bool.false_eq_true] at hcv
            rename_i n
            dsimp only
            have hw : writeVal (some num) Ty.i64.tag (Val.vi64 n) s =
                .ok ⟨s.out ++ (headerBytes s.prev num (fieldTag Ty.i64 (Val.vi64 n)) ++
                  valueBytes Ty.i64 (Val.vi64 n)), num, s.stack⟩ := by
              have h := writeField_scalar_ok num .i64 (.vi64 n) s rfl
                (by rw [conform]; exact hcv) h1 h2
              simpa [fieldTag] using h
            simp only [hw, exceptBind_ok]
            obtain ⟨p, hp⟩ := hcont (headerBytes s.prev num
              (fieldTag Ty.i64 (Val.vi64 n)) ++ valueBytes Ty.i64 (Val.vi64 n))
            refine ⟨p, ?_⟩
            rw [hp]
            simp
          | binaryStr =>
            cases fv <;> simp only [conform, Bool.false_eq_true] at hcv
            rename_i bs
            dsimp only
            have hw : writeVal (some num) Ty.binaryStr.tag (Val.vstr bs) s =
                .ok ⟨s.out ++ (headerBytes s.prev num (fieldTag Ty.binaryStr (Val.vstr bs)) ++
                  valueBytes Ty.binaryStr (Val.vstr bs)), num, s.stack⟩ := by
              have h := writeField_scalar_ok num .binaryStr (.vstr bs) s rfl
                (by rw [conform]; exact hcv) h1 h2
              simpa [fieldTag] using h
            simp only [hw, exceptBind_ok]
            obtain ⟨p, hp⟩ := hcont (headerBytes s.prev num
              (fieldTag Ty.binaryStr (Val.vstr bs)) ++ valueBytes Ty.binaryStr (Val.vstr bs))
            refine ⟨p, ?_⟩
            rw [hp]
            simp
          | binaryBin =>
            cases fv <;> simp only [conform, Bool.false_eq_true] at hcv
            rename_i bs
            dsimp only
            have hw : writeVal (some num) Ty.binaryBin.tag (Val.vbin bs) s =
                .ok ⟨s.out ++ (headerBytes s.prev num (fieldTag Ty.binaryBin (Val.vbin bs)) ++
                  valueBytes Ty.binaryBin (Val.vbin bs)), num, s.stack⟩ := by
              have h := writeField_scalar_ok num .binaryBin (.vbin bs) s rfl
                (by rw [conform]; exact hcv) h1 h2
              simpa [fieldTag] using h
            simp only [hw, exceptBind_ok]
            obtain ⟨p, hp⟩ := hcont (headerBytes s.prev num
              (fieldTag Ty.binaryBin (Val.vbin bs)) ++ valueBytes Ty.binaryBin (Val.vbin bs))
            refine ⟨p, ?_⟩
            rw [hp]
            simp
          | double => simp [GoodTy] at hgt
          | float => simp [GoodTy] at hgt
          | tset item => simp [GoodTy] at hgt
          | tlist item =>
            cases fv <;> simp only [conform, Bool.false_eq_true] at hcv
            rename_i items
            dsimp only
            have hgt' : itemOK item = true := by simpa [GoodTy] using hgt
            simp only [Bool.and_eq_true, decide_eq_true_eq] at hcv
            have hw : writeList num item.tag items s =
                .ok ⟨s.out ++ (headerBytes s.prev num (fieldTag (Ty.tlist item)
                  (Val.vlist items)) ++ valueBytes (Ty.tlist item) (Val.vlist items)),
                  num, s.stack⟩ := by
              have h := writeList_ok num item items s hgt' hcv.2 hcv.1 h1 h2
              simpa [fieldTag, Ty.tag, valueBytes] using h
            simp only [hw, exceptBind_ok]
            obtain ⟨p, hp⟩ := hcont (headerBytes s.prev num
              (fieldTag (Ty.tlist item) (Val.vlist items)) ++
              valueBytes (Ty.tlist item) (Val.vlist items))
            refine ⟨p, ?_⟩
            rw [hp]
            simp
          | tmap key value =>
            cases fv <;> simp only [conform, Bool.false_eq_true] at hcv
            rename_i entries
            dsimp only
            have hgt' : keyOK key = true ∧ itemOK value = true := by
              simpa [GoodTy, Bool.and_eq_true] using hgt
            simp only [Bool.and_eq_true, decide_eq_true_eq] at hcv
            have hw : writeMap num key.tag value.tag entries s =
                .ok ⟨s.out ++ (headerBytes s.prev num (fieldTag (Ty.tmap key value)
                  (Val.vmap entries)) ++ valueBytes (Ty.tmap key value) (Val.vmap entries)),
                  num, s.stack⟩ := by
              have h := writeMap_ok num key value entries s hgt'.1 hgt'.2 hcv.2 hcv.1 h1 h2
              simpa [fieldTag, Ty.tag] using h
            simp only [hw, exceptBind_ok]
            obtain ⟨p, hp⟩ := hcont (headerBytes s.prev num
              (fieldTag (Ty.tmap key value) (Val.vmap entries)) ++
              valueBytes (Ty.tmap key value) (Val.vmap entries))
            refine ⟨p, ?_⟩
            rw [hp]
            simp
          | tstruct sub =>
            cases fv <;> simp only [conform, Bool.false_eq_true] at hcv
            rename_i fields
            dsimp only
            have hgt' : GoodShape sub = true := by
              simp only [GoodTy, Bool.and_eq_true] at hgt
              exact hgt.2
            have hszsub : sizeOf sub < N := by
              have : sizeOf sub <
                  sizeOf (Shape.field fname num (Ty.tstruct sub) rest) := by simp_arith
              omega
            simp only [writeStructBegin_ok num s h1 h2, exceptBind_ok]
            have hws : writeStruct fields sub
                ⟨s.out ++ headerBytes s.prev num 12, 0, num :: s.stack⟩ =
                .ok ⟨s.out ++ (headerBytes s.prev num 12 ++
                  (fieldsBytes sub fields 0 ++ [0])), num, s.stack⟩ := by
              rw [writeStruct]
              cases fields with
              | nil =>
                norm_num [VFields.isEmpty]
                rw [writeStop_ok]
                simp [popStackW, fieldsBytes_nil_obj]
              | cons fn fv2 fr =>
                norm_num [VFields.isEmpty]
                obtain ⟨p2, hp2⟩ := ih sub hszsub .nil (.cons fn fv2 fr)
                  ⟨s.out ++ headerBytes s.prev num 12, 0, num :: s.stack⟩ hgt' hcv
                  (by intro nm h; rw [VFields.hasN] at h; exact absurd h (by simp))
                simp only [VFields.append] at hp2
                rw [hp2]
                apply bind_ok_elim
                rw [writeStop_ok]
                simp [popStackW]
            simp only [hws, exceptBind_ok]
            obtain ⟨p, hp⟩ := hcont (headerBytes s.prev num 12 ++
              (fieldsBytes sub fields 0 ++ [0]))
            refine ⟨p, ?_⟩
            rw [hp]
            simp [fieldTag, Ty.tag, valueBytes]
        · rw [if_neg he] at hc
          have hrem : VFields.hasN name (.cons fname fv frest) = false := by
            by_cases h : VFields.hasN name (.cons fname fv frest) = true
            · have h2 := conformFields_names rest _ hc name h
              rw [hnm] at h2
              exact absurd h2 (by simp)
            · simpa using h
          have hfind : findField name (done.append (.cons fname fv frest)) = none := by
            rw [findField_append_of_not_hasN name done hdnm]
            exact findField_none_of_not_hasN name _ hrem
          simp only [writeStructFields, fieldsBytes, hfind, pure_bind]
          exact ih rest hszrest done (.cons fname fv frest) s hgr hc hinvrest

/-- `write_struct` at the root: a fresh writer produces exactly the
specification bytes followed by STOP. -/
theorem writeStruct_root_ok (shape : Shape) (obj : VFields)
    (hg : GoodShape shape = true) (hc : conformFields shape obj = true) :
    ∃ p : Int, writeStruct obj shape WState.init =
      .ok ⟨fieldsBytes shape obj 0 ++ [0], p, []⟩ := by
  rw [writeStruct]
  cases obj with
  | nil =>
    norm_num [VFields.isEmpty]
    rw [writeStop_ok]
    refine ⟨0, ?_⟩
    simp [popStackW, WState.init, fieldsBytes_nil_obj]
  | cons fn fv fr =>
    norm_num [VFields.isEmpty]
    obtain ⟨p, hp⟩ := writeStructFields_ok (sizeOf shape + 1) shape (by omega)
      .nil (.cons fn fv fr) WState.init hg hc
      (by intro nm h; rw [VFields.hasN] at h; exact absurd h (by simp))
    simp only [VFields.append] at hp
    refine ⟨p, ?_⟩
    rw [hp]
    apply bind_ok_elim
    rw [writeStop_ok]
    simp [popStackW, WState.init]

theorem thriftWriteFromObject_ok (shape : Shape) (obj : VFields)
    (hg : GoodShape shape = true) (hc : conformFields shape obj = true) :
    thriftWriteFromObject obj shape = .ok (fieldsBytes shape obj 0 ++ [0]) := by
  unfold thriftWriteFromObject
  obtain ⟨p, hp⟩ := writeStruct_root_ok shape obj hg hc
  rw [hp]
  rfl

/-! ## Reader correctness: byte-level primitives -/

theorem getD_at (pre post : List Nat) (b : Nat) :
    (pre ++ b :: post).getD pre.length 0 = b := by
  induction pre with
  | nil => rfl
  | cons a pre ih => simpa using ih

theorem readByte_ok (b : Nat) (pre post : List Nat) (p : Int) (st : List Int) :
    readByte ⟨pre ++ (b :: post), pre.length, p, st⟩ =
      .ok (b, ⟨pre ++ (b :: post), pre.length + 1, p, st⟩) := by
  unfold readByte moveR
  dsimp only
  have hlen : ((pre ++ (b :: post)).length : Int) =
      (pre.length : Int) + 1 + post.length := by
    simp [List.length_append]
    omega
  rw [show min (max ((pre.length : Int) + 1) 0) ((pre ++ (b :: post)).length : Int) =
    (pre.length : Int) + 1 from by rw [hlen]; omega]
  rw [if_pos ⟨by omega, by rw [hlen]; omega⟩]
  rw [show ((pre.length : Int) + 1 - 1).toNat = pre.length from by omega]
  rw [show ((pre.length : Int) + 1).toNat = pre.length + 1 from by omega]
  rw [getD_at]

theorem readSByte_ok (b : Nat) (pre post : List Nat) (p : Int) (st : List Int) :
    readSByte ⟨pre ++ (b :: post), pre.length, p, st⟩ =
      .ok (if b < 128 then (b : Int) else (b : Int) - 256,
        ⟨pre ++ (b :: post), pre.length + 1, p, st⟩) := by
  unfold readSByte moveR
  dsimp only
  have hlen : ((pre ++ (b :: post)).length : Int) =
      (pre.length : Int) + 1 + post.length := by
    simp [List.length_append]
    omega
  rw [show min (max ((pre.length : Int) + 1) 0) ((pre ++ (b :: post)).length : Int) =
    (pre.length : Int) + 1 from by rw [hlen]; omega]
  rw [if_pos ⟨by omega, by rw [hlen]; omega⟩]
  rw [show ((pre.length : Int) + 1 - 1).toNat = pre.length from by omega]
  rw [show ((pre.length : Int) + 1).toNat = pre.length + 1 from by omega]
  rw [getD_at]

theorem bufSlice_exact (pre mid post : List Nat) :
    bufSlice (pre ++ (mid ++ post)) (pre.length : Int)
      ((pre.length : Int) + mid.length) = mid := by
  unfold bufSlice
  have hlen : ((pre ++ (mid ++ post)).length : Int) =
      (pre.length : Int) + mid.length + post.length := by
    simp [List.length_append]
    omega
  dsimp only
  have e1 : (if ((pre.length : Int)) < 0
      then max (((pre ++ (mid ++ post)).length : Int) + pre.length) 0
      else min ((pre.length : Int)) (((pre ++ (mid ++ post)).length : Int))) =
      ((pre.length : Int)) := by
    rw [if_neg (by omega)]
    exact min_eq_left (by rw [hlen]; omega)
  have e2 : (if ((pre.length : Int)) + mid.length < 0
      then max (((pre ++ (mid ++ post)).length : Int) + ((pre.length : Int) + mid.length)) 0
      else min ((pre.length : Int) + mid.length) (((pre ++ (mid ++ post)).length : Int))) =
      ((pre.length : Int) + mid.length) := by
    rw [if_neg (by omega)]
    exact min_eq_left (by rw [hlen]; omega)
  rw [e1, e2]
  by_cases hm : mid = []
  · subst hm
    rw [if_neg (by norm_num)]
  · rw [if_pos (by have : 0 < mid.length := List.length_pos.mpr hm; omega)]
    rw [show ((pre.length : Int)).toNat = pre.length from by omega,
      show ((pre.length : Int) + mid.length - pre.length).toNat = mid.length from by omega]
    rw [List.drop_append_eq_append_drop]
    simp

theorem readBinary_ok (pre mid post : List Nat) (p : Int) (st : List Int) :
    readBinary (mid.length : Int) ⟨pre ++ (mid ++ post), pre.length, p, st⟩ =
      (mid, ⟨pre ++ (mid ++ post), pre.length + mid.length, p, st⟩) := by
  unfold readBinary moveR
  dsimp only
  have hlen : ((pre ++ (mid ++ post)).length : Int) =
      (pre.length : Int) + mid.length + post.length := by
    simp [List.length_append]
    omega
  rw [show min (max ((pre.length : Int) + mid.length) 0)
      ((pre ++ (mid ++ post)).length : Int) = (pre.length : Int) + mid.length from by
    rw [hlen]; omega]
  rw [show ((pre.length : Int) + mid.length).toNat = pre.length + mid.length from by omega]
  rw [show ((pre.length : Int) + (mid.length : Int) - (mid.length : Int)) =
    (pre.length : Int) from by omega]
  rw [show ((pre.length + mid.length : Nat) : Int) =
    (pre.length : Int) + (mid.length : Int) from by push_cast; omega]
  rw [bufSlice_exact]

/-! ## Reader correctness: field and container headers -/

set_option maxRecDepth 4000 in
theorem byteAnd240 : ∀ d, d < 16 → ∀ t, t < 16 → (16 * d + t) &&& 240 = 16 * d := by
  decide

set_option maxRecDepth 4000 in
theorem byteAnd15 : ∀ d, d < 16 → ∀ t, t < 16 → (16 * d + t) &&& 15 = t := by decide

set_option maxRecDepth 4000 in
theorem byteSmallAnd240 : ∀ t, t < 16 → t &&& 240 = 0 := by decide

set_option maxRecDepth 4000 in
theorem byteSmallAnd15 : ∀ t, t < 16 → t &&& 15 = t := by decide

set_option maxRecDepth 4000 in
theorem byteHiAnd15 : ∀ t, t < 16 → (240 + t) &&& 15 = t := by decide

theorem readField_delta (prevW num tag : Int) (pre post : List Nat) (st : List Int)
    (hn1 : 1 ≤ num) (hn2 : num ≤ 32767) (ht1 : 1 ≤ tag) (ht2 : tag ≤ 15)
    (hd : 0 < num - prevW ∧ num - prevW < 16) :
    readField ⟨pre ++ (((num - prevW) * 16 + tag).toNat :: post), pre.length, prevW, st⟩ =
      .ok ((tag, num), ⟨pre ++ (((num - prevW) * 16 + tag).toNat :: post),
        pre.length + 1, num, st⟩) := by
  unfold readField
  rw [readByte_ok]
  rw [exceptBind_ok]
  dsimp only
  rw [if_neg (by omega)]
  have hb : ((((num - prevW) * 16 + tag).toNat : Nat) : Int) = (num - prevW) * 16 + tag := by
    omega
  have e1 : jsAnd ((((num - prevW) * 16 + tag).toNat : Nat) : Int) 240 =
      ((num - prevW) * 16 : Int) := by
    rw [jsAnd_eq_natAnd (by omega) (by omega) (by omega) (by omega), Int.toNat_natCast]
    rw [show (((num - prevW) * 16 + tag).toNat) = 16 * (num - prevW).toNat + tag.toNat
      from by omega]
    rw [show ((240 : Int)).toNat = 240 from rfl]
    rw [byteAnd240 _ (by omega) _ (by omega)]
    omega
  rw [e1]
  have e2 : jsShr ((num - prevW) * 16 : Int) 4 = num - prevW := by
    have h := jsShr_eq (a := (num - prevW) * 16) 4 (by omega) (by omega) (by norm_num)
    norm_num at h
    rw [h]
  rw [e2]
  rw [if_neg (by omega)]
  have e3 : jsAnd ((((num - prevW) * 16 + tag).toNat : Nat) : Int) 15 = tag := by
    rw [jsAnd_eq_natAnd (by omega) (by omega) (by omega) (by omega), Int.toNat_natCast]
    rw [show (((num - prevW) * 16 + tag).toNat) = 16 * (num - prevW).toNat + tag.toNat
      from by omega]
    rw [show ((15 : Int)).toNat = 15 from rfl]
    rw [byteAnd15 _ (by omega) _ (by omega)]
    omega
  rw [e3]
  rw [show prevW + (num - prevW) = num from by omega]

theorem readField_abs (prevW num tag : Int) (pre post : List Nat) (st : List Int)
    (hn1 : 1 ≤ num) (hn2 : num ≤ 32767) (ht1 : 1 ≤ tag) (ht2 : tag ≤ 15) :
    readField ⟨pre ++ (tag.toNat :: (natVarint (zig num).toNat ++ post)),
        pre.length, prevW, st⟩ =
      .ok ((tag, num), ⟨pre ++ (tag.toNat :: (natVarint (zig num).toNat ++ post)),
        pre.length + 1 + (natVarint (zig num).toNat).length, num, st⟩) := by
  unfold readField
  rw [readByte_ok]
  rw [exceptBind_ok]
  dsimp only
  rw [if_neg (by omega)]
  have e1 : jsAnd ((tag.toNat : Nat) : Int) 240 = 0 := by
    rw [jsAnd_eq_natAnd (by omega) (by omega) (by omega) (by omega)]
    rw [show ((240 : Int)).toNat = 240 from rfl, Int.toNat_natCast,
      byteSmallAnd240 _ (by omega)]
    rfl
  rw [e1]
  have e2 : jsShr 0 4 = 0 := by
    have h := jsShr_eq (a := 0) 4 (by omega) (by omega) (by norm_num)
    norm_num at h
    exact h
  rw [e2]
  rw [if_pos rfl]
  have hbuf : pre ++ (tag.toNat :: (natVarint (zig num).toNat ++ post)) =
      (pre ++ [tag.toNat]) ++ natVarint (zig num).toNat ++ post := by
    simp
  have hcur : pre.length + 1 = (pre ++ [tag.toNat]).length := by simp
  rw [hbuf, hcur]
  rw [readVarInt_ok _ _ _ _ _ (by
    have h1 := zig_lt_two31 (n := num) (by omega) (by omega)
    omega)]
  dsimp only
  have e3 : fromZigZag (((zig num).toNat : Nat) : Int) = num := by
    rw [show (((zig num).toNat : Nat) : Int) = zig num from by
      have := zig_nonneg num; omega]
    rw [fromZigZag_eq (zig_nonneg num) (zig_lt_two31 (by omega) (by omega))]
    exact unzig_zig num
  rw [e3]
  have e4 : jsAnd ((tag.toNat : Nat) : Int) 15 = tag := by
    rw [jsAnd_eq_natAnd (by omega) (by omega) (by omega) (by omega)]
    rw [show ((15 : Int)).toNat = 15 from rfl, Int.toNat_natCast,
      byteSmallAnd15 _ (by omega)]
    omega
  rw [e4]

theorem readField_header (prevW num tag : Int) (pre post : List Nat) (st : List Int)
    (hn1 : 1 ≤ num) (hn2 : num ≤ 32767) (ht1 : 1 ≤ tag) (ht2 : tag ≤ 15) :
    readField ⟨pre ++ (headerBytes prevW num tag ++ post), pre.length, prevW, st⟩ =
      .ok ((tag, num), ⟨pre ++ (headerBytes prevW num tag ++ post),
        pre.length + (headerBytes prevW num tag).length, num, st⟩) := by
  unfold headerBytes
  by_cases hd : 0 < num - prevW ∧ num - prevW < 16
  · rw [if_pos hd]
    simp only [List.cons_append, List.nil_append, List.length_cons, List.length_nil]
    exact readField_delta prevW num tag pre post st hn1 hn2 ht1 ht2 hd
  · rw [if_neg hd]
    simp only [List.cons_append, List.length_cons]
    have h := readField_abs prevW num tag pre post st hn1 hn2 ht1 ht2
    rw [h]
    simp only [Except.ok.injEq, Prod.mk.injEq, RState.mk.injEq, and_true, true_and,
      eq_self_iff_true]
    omega

/-! ## Reader correctness: list/map headers and scalar values -/

theorem readListHeader_small (tag : Int) (len : Nat) (pre post : List Nat) (p : Int)
    (st : List Int) (ht1 : 1 ≤ tag) (ht2 : tag ≤ 15) (hlen : len < 15) :
    readListHeader ⟨pre ++ ((len * 16 + tag.toNat) :: post), pre.length, p, st⟩ =
      .ok ((tag, (len : Int)), ⟨pre ++ ((len * 16 + tag.toNat) :: post),
        pre.length + 1, p, st⟩) := by
  unfold readListHeader
  rw [readByte_ok, exceptBind_ok]
  dsimp only
  have e1 : jsAnd (((len * 16 + tag.toNat : Nat)) : Int) 15 = tag := by
    rw [jsAnd_eq_natAnd (by omega) (by push_cast; omega) (by omega) (by omega),
      Int.toNat_natCast]
    rw [show (len * 16 + tag.toNat) = 16 * len + tag.toNat from by omega]
    rw [show ((15 : Int)).toNat = 15 from rfl]
    rw [byteAnd15 _ (by omega) _ (by omega)]
    omega
  have e2 : jsShr (((len * 16 + tag.toNat : Nat)) : Int) 4 = (len : Int) := by
    have h := jsShr_eq (a := ((len * 16 + tag.toNat : Nat) : Int)) 4
      (by omega) (by push_cast; omega) (by norm_num)
    rw [show (((4 : Nat)) : Int) = (4 : Int) from by norm_num] at h
    rw [h, show (2 : Int) ^ (4 : Nat) = 16 from by norm_num]
    omega
  rw [e1, e2]
  rw [if_neg (by omega)]

theorem readListHeader_big (tag : Int) (len : Nat) (pre post : List Nat) (p : Int)
    (st : List Int) (ht1 : 1 ≤ tag) (ht2 : tag ≤ 15)
    (hlen2 : len < 2147483648) :
    readListHeader ⟨pre ++ ((240 + tag.toNat) :: (natVarint len ++ post)),
        pre.length, p, st⟩ =
      .ok ((tag, (len : Int)), ⟨pre ++ ((240 + tag.toNat) :: (natVarint len ++ post)),
        pre.length + 1 + (natVarint len).length, p, st⟩) := by
  unfold readListHeader
  rw [readByte_ok, exceptBind_ok]
  dsimp only
  have e1 : jsAnd (((240 + tag.toNat : Nat)) : Int) 15 = tag := by
    rw [jsAnd_eq_natAnd (by omega) (by push_cast; omega) (by omega) (by omega),
      Int.toNat_natCast]
    rw [show ((15 : Int)).toNat = 15 from rfl]
    rw [byteHiAnd15 _ (by omega)]
    omega
  have e2 : jsShr (((240 + tag.toNat : Nat)) : Int) 4 = 15 := by
    have h := jsShr_eq (a := ((240 + tag.toNat : Nat) : Int)) 4
      (by omega) (by push_cast; omega) (by norm_num)
    rw [show (((4 : Nat)) : Int) = (4 : Int) from by norm_num] at h
    rw [h, show (2 : Int) ^ (4 : Nat) = 16 from by norm_num]
    omega
  rw [e1, e2]
  rw [if_pos rfl]
  have hbuf : pre ++ ((240 + tag.toNat) :: (natVarint len ++ post)) =
      (pre ++ [240 + tag.toNat]) ++ natVarint len ++ post := by simp
  have hcur : pre.length + 1 = (pre ++ [240 + tag.toNat]).length := by simp
  rw [hbuf, hcur]
  rw [readVarInt_ok _ _ _ _ _ hlen2]

theorem readMapHeader_empty (pre post : List Nat) (p : Int) (st : List Int) :
    readMapHeader ⟨pre ++ (0 :: post), pre.length, p, st⟩ =
      .ok ((0, 0, 0), ⟨pre ++ (0 :: post), pre.length + 1, p, st⟩) := by
  unfold readMapHeader
  dsimp only
  rw [readByte_ok, exceptBind_ok]
  dsimp only
  rw [if_pos rfl]

theorem natVarint_head_cons (len : Nat) (h : 1 ≤ len) :
    ∃ hd tl, natVarint len = hd :: tl ∧ hd ≠ 0 := by
  unfold natVarint
  by_cases hs : len < 128
  · rw [dif_pos hs]
    exact ⟨len, [], rfl, by omega⟩
  · rw [dif_neg hs]
    exact ⟨len % 128 + 128, natVarint (len / 128), rfl, by omega⟩

theorem readMapHeader_full (kt vt : Int) (len : Nat) (pre post : List Nat) (p : Int)
    (st : List Int) (h1 : 1 ≤ len) (hlen : len < 2147483648)
    (hk1 : 0 ≤ kt) (hk2 : kt ≤ 15) (hv1 : 0 ≤ vt) (hv2 : vt ≤ 15) :
    readMapHeader ⟨pre ++ natVarint len ++ ((kt * 16 + vt).toNat :: post),
        pre.length, p, st⟩ =
      .ok ((kt, vt, (len : Int)),
        ⟨pre ++ natVarint len ++ ((kt * 16 + vt).toNat :: post),
          pre.length + (natVarint len).length + 1, p, st⟩) := by
  unfold readMapHeader
  obtain ⟨hd, tl, hsplit, hhd⟩ := natVarint_head_cons len h1
  have hbuf1 : pre ++ natVarint len ++ ((kt * 16 + vt).toNat :: post) =
      pre ++ (hd :: (tl ++ ((kt * 16 + vt).toNat :: post))) := by
    rw [hsplit]
    simp
  dsimp only
  rw [hbuf1, readByte_ok, exceptBind_ok]
  dsimp only
  rw [if_neg hhd]
  rw [← hbuf1]
  rw [readVarInt_ok len pre ((kt * 16 + vt).toNat :: post) p st hlen]
  dsimp only
  have hcur2 : pre.length + (natVarint len).length = (pre ++ natVarint len).length := by
    simp
  rw [hcur2, readByte_ok, exceptBind_ok]
  have e1 : jsShr ((((kt * 16 + vt).toNat : Nat)) : Int) 4 = kt := by
    have h := jsShr_eq (a := (((kt * 16 + vt).toNat : Nat) : Int)) 4
      (by omega) (by push_cast; omega) (by norm_num)
    rw [show (((4 : Nat)) : Int) = (4 : Int) from by norm_num] at h
    rw [h, show (2 : Int) ^ (4 : Nat) = 16 from by norm_num]
    omega
  have e2 : jsAnd ((((kt * 16 + vt).toNat : Nat)) : Int) 15 = vt := by
    rw [jsAnd_eq_natAnd (by omega) (by push_cast; omega) (by omega) (by omega),
      Int.toNat_natCast]
    rw [show ((kt * 16 + vt).toNat) = 16 * kt.toNat + vt.toNat from by omega]
    rw [show ((15 : Int)).toNat = 15 from rfl]
    rw [byteAnd15 _ (by omega) _ (by omega)]
    omega
  rw [e1, e2]

theorem readVal_byte (n : Int) (pre post : List Nat) (p : Int) (st : List Int)
    (h1 : 0 ≤ n) (h2 : n ≤ 127) :
    readVal 3 ⟨pre ++ (n.toNat :: post), pre.length, p, st⟩ =
      .ok (.vnum n, ⟨pre ++ (n.toNat :: post), pre.length + 1, p, st⟩) := by
  unfold readVal
  norm_num
  rw [readSByte_ok, exceptBind_ok]
  rw [if_pos (by omega : n.toNat < 128)]
  rw [show ((n.toNat : Nat) : Int) = n from by omega]

theorem readVal_zigzag (t n : Int) (pre post : List Nat) (p : Int) (st : List Int)
    (htag : t = 4 ∨ t = 5) (h1 : -1073741824 ≤ n) (h2 : n < 1073741824) :
    readVal t ⟨pre ++ natVarint (zig n).toNat ++ post, pre.length, p, st⟩ =
      .ok (.vnum n, ⟨pre ++ natVarint (zig n).toNat ++ post,
        pre.length + (natVarint (zig n).toNat).length, p, st⟩) := by
  have hz := zig_nonneg n
  have hz31 := zig_lt_two31 h1 h2
  have estep : fromZigZag (((zig n).toNat : Nat) : Int) = n := by
    rw [show (((zig n).toNat : Nat) : Int) = zig n from by omega]
    rw [fromZigZag_eq hz hz31]
    exact unzig_zig n
  rcases htag with ht | ht
  · subst ht
    unfold readVal
    norm_num
    rw [show pre ++ (natVarint (zig n).toNat ++ post) =
      pre ++ natVarint (zig n).toNat ++ post from (List.append_assoc _ _ _).symm]
    rw [readVarInt_ok (zig n).toNat pre post p st (by omega)]
    exact ⟨estep, rfl⟩
  · subst ht
    unfold readVal
    norm_num
    rw [show pre ++ (natVarint (zig n).toNat ++ post) =
      pre ++ natVarint (zig n).toNat ++ post from (List.append_assoc _ _ _).symm]
    rw [readVarInt_ok (zig n).toNat pre post p st (by omega)]
    exact ⟨estep, rfl⟩

theorem readVal_i64 (n : Int) (pre post : List Nat) (p : Int) (st : List Int) :
    readVal 6 ⟨pre ++ natVarint (zig n).toNat ++ post, pre.length, p, st⟩ =
      .ok (.vi64 n, ⟨pre ++ natVarint (zig n).toNat ++ post,
        pre.length + (natVarint (zig n).toNat).length, p, st⟩) := by
  have hz := zig_nonneg n
  unfold readVal
  norm_num
  rw [show pre ++ (natVarint (zig n).toNat ++ post) =
    pre ++ natVarint (zig n).toNat ++ post from (List.append_assoc _ _ _).symm]
  rw [readVarBigint_ok (zig n).toNat pre post p st]
  exact ⟨by
    rw [show (((zig n).toNat : Nat) : Int) = zig n from by omega]
    rw [fromZigZagToBigInt_eq hz]
    exact unzig_zig n, rfl⟩

theorem readVal_binary (bs : List Nat) (pre post : List Nat) (p : Int) (st : List Int)
    (hlen : bs.length < 2147483648) :
    readVal 8 ⟨pre ++ natVarint bs.length ++ (bs ++ post), pre.length, p, st⟩ =
      .ok (.vbin bs, ⟨pre ++ natVarint bs.length ++ (bs ++ post),
        pre.length + (natVarint bs.length).length + bs.length, p, st⟩) := by
  unfold readVal
  norm_num
  rw [show pre ++ (natVarint bs.length ++ (bs ++ post)) =
    pre ++ natVarint bs.length ++ (bs ++ post) from (List.append_assoc _ _ _).symm]
  rw [readVarInt_ok bs.length pre (bs ++ post) p st hlen]
  have hcur2 : pre.length + (natVarint bs.length).length =
      (pre ++ natVarint bs.length).length := by simp
  rw [hcur2, readBinary_ok]
  refine ⟨rfl, ?_⟩
  simp only [RState.mk.injEq, and_true, true_and, eq_self_iff_true]

/-! ## Fuel measures, shape membership, and the read projection -/

mutual
/-- Sufficient fuel to read (or skip) one value of the given type. -/
def fuelV : Ty → Val → Nat
  | .tlist item, v =>
    match v with
    | .vlist items => 2 + fuelItems item items
    | _ => 1
  | .tset item, v =>
    match v with
    | .vlist items => 2 + fuelItems item items
    | _ => 1
  | .tmap key value, v =>
    match v with
    | .vmap entries => 2 + fuelKVs key value entries
    | _ => 1
  | .tstruct sub, v =>
    match v with
    | .vstruct fields => 2 + fuelFields sub fields
    | _ => 1
  | _, _ => 1
termination_by ty _ => (sizeOf ty, 0)
def fuelItems : Ty → VList → Nat
  | _, .nil => 1
  | item, .cons v rest => 1 + fuelV item v + fuelItems item rest
termination_by item l => (sizeOf item, sizeOf l)
def fuelKVs : Ty → Ty → VMap → Nat
  | _, _, .nil => 1
  | key, value, .cons k v rest =>
      1 + fuelV key k + fuelV value v + fuelKVs key value rest
termination_by key value m => (sizeOf key + sizeOf value, sizeOf m)
decreasing_by
  all_goals have hkey := Ty.sizeOf_pos key
  all_goals have hvalue := Ty.sizeOf_pos value
  all_goals decreasing_tactic
def fuelFields : Shape → VFields → Nat
  | .nil, _ => 1
  | .field name _ ty rest, obj =>
    match findField name obj with
    | none => fuelFields rest obj
    | some v => 2 + fuelV ty v + fuelFields rest obj
termination_by shape _ => (sizeOf shape, 0)
end

/-- The field triple occurs in the shape. -/
def fieldIn (name : String) (num : Int) (ty : Ty) : Shape → Prop
  | .nil => False
  | .field n m t rest => (n = name ∧ m = num ∧ t = ty) ∨ fieldIn name num ty rest

/-- What `read_struct`'s loop accumulates from the wire image of
`(shape', obj)` when decoding with schema `S`: present fields whose id `S`
knows are stored under `S`'s name, the rest are skipped. -/
def projRead (S : Shape) : Shape → VFields → VFields → VFields
  | .nil, _, acc => acc
  | .field name num _ rest, obj, acc =>
    match findField name obj with
    | none => projRead S rest obj acc
    | some v =>
      match findByNum num S with
      | none => projRead S rest obj acc
      | some (name2, _) => projRead S rest obj (assocSet name2 v acc)

theorem fieldTag_itemOK {ty : Ty} (v : Val) (h : itemOK ty = true) :
    fieldTag ty v = ty.tag := by
  cases ty <;> simp [itemOK] at h <;> rfl

theorem itemOK_ne_boolean {ty : Ty} (h : itemOK ty = true) : ty ≠ .boolean := by
  cases ty <;> simp [itemOK] at h <;> simp

theorem itemOK_GoodTy {ty : Ty} (h : itemOK ty = true) : GoodTy ty = true := by
  cases ty <;> simp [itemOK] at h <;> rfl

theorem isThriftBoolean_bool : isThriftBoolean 1 = true ∧ isThriftBoolean 2 = true := by
  decide

theorem isThriftBoolean_tags : ∀ t : Int, 3 ≤ t → t ≤ 12 →
    isThriftBoolean t = false := by
  intro t h1 h2
  unfold isThriftBoolean
  have e : jsAnd t 15 = t % 16 := jsAnd_15 (by omega) (by omega)
  rw [e]
  simp only [Bool.or_eq_false_iff, decide_eq_false_iff_not]
  omega

theorem fieldTag_bounds {ty : Ty} (v : Val) (hg : GoodTy ty = true) :
    1 ≤ fieldTag ty v ∧ fieldTag ty v ≤ 15 := by
  cases ty <;> simp [GoodTy] at hg <;> first
    | (simp [fieldTag]; split <;> norm_num)
    | (simp [fieldTag, Ty.tag])
    | (simp [fieldTag, Ty.tag]; norm_num)

/-! ## Reader correctness: statements of the fuel-indexed bundle -/

/-- `read_val_recursive` decodes the value bytes of a conforming value
(of any supported non-boolean schema type) back to the value. -/
def StmtRV (K : Nat) : Prop :=
  ∀ (ty : Ty) (v : Val) (pre post : List Nat) (p : Int) (st : List Int),
    GoodTy ty = true → ty ≠ .boolean → conform ty v = true → fuelV ty v ≤ K →
    readValRec K ty ⟨pre ++ valueBytes ty v ++ post, pre.length, p, st⟩ =
      .ok (v, ⟨pre ++ valueBytes ty v ++ post,
        pre.length + (valueBytes ty v).length, p, st⟩)

def StmtItems (K : Nat) : Prop :=
  ∀ (item : Ty) (items : VList) (pre post : List Nat) (p : Int) (st : List Int),
    itemOK item = true → conformItems item items = true → fuelItems item items ≤ K →
    readItems K item (items.length : Int)
        ⟨pre ++ itemsBytes item items ++ post, pre.length, p, st⟩ =
      .ok (items, ⟨pre ++ itemsBytes item items ++ post,
        pre.length + (itemsBytes item items).length, p, st⟩)

def StmtKVs (K : Nat) : Prop :=
  ∀ (key value : Ty) (entries : VMap) (pre post : List Nat) (p : Int) (st : List Int),
    keyOK key = true → itemOK value = true → conformKVs key value entries = true →
    fuelKVs key value entries ≤ K →
    readKVs K key value (entries.length : Int)
        ⟨pre ++ kvBytes key value entries ++ post, pre.length, p, st⟩ =
      .ok (entries, ⟨pre ++ kvBytes key value entries ++ post,
        pre.length + (kvBytes key value entries).length, p, st⟩)

/-- The struct field loop over the wire image of `(Srem, obj)` with reader
schema `S`: known fields are collected by the `S`-side name, unknown field
ids are skipped, STOP ends the loop. -/
def StmtLoop (K : Nat) : Prop :=
  ∀ (S Srem : Shape) (obj : VFields) (prevW : Int) (acc : VFields)
      (pre post : List Nat) (st : List Int),
    GoodShape Srem = true →
    (∀ n m t, fieldIn n m t Srem → ∀ v, findField n obj = some v →
      conform t v = true) →
    (∀ n m t, fieldIn n m t Srem →
      findByNum m S = none ∨ findByNum m S = some (n, t)) →
    fuelFields Srem obj ≤ K →
    ∃ p' : Int, readStructLoop K S acc
        ⟨pre ++ fieldsBytes Srem obj prevW ++ (0 :: post), pre.length, prevW, st⟩ =
      .ok (projRead S Srem obj acc,
        ⟨pre ++ fieldsBytes Srem obj prevW ++ (0 :: post),
          pre.length + (fieldsBytes Srem obj prevW).length + 1, p', st⟩)

/-- `skip` consumes exactly the value bytes and preserves `prev` and the
stack. -/
def StmtSkip (K : Nat) : Prop :=
  ∀ (ty : Ty) (v : Val) (pre post : List Nat) (p : Int) (st : List Int),
    GoodTy ty = true → conform ty v = true → fuelV ty v ≤ K →
    skipR K (fieldTag ty v) ⟨pre ++ valueBytes ty v ++ post, pre.length, p, st⟩ =
      .ok ⟨pre ++ valueBytes ty v ++ post,
        pre.length + (valueBytes ty v).length, p, st⟩

def StmtSkipLoop (K : Nat) : Prop :=
  ∀ (Srem : Shape) (obj : VFields) (prevW : Int) (pre post : List Nat)
      (st : List Int),
    GoodShape Srem = true →
    (∀ n m t, fieldIn n m t Srem → ∀ v, findField n obj = some v →
      conform t v = true) →
    fuelFields Srem obj ≤ K →
    ∃ p' : Int, skipStructLoop K
        ⟨pre ++ fieldsBytes Srem obj prevW ++ (0 :: post), pre.length, prevW, st⟩ =
      .ok ⟨pre ++ fieldsBytes Srem obj prevW ++ (0 :: post),
        pre.length + (fieldsBytes Srem obj prevW).length + 1, p', st⟩

def StmtSkipMany (K : Nat) : Prop :=
  ∀ (item : Ty) (items : VList) (pre post : List Nat) (p : Int) (st : List Int),
    itemOK item = true → conformItems item items = true → fuelItems item items ≤ K →
    skipMany K item.tag (items.length : Int)
        ⟨pre ++ itemsBytes item items ++ post, pre.length, p, st⟩ =
      .ok ⟨pre ++ itemsBytes item items ++ post,
        pre.length + (itemsBytes item items).length, p, st⟩

def StmtSkipPairs (K : Nat) : Prop :=
  ∀ (key value : Ty) (entries : VMap) (pre post : List Nat) (p : Int) (st : List Int),
    keyOK key = true → itemOK value = true → conformKVs key value entries = true →
    fuelKVs key value entries ≤ K →
    skipPairs K key.tag value.tag (entries.length : Int)
        ⟨pre ++ kvBytes key value entries ++ post, pre.length, p, st⟩ =
      .ok ⟨pre ++ kvBytes key value entries ++ post,
        pre.length + (kvBytes key value entries).length, p, st⟩

def RStmts (K : Nat) : Prop :=
  StmtRV K ∧ StmtItems K ∧ StmtKVs K ∧ StmtLoop K ∧ StmtSkip K ∧
    StmtSkipLoop K ∧ StmtSkipMany K ∧ StmtSkipPairs K

theorem readField_stop (pre post : List Nat) (p : Int) (st : List Int) :
    readField ⟨pre ++ (0 :: post), pre.length, p, st⟩ =
      .ok ((0, -1), ⟨pre ++ (0 :: post), pre.length + 1, p, st⟩) := by
  unfold readField
  rw [readByte_ok, exceptBind_ok]
  dsimp only
  rw [if_pos rfl]

theorem fuelV_pos (ty : Ty) (v : Val) : 1 ≤ fuelV ty v := by
  cases ty <;> cases v <;> (try simp [fuelV]) <;> omega

theorem fuelItems_pos (item : Ty) (l : VList) : 1 ≤ fuelItems item l := by
  cases l <;> (simp [fuelItems] <;> omega)

theorem fuelKVs_pos (key value : Ty) (m : VMap) : 1 ≤ fuelKVs key value m := by
  cases m <;> (simp [fuelKVs] <;> omega)

theorem fuelFields_pos : ∀ (shape : Shape) (obj : VFields), 1 ≤ fuelFields shape obj
  | .nil, _ => by simp [fuelFields]
  | .field name num ty rest, obj => by
    rw [fuelFields]
    cases findField name obj
    · dsimp only
      exact fuelFields_pos rest obj
    · dsimp only
      omega

theorem stepItems (K : Nat) (ih : ∀ j, j < K → RStmts j) : StmtItems K := by
  intro item items pre post p st hok hc hf
  cases K with
  | zero => have := fuelItems_pos item items; omega
  | succ K =>
    cases items with
    | nil =>
      rw [readItems]
      norm_num [VList.length, itemsBytes]
    | cons v rest =>
      rw [conformItems] at hc
      simp only [Bool.and_eq_true] at hc
      rw [readItems, itemsBytes]
      rw [if_pos (by simp [VList.length])]
      have hbuf : pre ++ (valueBytes item v ++ itemsBytes item rest) ++ post =
          pre ++ valueBytes item v ++ (itemsBytes item rest ++ post) := by simp
      rw [hbuf]
      have hfv : fuelV item v ≤ K := by
        rw [fuelItems] at hf
        omega
      rw [(ih K (by omega)).1 item v pre (itemsBytes item rest ++ post) p st
        (itemOK_GoodTy hok) (itemOK_ne_boolean hok) hc.1 hfv]
      rw [exceptBind_ok]
      dsimp only
      rw [show ((VList.cons v rest).length : Int) - 1 = ((rest.length : Nat) : Int)
        from by simp [VList.length]]
      have hcur : pre.length + (valueBytes item v).length =
          (pre ++ valueBytes item v).length := by simp
      have hbuf2 : pre ++ valueBytes item v ++ (itemsBytes item rest ++ post) =
          pre ++ valueBytes item v ++ itemsBytes item rest ++ post := by simp
      rw [hcur, hbuf2]
      have hfi : fuelItems item rest ≤ K := by
        rw [fuelItems] at hf
        omega
      rw [(ih K (by omega)).2.1 item rest (pre ++ valueBytes item v) post p st
        hok hc.2 hfi]
      rw [exceptBind_ok]
      simp only [Except.ok.injEq, Prod.mk.injEq, RState.mk.injEq, List.length_append,
        and_true, true_and, eq_self_iff_true]
      omega

theorem stepKVs (K : Nat) (ih : ∀ j, j < K → RStmts j) : StmtKVs K := by
  intro key value entries pre post p st hkOK hvOK hc hf
  cases K with
  | zero => have := fuelKVs_pos key value entries; omega
  | succ K =>
    cases entries with
    | nil =>
      rw [readKVs]
      norm_num [VMap.length, kvBytes]
    | cons kv vv rest =>
      rw [conformKVs] at hc
      simp only [Bool.and_eq_true] at hc
      rw [readKVs, kvBytes]
      rw [if_pos (by simp [VMap.length])]
      have hbuf : pre ++ (valueBytes key kv ++ valueBytes value vv ++
          kvBytes key value rest) ++ post =
          pre ++ valueBytes key kv ++ (valueBytes value vv ++
            kvBytes key value rest ++ post) := by simp
      rw [hbuf]
      have hfk : fuelV key kv ≤ K := by
        rw [fuelKVs] at hf
        omega
      rw [(ih K (by omega)).1 key kv pre
        (valueBytes value vv ++ kvBytes key value rest ++ post) p st
        (itemOK_GoodTy (keyOK_itemOK hkOK)) (itemOK_ne_boolean (keyOK_itemOK hkOK))
        hc.1.1 hfk]
      rw [exceptBind_ok]
      dsimp only
      have hcur : pre.length + (valueBytes key kv).length =
          (pre ++ valueBytes key kv).length := by simp
      have hbuf2 : pre ++ valueBytes key kv ++ (valueBytes value vv ++
          kvBytes key value rest ++ post) =
          pre ++ valueBytes key kv ++ valueBytes value vv ++
            (kvBytes key value rest ++ post) := by simp
      rw [hcur, hbuf2]
      have hfv : fuelV value vv ≤ K := by
        rw [fuelKVs] at hf
        omega
      rw [(ih K (by omega)).1 value vv (pre ++ valueBytes key kv)
        (kvBytes key value rest ++ post) p st
        (itemOK_GoodTy hvOK) (itemOK_ne_boolean hvOK) hc.1.2 hfv]
      rw [exceptBind_ok]
      dsimp only
      rw [show ((VMap.cons kv vv rest).length : Int) - 1 = ((rest.length : Nat) : Int)
        from by simp [VMap.length]]
      have hcur2 : (pre ++ valueBytes key kv).length + (valueBytes value vv).length =
          (pre ++ valueBytes key kv ++ valueBytes value vv).length := by
        simp [List.length_append, Nat.add_assoc]
      have hbuf3 : pre ++ valueBytes key kv ++ valueBytes value vv ++
          (kvBytes key value rest ++ post) =
          pre ++ valueBytes key kv ++ valueBytes value vv ++
            kvBytes key value rest ++ post := by simp
      rw [hcur2, hbuf3]
      have hfr : fuelKVs key value rest ≤ K := by
        rw [fuelKVs] at hf
        omega
      rw [(ih K (by omega)).2.2.1 key value rest
        (pre ++ valueBytes key kv ++ valueBytes value vv) post p st hkOK hvOK
        hc.2 hfr]
      rw [exceptBind_ok]
      simp only [Except.ok.injEq, Prod.mk.injEq, RState.mk.injEq, List.length_append,
        and_true, true_and, eq_self_iff_true]
      omega

theorem stepSkipMany (K : Nat) (ih : ∀ j, j < K → RStmts j) : StmtSkipMany K := by
  intro item items pre post p st hok hc hf
  cases K with
  | zero => have := fuelItems_pos item items; omega
  | succ K =>
    cases items with
    | nil =>
      rw [skipMany]
      norm_num [VList.length, itemsBytes]
    | cons v rest =>
      rw [conformItems] at hc
      simp only [Bool.and_eq_true] at hc
      rw [skipMany, itemsBytes]
      rw [if_pos (by simp [VList.length])]
      have hbuf : pre ++ (valueBytes item v ++ itemsBytes item rest) ++ post =
          pre ++ valueBytes item v ++ (itemsBytes item rest ++ post) := by simp
      rw [hbuf]
      have hfv : fuelV item v ≤ K := by
        rw [fuelItems] at hf
        omega
      have hsk := (ih K (by omega)).2.2.2.2.1 item v pre
        (itemsBytes item rest ++ post) p st (itemOK_GoodTy hok) hc.1 hfv
      rw [fieldTag_itemOK v hok] at hsk
      rw [hsk, exceptBind_ok]
      rw [show ((VList.cons v rest).length : Int) - 1 = ((rest.length : Nat) : Int)
        from by simp [VList.length]]
      have hcur : pre.length + (valueBytes item v).length =
          (pre ++ valueBytes item v).length := by simp
      have hbuf2 : pre ++ valueBytes item v ++ (itemsBytes item rest ++ post) =
          pre ++ valueBytes item v ++ itemsBytes item rest ++ post := by simp
      rw [hcur, hbuf2]
      have hfi : fuelItems item rest ≤ K := by
        rw [fuelItems] at hf
        omega
      rw [(ih K (by omega)).2.2.2.2.2.2.1 item rest (pre ++ valueBytes item v) post
        p st hok hc.2 hfi]
      simp only [Except.ok.injEq, RState.mk.injEq, List.length_append,
        and_true, true_and, eq_self_iff_true]
      omega

theorem stepSkipPairs (K : Nat) (ih : ∀ j, j < K → RStmts j) : StmtSkipPairs K := by
  intro key value entries pre post p st hkOK hvOK hc hf
  cases K with
  | zero => have := fuelKVs_pos key value entries; omega
  | succ K =>
    cases entries with
    | nil =>
      rw [skipPairs]
      norm_num [VMap.length, kvBytes]
    | cons kv vv rest =>
      rw [conformKVs] at hc
      simp only [Bool.and_eq_true] at hc
      rw [skipPairs, kvBytes]
      rw [if_pos (by simp [VMap.length])]
      have hbuf : pre ++ (valueBytes key kv ++ valueBytes value vv ++
          kvBytes key value rest) ++ post =
          pre ++ valueBytes key kv ++ (valueBytes value vv ++
            kvBytes key value rest ++ post) := by simp
      rw [hbuf]
      have hfk : fuelV key kv ≤ K := by
        rw [fuelKVs] at hf
        omega
      have hsk := (ih K (by omega)).2.2.2.2.1 key kv pre
        (valueBytes value vv ++ kvBytes key value rest ++ post) p st
        (itemOK_GoodTy (keyOK_itemOK hkOK)) hc.1.1 hfk
      rw [fieldTag_itemOK kv (keyOK_itemOK hkOK)] at hsk
      rw [hsk, exceptBind_ok]
      have hcur : pre.length + (valueBytes key kv).length =
          (pre ++ valueBytes key kv).length := by simp
      have hbuf2 : pre ++ valueBytes key kv ++ (valueBytes value vv ++
          kvBytes key value rest ++ post) =
          pre ++ valueBytes key kv ++ valueBytes value vv ++
            (kvBytes key value rest ++ post) := by simp
      rw [hcur, hbuf2]
      have hfv : fuelV value vv ≤ K := by
        rw [fuelKVs] at hf
        omega
      have hsv := (ih K (by omega)).2.2.2.2.1 value vv (pre ++ valueBytes key kv)
        (kvBytes key value rest ++ post) p st (itemOK_GoodTy hvOK) hc.1.2 hfv
      rw [fieldTag_itemOK vv hvOK] at hsv
      rw [hsv, exceptBind_ok]
      rw [show ((VMap.cons kv vv rest).length : Int) - 1 = ((rest.length : Nat) : Int)
        from by simp [VMap.length]]
      have hcur2 : (pre ++ valueBytes key kv).length + (valueBytes value vv).length =
          (pre ++ valueBytes key kv ++ valueBytes value vv).length := by
        simp [List.length_append, Nat.add_assoc]
      have hbuf3 : pre ++ valueBytes key kv ++ valueBytes value vv ++
          (kvBytes key value rest ++ post) =
          pre ++ valueBytes key kv ++ valueBytes value vv ++
            kvBytes key value rest ++ post := by simp
      rw [hcur2, hbuf3]
      have hfr : fuelKVs key value rest ≤ K := by
        rw [fuelKVs] at hf
        omega
      rw [(ih K (by omega)).2.2.2.2.2.2.2 key value rest
        (pre ++ valueBytes key kv ++ valueBytes value vv) post p st hkOK hvOK
        hc.2 hfr]
      simp only [Except.ok.injEq, RState.mk.injEq, List.length_append,
        and_true, true_and, eq_self_iff_true]
      omega

/-! ## Alignment lemmas between shapes, objects and the read projection -/

theorem fieldIn_hasName : ∀ (S : Shape) {n : String} {m : Int} {t : Ty},
    fieldIn n m t S → S.hasName n = true
  | .nil, _, _, _, h => absurd h (by simp [fieldIn])
  | .field name num ty rest, n, m, t, h => by
    rw [Shape.hasName]
    rcases h with ⟨h1, _, _⟩ | h2
    · simp [h1]
    · rw [fieldIn_hasName rest h2, Bool.or_true]

theorem fieldIn_hasNum : ∀ (S : Shape) {n : String} {m : Int} {t : Ty},
    fieldIn n m t S → S.hasNum m = true
  | .nil, _, _, _, h => absurd h (by simp [fieldIn])
  | .field name num ty rest, n, m, t, h => by
    rw [Shape.hasNum]
    rcases h with ⟨_, h1, _⟩ | h2
    · simp [h1]
    · rw [fieldIn_hasNum rest h2, Bool.or_true]

theorem findField_some_hasN : ∀ (obj : VFields) {n : String} {v : Val},
    findField n obj = some v → obj.hasN n = true
  | .nil, _, _, h => by simp [findField] at h
  | .cons fname fv frest, n, v, h => by
    rw [findField] at h
    rw [VFields.hasN]
    by_cases he : fname = n
    · simp [he]
    · rw [if_neg he] at h
      rw [findField_some_hasN frest h, Bool.or_true]

theorem conformFields_conform : ∀ (S : Shape) (obj : VFields),
    GoodShape S = true → conformFields S obj = true →
    ∀ n m t, fieldIn n m t S → ∀ v, findField n obj = some v → conform t v = true
  | .nil, obj, _, hc, n, m, t, hin, v, hfind => absurd hin (by simp [fieldIn])
  | .field name num ty rest, obj, hg, hc, n, m, t, hin, v, hfind => by
    simp only [GoodShape, Bool.and_eq_true, decide_eq_true_eq,
      Bool.not_eq_true'] at hg
    obtain ⟨⟨⟨⟨⟨h1, h2⟩, hgt⟩, hnm⟩, hnn⟩, hgr⟩ := hg
    cases obj with
    | nil => simp [findField] at hfind
    | cons fname fv frest =>
      rw [conformFields] at hc
      by_cases he : fname = name
      · rw [if_pos he] at hc
        simp only [Bool.and_eq_true] at hc
        rcases hin with ⟨hn1, _, ht1⟩ | hin2
        · subst hn1
          subst ht1
          rw [findField, if_pos he] at hfind
          cases hfind
          exact hc.1
        · have hne : n ≠ name := by
            intro he2
            subst he2
            rw [fieldIn_hasName rest hin2] at hnm
            exact absurd hnm (by simp)
          rw [findField, if_neg (by subst he; exact fun hx => hne hx.symm)] at hfind
          exact conformFields_conform rest frest hgr hc.2 n m t hin2 v hfind
      · rw [if_neg he] at hc
        rcases hin with ⟨hn1, _, ht1⟩ | hin2
        · subst hn1
          have hnone : findField name (VFields.cons fname fv frest) = none := by
            apply findField_none_of_not_hasN
            by_cases hhas : VFields.hasN name (VFields.cons fname fv frest) = true
            · have := conformFields_names rest _ hc name hhas
              rw [this] at hnm
              exact absurd hnm (by simp)
            · simpa using hhas
          rw [hnone] at hfind
          cases hfind
        · exact conformFields_conform rest _ hgr hc n m t hin2 v hfind

theorem fieldIn_findByNum : ∀ (S : Shape) {n : String} {m : Int} {t : Ty},
    GoodShape S = true → fieldIn n m t S → findByNum m S = some (n, t)
  | .nil, _, _, _, _, h => absurd h (by simp [fieldIn])
  | .field name num ty rest, n, m, t, hg, hin => by
    simp only [GoodShape, Bool.and_eq_true, decide_eq_true_eq,
      Bool.not_eq_true'] at hg
    obtain ⟨⟨⟨⟨⟨h1, h2⟩, hgt⟩, hnm⟩, hnn⟩, hgr⟩ := hg
    rw [findByNum]
    rcases hin with ⟨hn1, hm1, ht1⟩ | hin2
    · subst hn1
      subst hm1
      subst ht1
      rw [if_pos rfl]
    · have hne : num ≠ m := by
        intro he
        subst he
        rw [fieldIn_hasNum rest hin2] at hnn
        exact absurd hnn (by simp)
      rw [if_neg hne]
      exact fieldIn_findByNum rest hgr hin2

theorem VFields.append_nil_right : ∀ (a : VFields), a.append .nil = a
  | .nil => rfl
  | .cons n v rest => by
    rw [VFields.append, VFields.append_nil_right rest]

theorem VFields.append_assoc : ∀ (a b c : VFields),
    (a.append b).append c = a.append (b.append c)
  | .nil, _, _ => rfl
  | .cons n v rest, b, c => by
    rw [VFields.append, VFields.append, VFields.append,
      VFields.append_assoc rest b c]

theorem assocSet_fresh : ∀ (acc : VFields) (name : String) (v : Val),
    acc.hasN name = false →
    assocSet name v acc = acc.append (.cons name v .nil)
  | .nil, _, _, _ => rfl
  | .cons n w rest, name, v, h => by
    rw [VFields.hasN] at h
    simp only [Bool.or_eq_false_iff, decide_eq_false_iff_not] at h
    rw [assocSet, if_neg h.1, VFields.append, assocSet_fresh rest name v h.2]

theorem projRead_aligned : ∀ (S Srem : Shape) (done rem acc : VFields),
    GoodShape Srem = true →
    conformFields Srem rem = true →
    (∀ n, done.hasN n = true → Srem.hasName n = false) →
    (∀ n m t, fieldIn n m t Srem → findByNum m S = some (n, t)) →
    (∀ n, acc.hasN n = true → Srem.hasName n = false) →
    projRead S Srem (done.append rem) acc = acc.append rem
  | S, .nil, done, rem, acc, _, hc, _, _, _ => by
    cases rem with
    | nil => rw [projRead, VFields.append_nil_right]
    | cons a b c => rw [conformFields] at hc; exact absurd hc (by simp)
  | S, .field name num ty rest, done, rem, acc, hg, hc, hdone, hagree, hacc => by
    simp only [GoodShape, Bool.and_eq_true, decide_eq_true_eq,
      Bool.not_eq_true'] at hg
    obtain ⟨⟨⟨⟨⟨h1, h2⟩, hgt⟩, hnm⟩, hnn⟩, hgr⟩ := hg
    have hdnm : done.hasN name = false := by
      by_cases h : done.hasN name = true
      · have := hdone name h
        rw [Shape.hasName] at this
        simp at this
      · simpa using h
    have hdone' : ∀ n, done.hasN n = true → rest.hasName n = false := by
      intro n h
      have := hdone n h
      rw [Shape.hasName] at this
      simp only [Bool.or_eq_false_iff] at this
      exact this.2
    have hacc' : ∀ n, acc.hasN n = true → rest.hasName n = false := by
      intro n h
      have := hacc n h
      rw [Shape.hasName] at this
      simp only [Bool.or_eq_false_iff] at this
      exact this.2
    have hagree' : ∀ n m t, fieldIn n m t rest → findByNum m S = some (n, t) := by
      intro n m t h
      exact hagree n m t (Or.inr h)
    cases rem with
    | nil =>
      rw [conformFields] at hc
      rw [projRead, findField_append_of_not_hasN name done hdnm]
      dsimp only [findField]
      exact projRead_aligned S rest done .nil acc hgr hc hdone' hagree' hacc'
    | cons fname fv frest =>
      rw [conformFields] at hc
      by_cases he : fname = name
      · rw [if_pos he] at hc
        subst he
        simp only [Bool.and_eq_true] at hc
        rw [projRead, findField_append_of_not_hasN fname done hdnm]
        rw [findField, if_pos rfl]
        dsimp only
        rw [hagree fname num ty (Or.inl ⟨rfl, rfl, rfl⟩)]
        dsimp only
        have haccn : acc.hasN fname = false := by
          by_cases h : acc.hasN fname = true
          · have := hacc fname h
            rw [Shape.hasName] at this
            simp at this
          · simpa using h
        rw [assocSet_fresh acc fname fv haccn]
        have hobj : done.append (VFields.cons fname fv frest) =
            (done.append (VFields.cons fname fv .nil)).append frest := by
          rw [← VFields.append_cons_right]
        rw [hobj]
        rw [projRead_aligned S rest (done.append (VFields.cons fname fv .nil)) frest
          (acc.append (VFields.cons fname fv .nil)) hgr hc.2
          (by
            intro n h
            rw [VFields.hasN_append] at h
            simp only [Bool.or_eq_true] at h
            rcases h with h | h
            · exact hdone' n h
            · rw [VFields.hasN, VFields.hasN, Bool.or_false] at h
              have : fname = n := by simpa using h
              subst this
              exact hnm)
          hagree'
          (by
            intro n h
            rw [VFields.hasN_append] at h
            simp only [Bool.or_eq_true] at h
            rcases h with h | h
            · exact hacc' n h
            · rw [VFields.hasN, VFields.hasN, Bool.or_false] at h
              have : fname = n := by simpa using h
              subst this
              exact hnm)]
        rw [VFields.append_assoc]
        rw [VFields.append, VFields.append_nil_left]
      · rw [if_neg he] at hc
        have hrem : VFields.hasN name (.cons fname fv frest) = false := by
          by_cases h : VFields.hasN name (.cons fname fv frest) = true
          · have h2 := conformFields_names rest _ hc name h
            rw [hnm] at h2
            exact absurd h2 (by simp)
          · simpa using h
        rw [projRead, findField_append_of_not_hasN name done hdnm,
          findField_none_of_not_hasN name _ hrem]
        dsimp only
        exact projRead_aligned S rest done (.cons fname fv frest) acc hgr hc
          hdone' hagree' hacc'

/-- Reading back with the writer's own schema reproduces the object. -/
theorem projRead_self (S : Shape) (obj : VFields) (hg : GoodShape S = true)
    (hc : conformFields S obj = true) : projRead S S obj .nil = obj := by
  have h := projRead_aligned S S .nil obj .nil hg hc
    (by intro n h; rw [VFields.hasN] at h; exact absurd h (by simp))
    (by intro n m t hin; exact fieldIn_findByNum S hg hin)
    (by intro n h; rw [VFields.hasN] at h; exact absurd h (by simp))
  simpa [VFields.append] using h

theorem stepRV (K : Nat) (ih : ∀ j, j < K → RStmts j) : StmtRV K := by
  intro ty v pre post p st hg hb hc hf
  cases K with
  | zero => have := fuelV_pos ty v; omega
  | succ K =>
    cases ty with
    | boolean => exact absurd rfl hb
    | double => simp [GoodTy] at hg
    | float => simp [GoodTy] at hg
    | tset item => simp [GoodTy] at hg
    | byte =>
      cases v <;> simp only [conform, Bool.false_eq_true] at hc
      rename_i n
      simp only [Bool.and_eq_true, decide_eq_true_eq] at hc
      simp only [readValRec]
      rw [valueBytes]
      have hbuf : pre ++ [n.toNat] ++ post = pre ++ (n.toNat :: post) := by simp
      rw [hbuf]
      rw [show Ty.byte.tag = 3 from rfl]
      rw [readVal_byte n pre post p st hc.1 hc.2]
      simp
    | i16 =>
      cases v <;> simp only [conform, Bool.false_eq_true] at hc
      rename_i n
      simp only [Bool.and_eq_true, decide_eq_true_eq] at hc
      simp only [readValRec]
      rw [valueBytes]
      rw [show Ty.i16.tag = 4 from rfl]
      rw [readVal_zigzag 4 n pre post p st (Or.inl rfl) (by omega) (by omega)]
    | i32 =>
      cases v <;> simp only [conform, Bool.false_eq_true] at hc
      rename_i n
      simp only [Bool.and_eq_true, decide_eq_true_eq] at hc
      simp only [readValRec]
      rw [valueBytes]
      rw [show Ty.i32.tag = 5 from rfl]
      rw [readVal_zigzag 5 n pre post p st (Or.inr rfl) (by omega) (by omega)]
    | i64 =>
      cases v <;> simp only [conform, Bool.false_eq_true] at hc
      rename_i n
      simp only [readValRec]
      rw [valueBytes]
      rw [show Ty.i64.tag = 6 from rfl]
      rw [readVal_i64 n pre post p st]
    | binaryBin =>
      cases v <;> simp only [conform, Bool.false_eq_true] at hc
      rename_i bs
      simp only [bytesOK, Bool.and_eq_true, decide_eq_true_eq] at hc
      simp only [readValRec]
      rw [valueBytes]
      have hbuf : pre ++ (natVarint bs.length ++ bs) ++ post =
          pre ++ natVarint bs.length ++ (bs ++ post) := by simp
      rw [hbuf]
      rw [show Ty.binaryBin.tag = 8 from rfl]
      rw [readVal_binary bs pre post p st hc.2]
      simp only [Except.ok.injEq, Prod.mk.injEq, RState.mk.injEq, List.length_append,
        and_true, true_and, eq_self_iff_true]
      omega
    | binaryStr =>
      cases v <;> simp only [conform, Bool.false_eq_true] at hc
      rename_i bs
      simp only [bytesOK, Bool.and_eq_true, decide_eq_true_eq] at hc
      rw [readValRec]
      dsimp only
      rw [valueBytes]
      have hbuf : pre ++ (natVarint bs.length ++ bs) ++ post =
          pre ++ natVarint bs.length ++ (bs ++ post) := by simp
      rw [hbuf]
      rw [readVarInt_ok bs.length pre (bs ++ post) p st hc.2]
      dsimp only
      have hcur2 : pre.length + (natVarint bs.length).length =
          (pre ++ natVarint bs.length).length := by simp
      rw [hcur2, readBinary_ok]
      simp only [Except.ok.injEq, Prod.mk.injEq, RState.mk.injEq, List.length_append,
        and_true, true_and, eq_self_iff_true]
      omega
    | tlist item =>
      cases v <;> simp only [conform, Bool.false_eq_true] at hc
      rename_i items
      simp only [Bool.and_eq_true, decide_eq_true_eq] at hc
      have hok : itemOK item = true := by simpa [GoodTy] using hg
      have htag := itemOK_tag hok
      rw [readValRec]
      have hK1 : 1 ≤ K := by
        have h1 := fuelItems_pos item items
        simp only [fuelV] at hf
        omega
      obtain ⟨K2, rfl⟩ : ∃ K2, K = K2 + 1 := ⟨K - 1, by omega⟩
      rw [readListBody]
      rw [valueBytes]
      cases items with
      | nil =>
        rw [show (VList.nil : VList).length = 0 from rfl]
        rw [listHeaderBytes, if_pos (by norm_num), itemsBytes]
        have hbuf : pre ++ ([0 * 16 + item.tag.toNat] ++ []) ++ post =
            pre ++ ((0 * 16 + item.tag.toNat) :: post) := by simp
        rw [hbuf]
        rw [readListHeader_small item.tag 0 pre post p st htag.1 htag.2 (by norm_num)]
        rw [exceptBind_ok]
        dsimp only
        rw [if_pos (show ((0 : Nat) : Int) = 0 from rfl)]
        simp
      | cons v0 rest0 =>
        by_cases hlt : (VList.cons v0 rest0).length < 15
        · rw [listHeaderBytes, if_pos hlt]
          have hbuf : pre ++ ([(VList.cons v0 rest0).length * 16 + item.tag.toNat] ++
              itemsBytes item (VList.cons v0 rest0)) ++ post =
              pre ++ (((VList.cons v0 rest0).length * 16 + item.tag.toNat) ::
                (itemsBytes item (VList.cons v0 rest0) ++ post)) := by simp
          rw [hbuf]
          rw [readListHeader_small item.tag (VList.cons v0 rest0).length pre
            (itemsBytes item (VList.cons v0 rest0) ++ post) p st htag.1 htag.2 hlt]
          rw [exceptBind_ok]
          dsimp only
          rw [if_neg (by simp [VList.length]; omega)]
          rw [if_neg (by simp)]
          have hcur : pre.length + 1 = (pre ++ [(VList.cons v0 rest0).length * 16 +
              item.tag.toNat]).length := by simp
          have hbuf2 : pre ++ (((VList.cons v0 rest0).length * 16 + item.tag.toNat) ::
              (itemsBytes item (VList.cons v0 rest0) ++ post)) =
              (pre ++ [(VList.cons v0 rest0).length * 16 + item.tag.toNat]) ++
                itemsBytes item (VList.cons v0 rest0) ++ post := by simp
          rw [hcur, hbuf2]
          have hfi : fuelItems item (VList.cons v0 rest0) ≤ K2 := by
            simp only [fuelV] at hf
            omega
          rw [(ih K2 (by omega)).2.1 item (VList.cons v0 rest0)
            (pre ++ [(VList.cons v0 rest0).length * 16 + item.tag.toNat]) post p st
            hok hc.2 hfi]
          rw [exceptBind_ok]
          simp only [Except.ok.injEq, Prod.mk.injEq, RState.mk.injEq, List.length_append,
            List.length_cons, List.length_nil, and_true, true_and, eq_self_iff_true]
          omega
        · rw [listHeaderBytes, if_neg hlt]
          have hbuf : pre ++ ((240 + item.tag.toNat) ::
              natVarint (VList.cons v0 rest0).length ++
              itemsBytes item (VList.cons v0 rest0)) ++ post =
              pre ++ ((240 + item.tag.toNat) ::
                (natVarint (VList.cons v0 rest0).length ++
                  (itemsBytes item (VList.cons v0 rest0) ++ post))) := by simp
          rw [hbuf]
          rw [readListHeader_big item.tag (VList.cons v0 rest0).length pre
            (itemsBytes item (VList.cons v0 rest0) ++ post) p st htag.1 htag.2
            (by omega)]
          rw [exceptBind_ok]
          dsimp only
          rw [if_neg (by simp [VList.length]; omega)]
          rw [if_neg (by simp)]
          have hcur : pre.length + 1 + (natVarint (VList.cons v0 rest0).length).length =
              (pre ++ ((240 + item.tag.toNat) ::
                natVarint (VList.cons v0 rest0).length)).length := by
            simp
            omega
          have hbuf2 : pre ++ ((240 + item.tag.toNat) ::
              (natVarint (VList.cons v0 rest0).length ++
                (itemsBytes item (VList.cons v0 rest0) ++ post))) =
              (pre ++ ((240 + item.tag.toNat) ::
                natVarint (VList.cons v0 rest0).length)) ++
                itemsBytes item (VList.cons v0 rest0) ++ post := by simp
          rw [hcur, hbuf2]
          have hfi : fuelItems item (VList.cons v0 rest0) ≤ K2 := by
            simp only [fuelV] at hf
            omega
          rw [(ih K2 (by omega)).2.1 item (VList.cons v0 rest0)
            (pre ++ ((240 + item.tag.toNat) ::
              natVarint (VList.cons v0 rest0).length)) post p st hok hc.2 hfi]
          rw [exceptBind_ok]
          simp only [Except.ok.injEq, Prod.mk.injEq, RState.mk.injEq, List.length_append,
            List.length_cons, List.length_nil, and_true, true_and, eq_self_iff_true]
          omega
    | tmap key value =>
      cases v <;> simp only [conform, Bool.false_eq_true] at hc
      rename_i entries
      simp only [Bool.and_eq_true, decide_eq_true_eq] at hc
      have hks : keyOK key = true ∧ itemOK value = true := by
        simpa [GoodTy, Bool.and_eq_true] using hg
      have hkt := itemOK_tag (keyOK_itemOK hks.1)
      have hvt := itemOK_tag hks.2
      rw [readValRec]
      dsimp only
      rw [valueBytes]
      cases entries with
      | nil =>
        rw [if_pos (show (VMap.nil : VMap).length = 0 from rfl)]
        have hbuf : pre ++ [0] ++ post = pre ++ (0 :: post) := by simp
        rw [hbuf]
        rw [readMapHeader_empty pre post p st]
        rw [exceptBind_ok]
        dsimp only
        rw [if_pos (show (0 : Int) = 0 from rfl)]
        simp
      | cons k0 v0 r0 =>
        rw [if_neg (by simp [VMap.length])]
        have hbuf : pre ++ (natVarint (VMap.cons k0 v0 r0).length ++
            (key.tag * 16 + value.tag).toNat ::
              kvBytes key value (VMap.cons k0 v0 r0)) ++ post =
            pre ++ natVarint (VMap.cons k0 v0 r0).length ++
              ((key.tag * 16 + value.tag).toNat ::
                (kvBytes key value (VMap.cons k0 v0 r0) ++ post)) := by simp
        rw [hbuf]
        rw [readMapHeader_full key.tag value.tag (VMap.cons k0 v0 r0).length pre
          (kvBytes key value (VMap.cons k0 v0 r0) ++ post) p st
          (by simp [VMap.length]) hc.1 (by omega) (by omega) (by omega) (by omega)]
        rw [exceptBind_ok]
        dsimp only
        rw [if_neg (by simp [VMap.length]; omega)]
        rw [if_neg (by simp)]
        rw [if_neg (by simp)]
        have hcur : pre.length + (natVarint (VMap.cons k0 v0 r0).length).length + 1 =
            (pre ++ natVarint (VMap.cons k0 v0 r0).length ++
              [(key.tag * 16 + value.tag).toNat]).length := by
          simp [Nat.add_assoc]
        have hbuf2 : pre ++ natVarint (VMap.cons k0 v0 r0).length ++
            ((key.tag * 16 + value.tag).toNat ::
              (kvBytes key value (VMap.cons k0 v0 r0) ++ post)) =
            (pre ++ natVarint (VMap.cons k0 v0 r0).length ++
              [(key.tag * 16 + value.tag).toNat]) ++
              kvBytes key value (VMap.cons k0 v0 r0) ++ post := by simp
        rw [hcur, hbuf2]
        have hfkv : fuelKVs key value (VMap.cons k0 v0 r0) ≤ K := by
          simp only [fuelV] at hf
          omega
        rw [(ih K (by omega)).2.2.1 key value (VMap.cons k0 v0 r0)
          (pre ++ natVarint (VMap.cons k0 v0 r0).length ++
            [(key.tag * 16 + value.tag).toNat]) post p st hks.1 hks.2 hc.2 hfkv]
        rw [exceptBind_ok]
        simp only [Except.ok.injEq, Prod.mk.injEq, RState.mk.injEq, List.length_append,
          List.length_cons, List.length_nil, and_true, true_and, eq_self_iff_true]
        omega
    | tstruct sub =>
      cases v <;> simp only [conform, Bool.false_eq_true] at hc
      rename_i fields
      have hgs : GoodShape sub = true ∧ sub.isNil = false := by
        simp only [GoodTy, Bool.and_eq_true, Bool.not_eq_true'] at hg
        exact ⟨hg.2, hg.1⟩
      rw [readValRec]
      dsimp only
      rw [if_neg (by rw [hgs.2]; simp)]
      rw [valueBytes]
      have hbuf : pre ++ (fieldsBytes sub fields 0 ++ [0]) ++ post =
          pre ++ fieldsBytes sub fields 0 ++ (0 :: post) := by simp
      rw [hbuf]
      dsimp only [pushStackR]
      obtain ⟨p', hloop⟩ := (ih K (by omega)).2.2.2.1 sub sub fields 0 .nil pre post
        (p :: st) hgs.1
        (conformFields_conform sub fields hgs.1 hc)
        (fun n m t hin => Or.inr (fieldIn_findByNum sub hgs.1 hin))
        (by simp only [fuelV] at hf; omega)
      rw [hloop]
      rw [exceptBind_ok]
      dsimp only [popStackR]
      rw [projRead_self sub fields hgs.1 hc]
      simp only [Except.ok.injEq, Prod.mk.injEq, RState.mk.injEq, List.length_append,
        List.length_cons, List.length_nil, and_true, true_and, eq_self_iff_true]
      omega

theorem stepSkip (K : Nat) (ih : ∀ j, j < K → RStmts j) : StmtSkip K := by
  intro ty v pre post p st hg hc hf
  cases K with
  | zero => have := fuelV_pos ty v; omega
  | succ K =>
    cases ty with
    | double => simp [GoodTy] at hg
    | float => simp [GoodTy] at hg
    | tset item => simp [GoodTy] at hg
    | boolean =>
      cases v <;> simp only [conform, Bool.false_eq_true] at hc
      rename_i b
      cases b
      · rw [show fieldTag Ty.boolean (Val.vbool false) = 2 from rfl]
        rw [skipR]
        norm_num
        rw [valueBytes]
        simp only [List.nil_append, List.append_nil, List.length_nil, Nat.add_zero]
        rfl
      · rw [show fieldTag Ty.boolean (Val.vbool true) = 1 from rfl]
        rw [skipR]
        norm_num
        rw [valueBytes]
        simp only [List.nil_append, List.append_nil, List.length_nil, Nat.add_zero]
        rfl
    | byte =>
      cases v <;> simp only [conform, Bool.false_eq_true] at hc
      rename_i n
      simp only [Bool.and_eq_true, decide_eq_true_eq] at hc
      rw [show fieldTag Ty.byte (Val.vnum n) = 3 from rfl]
      rw [skipR]
      norm_num
      rw [valueBytes]
      have hbuf : pre ++ ([n.toNat] ++ post) = pre ++ (n.toNat :: post) := by simp
      rw [hbuf]
      rw [readVal_byte n pre post p st hc.1 hc.2]
      rw [exceptBind_ok]
      simp
    | i16 =>
      cases v <;> simp only [conform, Bool.false_eq_true] at hc
      rename_i n
      simp only [Bool.and_eq_true, decide_eq_true_eq] at hc
      rw [show fieldTag Ty.i16 (Val.vnum n) = 4 from rfl]
      rw [skipR]
      norm_num
      rw [valueBytes]
      rw [show pre ++ (natVarint (zig n).toNat ++ post) =
        pre ++ natVarint (zig n).toNat ++ post from (List.append_assoc _ _ _).symm]
      rw [readVal_zigzag 4 n pre post p st (Or.inl rfl) (by omega) (by omega)]
      rw [exceptBind_ok]
    | i32 =>
      cases v <;> simp only [conform, Bool.false_eq_true] at hc
      rename_i n
      simp only [Bool.and_eq_true, decide_eq_true_eq] at hc
      rw [show fieldTag Ty.i32 (Val.vnum n) = 5 from rfl]
      rw [skipR]
      norm_num
      rw [valueBytes]
      rw [show pre ++ (natVarint (zig n).toNat ++ post) =
        pre ++ natVarint (zig n).toNat ++ post from (List.append_assoc _ _ _).symm]
      rw [readVal_zigzag 5 n pre post p st (Or.inr rfl) (by omega) (by omega)]
      rw [exceptBind_ok]
    | i64 =>
      cases v <;> simp only [conform, Bool.false_eq_true] at hc
      rename_i n
      rw [show fieldTag Ty.i64 (Val.vi64 n) = 6 from rfl]
      rw [skipR]
      norm_num
      rw [valueBytes]
      rw [show pre ++ (natVarint (zig n).toNat ++ post) =
        pre ++ natVarint (zig n).toNat ++ post from (List.append_assoc _ _ _).symm]
      rw [readVal_i64 n pre post p st]
      rw [exceptBind_ok]
    | binaryStr =>
      cases v <;> simp only [conform, Bool.false_eq_true] at hc
      rename_i bs
      simp only [bytesOK, Bool.and_eq_true, decide_eq_true_eq] at hc
      rw [show fieldTag Ty.binaryStr (Val.vstr bs) = 8 from rfl]
      rw [skipR]
      norm_num
      rw [valueBytes]
      have hbuf : pre ++ (natVarint bs.length ++ bs ++ post) =
          pre ++ natVarint bs.length ++ (bs ++ post) := by simp
      rw [hbuf]
      rw [readVal_binary bs pre post p st hc.2]
      rw [exceptBind_ok]
      simp only [Except.ok.injEq, RState.mk.injEq, List.length_append,
        and_true, true_and, eq_self_iff_true]
      omega
    | binaryBin =>
      cases v <;> simp only [conform, Bool.false_eq_true] at hc
      rename_i bs
      simp only [bytesOK, Bool.and_eq_true, decide_eq_true_eq] at hc
      rw [show fieldTag Ty.binaryBin (Val.vbin bs) = 8 from rfl]
      rw [skipR]
      norm_num
      rw [valueBytes]
      have hbuf : pre ++ (natVarint bs.length ++ bs ++ post) =
          pre ++ natVarint bs.length ++ (bs ++ post) := by simp
      rw [hbuf]
      rw [readVal_binary bs pre post p st hc.2]
      rw [exceptBind_ok]
      simp only [Except.ok.injEq, RState.mk.injEq, List.length_append,
        and_true, true_and, eq_self_iff_true]
      omega
    | tlist item =>
      cases v <;> simp only [conform, Bool.false_eq_true] at hc
      rename_i items
      simp only [Bool.and_eq_true, decide_eq_true_eq] at hc
      have hok : itemOK item = true := by simpa [GoodTy] using hg
      have htag := itemOK_tag hok
      rw [show fieldTag (Ty.tlist item) (Val.vlist items) = 9 from rfl]
      rw [skipR]
      norm_num
      rw [valueBytes]
      cases items with
      | nil =>
        rw [show (VList.nil : VList).length = 0 from rfl]
        rw [listHeaderBytes, if_pos (by norm_num), itemsBytes]
        have hbuf : pre ++ (([0 * 16 + item.tag.toNat] ++ []) ++ post) =
            pre ++ ((0 * 16 + item.tag.toNat) :: post) := by simp
        rw [hbuf]
        rw [readListHeader_small item.tag 0 pre post p st htag.1 htag.2 (by norm_num)]
        rw [exceptBind_ok]
        dsimp only
        have hK1 : 1 ≤ K := by
          simp only [fuelV] at hf
          have := fuelItems_pos item VList.nil
          omega
        obtain ⟨K2, rfl⟩ : ∃ K2, K = K2 + 1 := ⟨K - 1, by omega⟩
        rw [skipMany]
        rw [if_neg (by norm_num)]
        simp
      | cons v0 rest0 =>
        have hfi : fuelItems item (VList.cons v0 rest0) ≤ K := by
          simp only [fuelV] at hf
          omega
        by_cases hlt : (VList.cons v0 rest0).length < 15
        · rw [listHeaderBytes, if_pos hlt]
          have hbuf : pre ++ (([(VList.cons v0 rest0).length * 16 + item.tag.toNat] ++
              itemsBytes item (VList.cons v0 rest0)) ++ post) =
              pre ++ (((VList.cons v0 rest0).length * 16 + item.tag.toNat) ::
                (itemsBytes item (VList.cons v0 rest0) ++ post)) := by simp
          rw [hbuf]
          rw [readListHeader_small item.tag (VList.cons v0 rest0).length pre
            (itemsBytes item (VList.cons v0 rest0) ++ post) p st htag.1 htag.2 hlt]
          rw [exceptBind_ok]
          dsimp only
          have hcur : pre.length + 1 = (pre ++ [(VList.cons v0 rest0).length * 16 +
              item.tag.toNat]).length := by simp
          have hbuf2 : pre ++ (((VList.cons v0 rest0).length * 16 + item.tag.toNat) ::
              (itemsBytes item (VList.cons v0 rest0) ++ post)) =
              (pre ++ [(VList.cons v0 rest0).length * 16 + item.tag.toNat]) ++
                itemsBytes item (VList.cons v0 rest0) ++ post := by simp
          rw [hcur, hbuf2]
          rw [(ih K (by omega)).2.2.2.2.2.2.1 item (VList.cons v0 rest0)
            (pre ++ [(VList.cons v0 rest0).length * 16 + item.tag.toNat]) post p st
            hok hc.2 hfi]
          simp only [Except.ok.injEq, RState.mk.injEq, List.length_append,
            List.length_cons, List.length_nil, and_true, true_and, eq_self_iff_true]
          omega
        · rw [listHeaderBytes, if_neg hlt]
          have hbuf : pre ++ (((240 + item.tag.toNat) ::
              natVarint (VList.cons v0 rest0).length ++
              itemsBytes item (VList.cons v0 rest0)) ++ post) =
              pre ++ ((240 + item.tag.toNat) ::
                (natVarint (VList.cons v0 rest0).length ++
                  (itemsBytes item (VList.cons v0 rest0) ++ post))) := by simp
          rw [hbuf]
          rw [readListHeader_big item.tag (VList.cons v0 rest0).length pre
            (itemsBytes item (VList.cons v0 rest0) ++ post) p st htag.1 htag.2
            (by omega)]
          rw [exceptBind_ok]
          dsimp only
          have hcur : pre.length + 1 + (natVarint (VList.cons v0 rest0).length).length =
              (pre ++ ((240 + item.tag.toNat) ::
                natVarint (VList.cons v0 rest0).length)).length := by
            simp
            omega
          have hbuf2 : pre ++ ((240 + item.tag.toNat) ::
              (natVarint (VList.cons v0 rest0).length ++
                (itemsBytes item (VList.cons v0 rest0) ++ post))) =
              (pre ++ ((240 + item.tag.toNat) ::
                natVarint (VList.cons v0 rest0).length)) ++
                itemsBytes item (VList.cons v0 rest0) ++ post := by simp
          rw [hcur, hbuf2]
          rw [(ih K (by omega)).2.2.2.2.2.2.1 item (VList.cons v0 rest0)
            (pre ++ ((240 + item.tag.toNat) ::
              natVarint (VList.cons v0 rest0).length)) post p st hok hc.2 hfi]
          simp only [Except.ok.injEq, RState.mk.injEq, List.length_append,
            List.length_cons, List.length_nil, and_true, true_and, eq_self_iff_true]
          omega
    | tmap key value =>
      cases v <;> simp only [conform, Bool.false_eq_true] at hc
      rename_i entries
      simp only [Bool.and_eq_true, decide_eq_true_eq] at hc
      have hks : keyOK key = true ∧ itemOK value = true := by
        simpa [GoodTy, Bool.and_eq_true] using hg
      have hkt := itemOK_tag (keyOK_itemOK hks.1)
      have hvt := itemOK_tag hks.2
      rw [show fieldTag (Ty.tmap key value) (Val.vmap entries) = 11 from rfl]
      rw [skipR]
      norm_num
      rw [valueBytes]
      cases entries with
      | nil =>
        rw [if_pos (show (VMap.nil : VMap).length = 0 from rfl)]
        have hbuf : pre ++ ([0] ++ post) = pre ++ (0 :: post) := by simp
        rw [hbuf]
        rw [readMapHeader_empty pre post p st]
        rw [exceptBind_ok]
        dsimp only
        have hK1 : 1 ≤ K := by
          simp only [fuelV] at hf
          have := fuelKVs_pos key value VMap.nil
          omega
        obtain ⟨K2, rfl⟩ : ∃ K2, K = K2 + 1 := ⟨K - 1, by omega⟩
        rw [skipPairs]
        rw [if_neg (by norm_num)]
        simp
      | cons k0 v0 r0 =>
        rw [if_neg (by simp [VMap.length])]
        have hbuf : pre ++ ((natVarint (VMap.cons k0 v0 r0).length ++
            (key.tag * 16 + value.tag).toNat ::
              kvBytes key value (VMap.cons k0 v0 r0)) ++ post) =
            pre ++ natVarint (VMap.cons k0 v0 r0).length ++
              ((key.tag * 16 + value.tag).toNat ::
                (kvBytes key value (VMap.cons k0 v0 r0) ++ post)) := by simp
        rw [hbuf]
        rw [readMapHeader_full key.tag value.tag (VMap.cons k0 v0 r0).length pre
          (kvBytes key value (VMap.cons k0 v0 r0) ++ post) p st
          (by simp [VMap.length]) hc.1 (by omega) (by omega) (by omega) (by omega)]
        rw [exceptBind_ok]
        dsimp only
        have hcur : pre.length + (natVarint (VMap.cons k0 v0 r0).length).length + 1 =
            (pre ++ natVarint (VMap.cons k0 v0 r0).length ++
              [(key.tag * 16 + value.tag).toNat]).length := by
          simp [Nat.add_assoc]
        have hbuf2 : pre ++ natVarint (VMap.cons k0 v0 r0).length ++
            ((key.tag * 16 + value.tag).toNat ::
              (kvBytes key value (VMap.cons k0 v0 r0) ++ post)) =
            (pre ++ natVarint (VMap.cons k0 v0 r0).length ++
              [(key.tag * 16 + value.tag).toNat]) ++
              kvBytes key value (VMap.cons k0 v0 r0) ++ post := by simp
        rw [hcur, hbuf2]
        have hfkv : fuelKVs key value (VMap.cons k0 v0 r0) ≤ K := by
          simp only [fuelV] at hf
          omega
        rw [(ih K (by omega)).2.2.2.2.2.2.2 key value (VMap.cons k0 v0 r0)
          (pre ++ natVarint (VMap.cons k0 v0 r0).length ++
            [(key.tag * 16 + value.tag).toNat]) post p st hks.1 hks.2 hc.2 hfkv]
        simp only [Except.ok.injEq, RState.mk.injEq, List.length_append,
          List.length_cons, List.length_nil, and_true, true_and, eq_self_iff_true]
        omega
    | tstruct sub =>
      cases v <;> simp only [conform, Bool.false_eq_true] at hc
      rename_i fields
      have hgs : GoodShape sub = true := by
        simp only [GoodTy, Bool.and_eq_true, Bool.not_eq_true'] at hg
        exact hg.2
      rw [show fieldTag (Ty.tstruct sub) (Val.vstruct fields) = 12 from rfl]
      rw [skipR]
      rw [if_pos (show (12 : Int) = 12 from rfl)]
      rw [valueBytes]
      have hbuf : pre ++ (fieldsBytes sub fields 0 ++ [0]) ++ post =
          pre ++ fieldsBytes sub fields 0 ++ (0 :: post) := by simp
      rw [hbuf]
      dsimp only [pushStackR]
      obtain ⟨p', hloop⟩ := (ih K (by omega)).2.2.2.2.2.1 sub fields 0 pre post
        (p :: st) hgs (conformFields_conform sub fields hgs hc)
        (by simp only [fuelV] at hf; omega)
      rw [hloop]
      rw [exceptBind_ok]
      dsimp only [popStackR]
      simp only [Except.ok.injEq, RState.mk.injEq, List.length_append,
        List.length_cons, List.length_nil, and_true, true_and, eq_self_iff_true]
      omega

theorem fieldTag_nonbool {ty : Ty} (v : Val) (hg : GoodTy ty = true)
    (hb : ty ≠ .boolean) : fieldTag ty v = ty.tag := by
  cases ty <;> first
    | exact absurd rfl hb
    | rfl
    | (simp [GoodTy] at hg)

theorem tag_range {ty : Ty} (hg : GoodTy ty = true) (hb : ty ≠ .boolean) :
    3 ≤ ty.tag ∧ ty.tag ≤ 12 := by
  cases ty <;> first
    | exact absurd rfl hb
    | (norm_num [Ty.tag]; done)
    | (simp [GoodTy] at hg)

theorem stepLoopAux (outerK : Nat) (ih : ∀ j, j < outerK → RStmts j) :
    ∀ (Srem : Shape) (K : Nat), K ≤ outerK →
    ∀ (S : Shape) (obj : VFields) (prevW : Int) (acc : VFields)
      (pre post : List Nat) (st : List Int),
    GoodShape Srem = true →
    (∀ n m t, fieldIn n m t Srem → ∀ v, findField n obj = some v →
      conform t v = true) →
    (∀ n m t, fieldIn n m t Srem →
      findByNum m S = none ∨ findByNum m S = some (n, t)) →
    fuelFields Srem obj ≤ K →
    ∃ p' : Int, readStructLoop K S acc
        ⟨pre ++ fieldsBytes Srem obj prevW ++ (0 :: post), pre.length, prevW, st⟩ =
      .ok (projRead S Srem obj acc,
        ⟨pre ++ fieldsBytes Srem obj prevW ++ (0 :: post),
          pre.length + (fieldsBytes Srem obj prevW).length + 1, p', st⟩)
  | .nil, K, hK, S, obj, prevW, acc, pre, post, st, hg, hconf, hagree, hf => by
    obtain ⟨K', rfl⟩ : ∃ K', K = K' + 1 :=
      ⟨K - 1, by have := fuelFields_pos Shape.nil obj; omega⟩
    rw [fieldsBytes]
    have hbuf : pre ++ ([] : List Nat) ++ (0 :: post) = pre ++ (0 :: post) := by simp
    rw [hbuf]
    refine ⟨prevW, ?_⟩
    rw [readStructLoop]
    rw [if_pos (by simp)]
    rw [readField_stop, exceptBind_ok]
    dsimp only
    rw [if_pos (show (0 : Int) = 0 from rfl)]
    rw [projRead]
    simp
  | .field name num ty rest, K, hK, S, obj, prevW, acc, pre, post, st, hg, hconf,
      hagree, hf => by
    simp only [GoodShape, Bool.and_eq_true, decide_eq_true_eq,
      Bool.not_eq_true'] at hg
    obtain ⟨⟨⟨⟨⟨h1, h2⟩, hgt⟩, hnm⟩, hnn⟩, hgr⟩ := hg
    have hconf' : ∀ n m t, fieldIn n m t rest → ∀ v, findField n obj = some v →
        conform t v = true := fun n m t hin => hconf n m t (Or.inr hin)
    have hagree' : ∀ n m t, fieldIn n m t rest →
        findByNum m S = none ∨ findByNum m S = some (n, t) :=
      fun n m t hin => hagree n m t (Or.inr hin)
    have hgood : GoodShape rest = true := hgr
    cases hfind : findField name obj with
    | none =>
      rw [fieldsBytes, hfind]
      rw [fuelFields, hfind] at hf
      dsimp only at hf ⊢
      have h := stepLoopAux outerK ih rest K hK S obj prevW acc pre post st hgood
        hconf' hagree' hf
      rw [projRead, hfind]
      exact h
    | some v =>
      obtain ⟨K', rfl⟩ : ∃ K', K = K' + 1 := ⟨K - 1, by
        have := fuelFields_pos (Shape.field name num ty rest) obj
        omega⟩
      have hcv : conform ty v = true := hconf name num ty (Or.inl ⟨rfl, rfl, rfl⟩) v hfind
      have hfuel1 : fuelV ty v ≤ K' ∧ fuelFields rest obj ≤ K' := by
        rw [fuelFields, hfind] at hf
        dsimp only at hf
        omega
      have htagb := @fieldTag_bounds ty v (by assumption)
      rw [fieldsBytes, hfind]
      dsimp only
      rw [projRead, hfind]
      dsimp only
      rw [readStructLoop]
      rw [if_pos (by simp [List.length_append])]
      have hbufA : pre ++ (headerBytes prevW num (fieldTag ty v) ++ valueBytes ty v ++
          fieldsBytes rest obj num) ++ (0 :: post) =
          pre ++ (headerBytes prevW num (fieldTag ty v) ++ (valueBytes ty v ++
            (fieldsBytes rest obj num ++ (0 :: post)))) := by simp
      rw [hbufA]
      rw [readField_header prevW num (fieldTag ty v) pre
        (valueBytes ty v ++ (fieldsBytes rest obj num ++ (0 :: post))) st h1 h2
        htagb.1 htagb.2]
      rw [exceptBind_ok]
      dsimp only
      rw [if_neg (by omega)]
      rcases hagree name num ty (Or.inl ⟨rfl, rfl, rfl⟩) with hnone | hsome
      · -- unknown to the reader schema: skip
        rw [hnone]
        have hcur : pre.length + (headerBytes prevW num (fieldTag ty v)).length =
            (pre ++ headerBytes prevW num (fieldTag ty v)).length := by simp
        have hbufB : pre ++ (headerBytes prevW num (fieldTag ty v) ++ (valueBytes ty v ++
            (fieldsBytes rest obj num ++ (0 :: post)))) =
            (pre ++ headerBytes prevW num (fieldTag ty v)) ++ valueBytes ty v ++
              (fieldsBytes rest obj num ++ (0 :: post)) := by simp
        rw [hcur, hbufB]
        rw [(ih K' (by omega)).2.2.2.2.1 ty v
          (pre ++ headerBytes prevW num (fieldTag ty v))
          (fieldsBytes rest obj num ++ (0 :: post)) num st (by assumption) hcv
          hfuel1.1]
        rw [exceptBind_ok]
        have hcur2 : (pre ++ headerBytes prevW num (fieldTag ty v)).length +
            (valueBytes ty v).length =
            (pre ++ headerBytes prevW num (fieldTag ty v) ++
              valueBytes ty v).length := by simp [Nat.add_assoc]
        have hbufC : (pre ++ headerBytes prevW num (fieldTag ty v)) ++ valueBytes ty v ++
            (fieldsBytes rest obj num ++ (0 :: post)) =
            (pre ++ headerBytes prevW num (fieldTag ty v) ++ valueBytes ty v) ++
              fieldsBytes rest obj num ++ (0 :: post) := by simp
        rw [hcur2, hbufC]
        obtain ⟨p', hrest⟩ := stepLoopAux outerK ih rest K' (by omega) S obj num acc
          (pre ++ headerBytes prevW num (fieldTag ty v) ++ valueBytes ty v) post st
          hgood hconf' hagree' hfuel1.2
        rw [hrest]
        refine ⟨p', ?_⟩
        simp only [Except.ok.injEq, Prod.mk.injEq, RState.mk.injEq, List.length_append,
          List.length_cons, and_true, true_and, eq_self_iff_true]
        omega
      · -- known field: read the value
        rw [hsome]
        dsimp only
        by_cases hbool : ty = Ty.boolean
        · subst hbool
          cases v <;> simp only [conform, Bool.false_eq_true] at hcv
          rename_i b
          cases b
          · rw [show fieldTag Ty.boolean (Val.vbool false) = 2 from rfl] at *
            rw [if_neg (by decide)]
            rw [if_pos (by decide)]
            have hcur : pre.length + (headerBytes prevW num 2).length =
                (pre ++ headerBytes prevW num 2).length := by simp
            have hbufB : pre ++ (headerBytes prevW num 2 ++ (valueBytes Ty.boolean
                (Val.vbool false) ++ (fieldsBytes rest obj num ++ (0 :: post)))) =
                (pre ++ headerBytes prevW num 2) ++ fieldsBytes rest obj num ++
                  (0 :: post) := by simp [valueBytes]
            rw [hcur, hbufB]
            obtain ⟨p', hrest⟩ := stepLoopAux outerK ih rest K' (by omega) S obj num
              (assocSet name (Val.vbool false) acc)
              (pre ++ headerBytes prevW num 2) post st hgood hconf' hagree' hfuel1.2
            rw [show (decide ((2 : Int) = 1)) = false from rfl]
            rw [hrest]
            refine ⟨p', ?_⟩
            simp only [Except.ok.injEq, Prod.mk.injEq, RState.mk.injEq,
              List.length_append, List.length_cons, valueBytes, List.length_nil,
              and_true, true_and, eq_self_iff_true]
            omega
          · rw [show fieldTag Ty.boolean (Val.vbool true) = 1 from rfl] at *
            rw [if_neg (by decide)]
            rw [if_pos (by decide)]
            have hcur : pre.length + (headerBytes prevW num 1).length =
                (pre ++ headerBytes prevW num 1).length := by simp
            have hbufB : pre ++ (headerBytes prevW num 1 ++ (valueBytes Ty.boolean
                (Val.vbool true) ++ (fieldsBytes rest obj num ++ (0 :: post)))) =
                (pre ++ headerBytes prevW num 1) ++ fieldsBytes rest obj num ++
                  (0 :: post) := by simp [valueBytes]
            rw [hcur, hbufB]
            obtain ⟨p', hrest⟩ := stepLoopAux outerK ih rest K' (by omega) S obj num
              (assocSet name (Val.vbool true) acc)
              (pre ++ headerBytes prevW num 1) post st hgood hconf' hagree' hfuel1.2
            rw [show (decide ((1 : Int) = 1)) = true from rfl]
            rw [hrest]
            refine ⟨p', ?_⟩
            simp only [Except.ok.injEq, Prod.mk.injEq, RState.mk.injEq,
              List.length_append, List.length_cons, valueBytes, List.length_nil,
              and_true, true_and, eq_self_iff_true]
            omega
        · have htr := @tag_range ty (by assumption) hbool
          rw [fieldTag_nonbool v (by assumption) hbool] at *
          rw [isThriftBoolean_tags ty.tag htr.1 htr.2]
          simp only [Bool.false_eq_true, if_false]
          rw [if_neg (by simp)]
          rw [if_neg (by omega)]
          have hcur : pre.length + (headerBytes prevW num ty.tag).length =
              (pre ++ headerBytes prevW num ty.tag).length := by simp
          have hbufB : pre ++ (headerBytes prevW num ty.tag ++ (valueBytes ty v ++
              (fieldsBytes rest obj num ++ (0 :: post)))) =
              (pre ++ headerBytes prevW num ty.tag) ++ valueBytes ty v ++
                (fieldsBytes rest obj num ++ (0 :: post)) := by simp
          rw [hcur, hbufB]
          rw [(ih K' (by omega)).1 ty v (pre ++ headerBytes prevW num ty.tag)
            (fieldsBytes rest obj num ++ (0 :: post)) num st (by assumption) hbool hcv
            hfuel1.1]
          rw [exceptBind_ok]
          dsimp only
          have hcur2 : (pre ++ headerBytes prevW num ty.tag).length +
              (valueBytes ty v).length =
              (pre ++ headerBytes prevW num ty.tag ++ valueBytes ty v).length := by
            simp [Nat.add_assoc]
          have hbufC : (pre ++ headerBytes prevW num ty.tag) ++ valueBytes ty v ++
              (fieldsBytes rest obj num ++ (0 :: post)) =
              (pre ++ headerBytes prevW num ty.tag ++ valueBytes ty v) ++
                fieldsBytes rest obj num ++ (0 :: post) := by simp
          rw [hcur2, hbufC]
          obtain ⟨p', hrest⟩ := stepLoopAux outerK ih rest K' (by omega) S obj num
            (assocSet name v acc)
            (pre ++ headerBytes prevW num ty.tag ++ valueBytes ty v) post st
            hgood hconf' hagree' hfuel1.2
          rw [hrest]
          refine ⟨p', ?_⟩
          simp only [Except.ok.injEq, Prod.mk.injEq, RState.mk.injEq,
            List.length_append, List.length_cons, and_true, true_and,
            eq_self_iff_true]
          omega

theorem stepLoop (K : Nat) (ih : ∀ j, j < K → RStmts j) : StmtLoop K := by
  intro S Srem obj prevW acc pre post st hg hconf hagree hf
  exact stepLoopAux K ih Srem K (le_refl K) S obj prevW acc pre post st hg hconf
    hagree hf

theorem stepSkipLoopAux (outerK : Nat) (ih : ∀ j, j < outerK → RStmts j) :
    ∀ (Srem : Shape) (K : Nat), K ≤ outerK →
    ∀ (obj : VFields) (prevW : Int) (pre post : List Nat) (st : List Int),
    GoodShape Srem = true →
    (∀ n m t, fieldIn n m t Srem → ∀ v, findField n obj = some v →
      conform t v = true) →
    fuelFields Srem obj ≤ K →
    ∃ p' : Int, skipStructLoop K
        ⟨pre ++ fieldsBytes Srem obj prevW ++ (0 :: post), pre.length, prevW, st⟩ =
      .ok ⟨pre ++ fieldsBytes Srem obj prevW ++ (0 :: post),
        pre.length + (fieldsBytes Srem obj prevW).length + 1, p', st⟩
  | .nil, K, hK, obj, prevW, pre, post, st, hg, hconf, hf => by
    obtain ⟨K', rfl⟩ : ∃ K', K = K' + 1 :=
      ⟨K - 1, by have := fuelFields_pos Shape.nil obj; omega⟩
    rw [fieldsBytes]
    have hbuf : pre ++ ([] : List Nat) ++ (0 :: post) = pre ++ (0 :: post) := by simp
    rw [hbuf]
    refine ⟨prevW, ?_⟩
    rw [skipStructLoop]
    rw [if_pos (by simp)]
    rw [readField_stop, exceptBind_ok]
    dsimp only
    rw [if_pos (show (0 : Int) = 0 from rfl)]
    simp
  | .field name num ty rest, K, hK, obj, prevW, pre, post, st, hg, hconf, hf => by
    simp only [GoodShape, Bool.and_eq_true, decide_eq_true_eq,
      Bool.not_eq_true'] at hg
    obtain ⟨⟨⟨⟨⟨h1, h2⟩, hgt⟩, hnm⟩, hnn⟩, hgr⟩ := hg
    have hconf' : ∀ n m t, fieldIn n m t rest → ∀ v, findField n obj = some v →
        conform t v = true := fun n m t hin => hconf n m t (Or.inr hin)
    cases hfind : findField name obj with
    | none =>
      rw [fieldsBytes, hfind]
      rw [fuelFields, hfind] at hf
      dsimp only at hf ⊢
      exact stepSkipLoopAux outerK ih rest K hK obj prevW pre post st hgr hconf' hf
    | some v =>
      obtain ⟨K', rfl⟩ : ∃ K', K = K' + 1 := ⟨K - 1, by
        have := fuelFields_pos (Shape.field name num ty rest) obj
        omega⟩
      have hcv : conform ty v = true := hconf name num ty (Or.inl ⟨rfl, rfl, rfl⟩) v hfind
      have hfuel1 : fuelV ty v ≤ K' ∧ fuelFields rest obj ≤ K' := by
        rw [fuelFields, hfind] at hf
        dsimp only at hf
        omega
      have htagb := @fieldTag_bounds ty v (by assumption)
      rw [fieldsBytes, hfind]
      dsimp only
      rw [skipStructLoop]
      rw [if_pos (by simp [List.length_append])]
      have hbufA : pre ++ (headerBytes prevW num (fieldTag ty v) ++ valueBytes ty v ++
          fieldsBytes rest obj num) ++ (0 :: post) =
          pre ++ (headerBytes prevW num (fieldTag ty v) ++ (valueBytes ty v ++
            (fieldsBytes rest obj num ++ (0 :: post)))) := by simp
      rw [hbufA]
      rw [readField_header prevW num (fieldTag ty v) pre
        (valueBytes ty v ++ (fieldsBytes rest obj num ++ (0 :: post))) st h1 h2
        htagb.1 htagb.2]
      rw [exceptBind_ok]
      dsimp only
      rw [if_neg (by omega)]
      have hcur : pre.length + (headerBytes prevW num (fieldTag ty v)).length =
          (pre ++ headerBytes prevW num (fieldTag ty v)).length := by simp
      have hbufB : pre ++ (headerBytes prevW num (fieldTag ty v) ++ (valueBytes ty v ++
          (fieldsBytes rest obj num ++ (0 :: post)))) =
          (pre ++ headerBytes prevW num (fieldTag ty v)) ++ valueBytes ty v ++
            (fieldsBytes rest obj num ++ (0 :: post)) := by simp
      rw [hcur, hbufB]
      rw [(ih K' (by omega)).2.2.2.2.1 ty v
        (pre ++ headerBytes prevW num (fieldTag ty v))
        (fieldsBytes rest obj num ++ (0 :: post)) num st (by assumption) hcv
        hfuel1.1]
      rw [exceptBind_ok]
      have hcur2 : (pre ++ headerBytes prevW num (fieldTag ty v)).length +
          (valueBytes ty v).length =
          (pre ++ headerBytes prevW num (fieldTag ty v) ++
            valueBytes ty v).length := by simp [Nat.add_assoc]
      have hbufC : (pre ++ headerBytes prevW num (fieldTag ty v)) ++ valueBytes ty v ++
          (fieldsBytes rest obj num ++ (0 :: post)) =
          (pre ++ headerBytes prevW num (fieldTag ty v) ++ valueBytes ty v) ++
            fieldsBytes rest obj num ++ (0 :: post) := by simp
      rw [hcur2, hbufC]
      obtain ⟨p', hrest⟩ := stepSkipLoopAux outerK ih rest K' (by omega) obj num
        (pre ++ headerBytes prevW num (fieldTag ty v) ++ valueBytes ty v) post st
        hgr hconf' hfuel1.2
      rw [hrest]
      refine ⟨p', ?_⟩
      simp only [Except.ok.injEq, RState.mk.injEq, List.length_append,
        List.length_cons, and_true, true_and, eq_self_iff_true]
      omega

theorem stepSkipLoop (K : Nat) (ih : ∀ j, j < K → RStmts j) : StmtSkipLoop K := by
  intro Srem obj prevW pre post st hg hconf hf
  exact stepSkipLoopAux K ih Srem K (le_refl K) obj prevW pre post st hg hconf hf

theorem reader_ok : ∀ K : Nat, RStmts K := by
  intro K
  induction K using Nat.strong_induction_on with
  | _ K ih =>
    exact ⟨stepRV K ih, stepItems K ih, stepKVs K ih, stepLoop K ih, stepSkip K ih,
      stepSkipLoop K ih, stepSkipMany K ih, stepSkipPairs K ih⟩

/-! ## Closed-instance evaluation helpers -/

deriving instance DecidableEq for Except

/-- One emitting iteration of `_write_varint`'s loop, with the emitted
byte and the shifted next argument supplied as literals. -/
theorem writeVarintLoop_step (k : Nat) (num next : Int) (b : Nat) (s : WState)
    (h0 : jsAnd num (-128) ≠ 0) (h128 : jsAnd num (-128) ≠ -128)
    (hb : jsOr (jsAnd num 255) 128 = (b : Int)) (hb2 : b ≤ 255)
    (hn : jsShr num 7 = next) :
    writeVarintLoop (k + 1) num s =
      writeVarintLoop k next { s with out := s.out ++ [b] } := by
  rw [writeVarintLoop, if_neg h0, if_neg h128, hb, hn]
  unfold writeByte
  rw [if_pos ⟨Int.ofNat_nonneg b, by exact_mod_cast hb2⟩, exceptBind_ok]
  rw [Int.toNat_natCast]

/-- The final iteration of `_write_varint`'s loop when the masked byte is
`~0x7f` itself: a single `0x00` is emitted. -/
theorem writeVarintLoop_finish (k : Nat) (num : Int) (s : WState)
    (h128 : jsAnd num (-128) = -128) :
    writeVarintLoop (k + 1) num s = .ok { s with out := s.out ++ [0] } := by
  rw [writeVarintLoop, if_neg (by rw [h128]; norm_num), if_pos h128]
  unfold writeByte
  rw [if_pos ⟨by norm_num, by norm_num⟩]
  rfl

/-- For an argument whose 32-bit image is `-(2^k)` with `k ≥ 8`, the low
wire byte of the varint loop is `0 | 0x80 = 0x80`. -/
theorem jsOr_byte_top (num : Int) (k : Nat) (hk : 8 ≤ k)
    (h : toInt32 num = Int.negSucc (2 ^ k - 1)) :
    jsOr (jsAnd num 255) 128 = ((128 : Nat) : Int) := by
  have h255 : jsAnd num 255 = 0 := by
    unfold jsAnd intAnd
    rw [h, show toInt32 255 = Int.ofNat 255 from by decide]
    show Int.ofNat (Nat.ldiff 255 (2 ^ k - 1)) = 0
    rw [natLdiff_two_pow_sub_one,
      Nat.div_eq_of_lt (lt_of_lt_of_le (by norm_num)
        (Nat.pow_le_pow_right (by norm_num) hk)), Nat.mul_zero]
    rfl
  rw [h255]; decide

/-- `_write_varint` on any argument whose 32-bit image is the minimum
int32 (for instance `2^31` or `toZigZag 2^30 32`): the five wrapped bytes
`80 80 80 80 00`, losing the argument. -/
theorem writeVarint_wrap_top (num : Int) (hnum : toInt32 num = -2147483648)
    (s : WState) :
    writeVarint num s = .ok { s with out := s.out ++ [128, 128, 128, 128, 0] } := by
  have hA : ∀ b : Int, jsAnd num b = intAnd (-2147483648) (toInt32 b) := by
    intro b; unfold jsAnd; rw [hnum]
  have hS : jsShr num 7 = -16777216 := by
    unfold jsShr; rw [hnum]; decide
  unfold writeVarint
  rw [show (40 : Nat) = 39 + 1 from rfl,
    writeVarintLoop_step 39 num (-16777216) 128 s (by rw [hA]; decide)
      (by rw [hA]; decide)
      (jsOr_byte_top num 31 (by norm_num) (by rw [hnum]; decide)) (by norm_num) hS]
  rw [show (39 : Nat) = 38 + 1 from rfl,
    writeVarintLoop_step 38 (-16777216) (-131072) 128 _ (by decide) (by decide)
      (jsOr_byte_top _ 24 (by norm_num) (by decide)) (by norm_num) (by decide)]
  rw [show (38 : Nat) = 37 + 1 from rfl,
    writeVarintLoop_step 37 (-131072) (-1024) 128 _ (by decide) (by decide)
      (jsOr_byte_top _ 17 (by norm_num) (by decide)) (by norm_num) (by decide)]
  rw [show (37 : Nat) = 36 + 1 from rfl,
    writeVarintLoop_step 36 (-1024) (-8) 128 _ (by decide) (by decide)
      (jsOr_byte_top _ 10 (by norm_num) (by decide)) (by norm_num) (by decide)]
  rw [show (36 : Nat) = 35 + 1 from rfl,
    writeVarintLoop_finish 35 (-8) _ (by decide)]
  simp

/-! ## The varint byte-length formula -/

theorem log2_step (m : Nat) (hm : 2 ≤ m) : Nat.log2 m = Nat.log2 (m / 2) + 1 := by
  rw [Nat.log2, if_pos hm]

theorem log2_div128 (n : Nat) (h : 128 ≤ n) :
    Nat.log2 n = Nat.log2 (n / 128) + 7 := by
  have h1 := log2_step n (by omega)
  have h2 := log2_step (n / 2) (by omega)
  have e2 : n / 2 / 2 = n / 4 := by omega
  rw [e2] at h2
  have h3 := log2_step (n / 4) (by omega)
  have e3 : n / 4 / 2 = n / 8 := by omega
  rw [e3] at h3
  have h4 := log2_step (n / 8) (by omega)
  have e4 : n / 8 / 2 = n / 16 := by omega
  rw [e4] at h4
  have h5 := log2_step (n / 16) (by omega)
  have e5 : n / 16 / 2 = n / 32 := by omega
  rw [e5] at h5
  have h6 := log2_step (n / 32) (by omega)
  have e6 : n / 32 / 2 = n / 64 := by omega
  rw [e6] at h6
  have h7 := log2_step (n / 64) (by omega)
  have e7 : n / 64 / 2 = n / 128 := by omega
  rw [e7] at h7
  omega

/-- The byte count of the emitted varint: `floor(log2 n / 7) + 1`, which
is `max 1 (ceil(bits(n) / 7))` for the bit length `log2 n + 1`. -/
theorem natVarint_length_eq : ∀ n : Nat, (natVarint n).length = Nat.log2 n / 7 + 1 := by
  intro n
  induction n using Nat.strong_induction_on with
  | _ n ih =>
    unfold natVarint
    split
    · next h =>
      have hlog : Nat.log2 n ≤ 6 := by
        by_cases hz : n = 0
        · subst hz; unfold Nat.log2; norm_num
        · have := (Nat.log2_lt hz (k := 7)).mpr (by norm_num; omega)
          omega
      simp only [List.length_cons, List.length_nil]
      omega
    · next h =>
      have hlt : n / 128 < n := Nat.div_lt_self (by omega) (by omega)
      have ihr := ih (n / 128) hlt
      simp only [List.length_cons, ihr]
      have := log2_div128 n (by omega)
      omega

/-! ## Top-level decode of the writer's bytes -/

/-- Decoding the writer's byte stream with the writer's own schema gives
back the object. -/
theorem readBack_ok (shape : Shape) (obj : VFields) (fuel : Nat)
    (hg : GoodShape shape = true) (hc : conformFields shape obj = true)
    (hf : fuelFields shape obj ≤ fuel) :
    thriftReadToObject fuel (fieldsBytes shape obj 0 ++ [0]) shape = .ok obj := by
  obtain ⟨p', hloop⟩ := (reader_ok fuel).2.2.2.1 shape shape obj 0 .nil [] [] []
    hg (conformFields_conform shape obj hg hc)
    (fun n m t hin => Or.inr (fieldIn_findByNum shape hg hin))
    hf
  simp only [List.nil_append, List.length_nil] at hloop
  unfold thriftReadToObject readStruct
  rw [show fieldsBytes shape obj 0 ++ [0] =
    fieldsBytes shape obj 0 ++ (0 :: ([] : List Nat)) from rfl]
  rw [hloop, exceptBind_ok, projRead_self shape obj hg hc]

/-! ## The writer's nested struct frame -/

/-- `write_struct` on a writer whose stack holds the parent frame: emits
the fields and the STOP byte, pops the stack and restores the saved
`prev_field_id`. -/
theorem writeStruct_frame_ok (sub : Shape) (fields : VFields) (out1 : List Nat)
    (p1 q : Int) (rest : List Int)
    (hg : GoodShape sub = true) (hc : conformFields sub fields = true) :
    writeStruct fields sub ⟨out1, p1, q :: rest⟩ =
      .ok ⟨out1 ++ (fieldsBytes sub fields p1 ++ [0]), q, rest⟩ := by
  rw [writeStruct]
  cases fields with
  | nil =>
    simp only [VFields.isEmpty, if_true]
    rw [show (pure ⟨out1, p1, q :: rest⟩ : Except Err WState) =
      .ok ⟨out1, p1, q :: rest⟩ from rfl, exceptBind_ok, writeStop_ok]
    rw [fieldsBytes_nil_obj]
    rfl
  | cons a b c =>
    simp only [VFields.isEmpty, Bool.false_eq_true, if_false]
    obtain ⟨p', hw⟩ := writeStructFields_ok (sizeOf sub + 1) sub (by omega)
      .nil (.cons a b c) ⟨out1, p1, q :: rest⟩ hg hc
      (by intro nm h; rw [VFields.hasN] at h; exact absurd h (by simp))
    rw [show VFields.nil.append (.cons a b c) = .cons a b c from rfl] at hw
    rw [hw, exceptBind_ok, writeStop_ok]
    simp [popStackW, List.append_assoc]

/-! ## The struct loop's mismatch site -/

theorem headerBytes_length_pos (prev num tag : Int) :
    1 ≤ (headerBytes prev num tag).length := by
  unfold headerBytes
  split <;> simp

/-- One iteration of `read_struct`'s loop on a header whose wire tag does
not match the schema type of the field with that id (after the
TRUE/FALSE → BOOLEAN normalisation): the `Mismatching type` error. -/
theorem readStructLoop_mismatch (K : Nat) (S : Shape) (acc : VFields)
    (prevW num wt : Int) (name : String) (fty : Ty)
    (pre post : List Nat) (st : List Int)
    (hn1 : 1 ≤ num) (hn2 : num ≤ 32767) (ht1 : 1 ≤ wt) (ht2 : wt ≤ 15)
    (hfind : findByNum num S = some (name, fty))
    (hne : fty.tag ≠ (if isThriftBoolean wt then (161 : Int) else wt)) :
    readStructLoop (K + 1) S acc
      ⟨pre ++ (headerBytes prevW num wt ++ post), pre.length, prevW, st⟩ =
      .error (.mismatchField fty.tag wt) := by
  rw [readStructLoop]
  rw [if_pos (by
    simp only [List.length_append]
    have := headerBytes_length_pos prevW num wt
    omega)]
  rw [readField_header prevW num wt pre post st hn1 hn2 ht1 ht2, exceptBind_ok]
  dsimp only
  rw [if_neg (by omega)]
  rw [hfind]
  dsimp only
  rw [if_pos hne]

/-! ## Projection onto a sub-schema -/

/-- The spec's "projection of `v'` onto `S`'s fields": keep exactly the
entries whose name `S` declares. -/
def projectFields (S : Shape) : VFields → VFields
  | .nil => .nil
  | .cons n v rest =>
    if S.hasName n then .cons n v (projectFields S rest)
    else projectFields S rest

theorem findByNum_some_fieldIn : ∀ (S : Shape) {m : Int} {n : String} {t : Ty},
    findByNum m S = some (n, t) → fieldIn n m t S
  | .nil, _, _, _, h => by rw [findByNum] at h; cases h
  | .field name num ty rest, m, n, t, h => by
    rw [findByNum] at h
    by_cases he : num = m
    · rw [if_pos he] at h
      injection h with h2
      injection h2 with h3 h4
      exact Or.inl ⟨h3, he, h4⟩
    · rw [if_neg he] at h
      exact Or.inr (findByNum_some_fieldIn rest h)

theorem hasName_fieldIn : ∀ (S : Shape) {n : String},
    S.hasName n = true → ∃ m t, fieldIn n m t S
  | .nil, _, h => by rw [Shape.hasName] at h; cases h
  | .field name num ty rest, n, h => by
    rw [Shape.hasName] at h
    simp only [Bool.or_eq_true, decide_eq_true_eq] at h
    rcases h with h | h
    · exact ⟨num, ty, Or.inl ⟨h, rfl, rfl⟩⟩
    · obtain ⟨m, t, hin⟩ := hasName_fieldIn rest h
      exact ⟨m, t, Or.inr hin⟩

theorem fieldIn_name_unique : ∀ (S : Shape) {n : String} {m m2 : Int} {t t2 : Ty},
    GoodShape S = true → fieldIn n m t S → fieldIn n m2 t2 S → m = m2 ∧ t = t2
  | .nil, _, _, _, _, _, _, h, _ => absurd h (by simp [fieldIn])
  | .field name num ty rest, n, m, m2, t, t2, hg, ha, hb => by
    simp only [GoodShape, Bool.and_eq_true, decide_eq_true_eq,
      Bool.not_eq_true'] at hg
    obtain ⟨⟨⟨⟨⟨h1, h2⟩, hgt⟩, hnm⟩, hnn⟩, hgr⟩ := hg
    rcases ha with ⟨ha1, ha2, ha3⟩ | ha
    · rcases hb with ⟨hb1, hb2, hb3⟩ | hb
      · exact ⟨ha2.symm.trans hb2, ha3.symm.trans hb3⟩
      · subst ha1
        rw [fieldIn_hasName rest hb] at hnm
        cases hnm
    · rcases hb with ⟨hb1, hb2, hb3⟩ | hb
      · subst hb1
        rw [fieldIn_hasName rest ha] at hnm
        cases hnm
      · exact fieldIn_name_unique rest hgr ha hb

theorem fieldIn_num_unique : ∀ (S : Shape) {n n2 : String} {m : Int} {t t2 : Ty},
    GoodShape S = true → fieldIn n m t S → fieldIn n2 m t2 S → n = n2 ∧ t = t2
  | .nil, _, _, _, _, _, _, h, _ => absurd h (by simp [fieldIn])
  | .field name num ty rest, n, n2, m, t, t2, hg, ha, hb => by
    simp only [GoodShape, Bool.and_eq_true, decide_eq_true_eq,
      Bool.not_eq_true'] at hg
    obtain ⟨⟨⟨⟨⟨h1, h2⟩, hgt⟩, hnm⟩, hnn⟩, hgr⟩ := hg
    rcases ha with ⟨ha1, ha2, ha3⟩ | ha
    · rcases hb with ⟨hb1, hb2, hb3⟩ | hb
      · exact ⟨ha1.symm.trans hb1, ha3.symm.trans hb3⟩
      · subst ha2
        rw [fieldIn_hasNum rest hb] at hnn
        cases hnn
    · rcases hb with ⟨hb1, hb2, hb3⟩ | hb
      · subst hb2
        rw [fieldIn_hasNum rest ha] at hnn
        cases hnn
      · exact fieldIn_num_unique rest hgr ha hb

/-- What `read_struct`'s loop produces from the wire image of `(Srem, rem)`
when every `Srem`-field id either is unknown to the reading schema `S`
(and its name is absent too) or maps to the same name and type: exactly
the entries of `rem` whose names `S` declares. -/
theorem projRead_restrict : ∀ (S Srem : Shape) (done rem acc : VFields),
    GoodShape Srem = true →
    conformFields Srem rem = true →
    (∀ n, done.hasN n = true → Srem.hasName n = false) →
    (∀ n m t, fieldIn n m t Srem →
      (findByNum m S = none ∧ S.hasName n = false) ∨
      (findByNum m S = some (n, t) ∧ S.hasName n = true)) →
    (∀ n, acc.hasN n = true → Srem.hasName n = false) →
    projRead S Srem (done.append rem) acc = acc.append (projectFields S rem)
  | S, .nil, done, rem, acc, _, hc, _, _, _ => by
    cases rem with
    | nil => rw [projRead, projectFields, VFields.append_nil_right]
    | cons a b c => rw [conformFields] at hc; exact absurd hc (by simp)
  | S, .field name num ty rest, done, rem, acc, hg, hc, hdone, hagree, hacc => by
    simp only [GoodShape, Bool.and_eq_true, decide_eq_true_eq,
      Bool.not_eq_true'] at hg
    obtain ⟨⟨⟨⟨⟨h1, h2⟩, hgt⟩, hnm⟩, hnn⟩, hgr⟩ := hg
    have hdnm : done.hasN name = false := by
      by_cases h : done.hasN name = true
      · have := hdone name h
        rw [Shape.hasName] at this
        simp at this
      · simpa using h
    have hdone' : ∀ n, done.hasN n = true → rest.hasName n = false := by
      intro n h
      have := hdone n h
      rw [Shape.hasName] at this
      simp only [Bool.or_eq_false_iff] at this
      exact this.2
    have hacc' : ∀ n, acc.hasN n = true → rest.hasName n = false := by
      intro n h
      have := hacc n h
      rw [Shape.hasName] at this
      simp only [Bool.or_eq_false_iff] at this
      exact this.2
    have hagree' : ∀ n m t, fieldIn n m t rest →
        (findByNum m S = none ∧ S.hasName n = false) ∨
        (findByNum m S = some (n, t) ∧ S.hasName n = true) := by
      intro n m t h
      exact hagree n m t (Or.inr h)
    cases rem with
    | nil =>
      rw [conformFields] at hc
      rw [projRead, findField_append_of_not_hasN name done hdnm]
      dsimp only [findField]
      exact projRead_restrict S rest done .nil acc hgr hc hdone' hagree' hacc'
    | cons fname fv frest =>
      rw [conformFields] at hc
      by_cases he : fname = name
      · rw [if_pos he] at hc
        subst he
        simp only [Bool.and_eq_true] at hc
        rw [projRead, findField_append_of_not_hasN fname done hdnm]
        rw [findField, if_pos rfl]
        dsimp only
        have hobj : done.append (VFields.cons fname fv frest) =
            (done.append (VFields.cons fname fv .nil)).append frest := by
          rw [← VFields.append_cons_right]
        have hdone2 : ∀ n, (done.append (VFields.cons fname fv .nil)).hasN n = true →
            rest.hasName n = false := by
          intro n h
          rw [VFields.hasN_append] at h
          simp only [Bool.or_eq_true] at h
          rcases h with h | h
          · exact hdone' n h
          · rw [VFields.hasN, VFields.hasN, Bool.or_false] at h
            have : fname = n := by simpa using h
            subst this
            exact hnm
        rcases hagree fname num ty (Or.inl ⟨rfl, rfl, rfl⟩) with
          ⟨hnone, hnoname⟩ | ⟨hsome, hname⟩
        · rw [hnone]
          dsimp only
          rw [hobj]
          rw [projRead_restrict S rest (done.append (VFields.cons fname fv .nil))
            frest acc hgr hc.2 hdone2 hagree' hacc']
          rw [projectFields, if_neg (by simp [hnoname])]
        · rw [hsome]
          dsimp only
          have haccn : acc.hasN fname = false := by
            by_cases h : acc.hasN fname = true
            · have := hacc fname h
              rw [Shape.hasName] at this
              simp at this
            · simpa using h
          rw [assocSet_fresh acc fname fv haccn]
          rw [hobj]
          rw [projRead_restrict S rest (done.append (VFields.cons fname fv .nil))
            frest (acc.append (VFields.cons fname fv .nil)) hgr hc.2 hdone2 hagree'
            (by
              intro n h
              rw [VFields.hasN_append] at h
              simp only [Bool.or_eq_true] at h
              rcases h with h | h
              · exact hacc' n h
              · rw [VFields.hasN, VFields.hasN, Bool.or_false] at h
                have : fname = n := by simpa using h
                subst this
                exact hnm)]
          rw [VFields.append_assoc]
          rw [projectFields, if_pos hname]
          rw [VFields.append, VFields.append_nil_left]
      · rw [if_neg he] at hc
        have hrem : VFields.hasN name (.cons fname fv frest) = false := by
          by_cases h : VFields.hasN name (.cons fname fv frest) = true
          · have h2 := conformFields_names rest _ hc name h
            rw [hnm] at h2
            exact absurd h2 (by simp)
          · simpa using h
        rw [projRead, findField_append_of_not_hasN name done hdnm,
          findField_none_of_not_hasN name _ hrem]
        dsimp only
        exact projRead_restrict S rest done (.cons fname fv frest) acc hgr hc
          hdone' hagree' hacc'

/-- Decoding the writer's bytes with a sub-schema of the writing schema:
success, and exactly the sub-schema's fields are kept. -/
theorem readBack_sub_ok (Sbig Ssub : Shape) (obj : VFields) (fuel : Nat)
    (hgB : GoodShape Sbig = true) (hgS : GoodShape Ssub = true)
    (hsub : ∀ n m t, fieldIn n m t Ssub → fieldIn n m t Sbig)
    (hc : conformFields Sbig obj = true)
    (hf : fuelFields Sbig obj ≤ fuel) :
    thriftReadToObject fuel (fieldsBytes Sbig obj 0 ++ [0]) Ssub =
      .ok (projectFields Ssub obj) := by
  have hagree2 : ∀ n m t, fieldIn n m t Sbig →
      (findByNum m Ssub = none ∧ Ssub.hasName n = false) ∨
      (findByNum m Ssub = some (n, t) ∧ Ssub.hasName n = true) := by
    intro n m t hin
    cases h : findByNum m Ssub with
    | some p =>
      obtain ⟨n2, t2⟩ := p
      have hin2 : fieldIn n2 m t2 Ssub := findByNum_some_fieldIn Ssub h
      have hinB : fieldIn n2 m t2 Sbig := hsub n2 m t2 hin2
      obtain ⟨hn, ht⟩ := fieldIn_num_unique Sbig hgB hin hinB
      refine Or.inr ⟨?_, ?_⟩
      · rw [hn, ht]
      · rw [hn]; exact fieldIn_hasName Ssub hin2
    | none =>
      refine Or.inl ⟨rfl, ?_⟩
      by_cases hn : Ssub.hasName n = true
      · obtain ⟨m2, t2, hin2⟩ := hasName_fieldIn Ssub hn
        have hinB : fieldIn n m2 t2 Sbig := hsub n m2 t2 hin2
        obtain ⟨hm, ht⟩ := fieldIn_name_unique Sbig hgB hin hinB
        subst hm
        rw [fieldIn_findByNum Ssub hgS hin2] at h
        cases h
      · simpa using hn
  obtain ⟨p', hloop⟩ := (reader_ok fuel).2.2.2.1 Ssub Sbig obj 0 .nil [] [] []
    hgB (conformFields_conform Sbig obj hgB hc)
    (fun n m t hin => (hagree2 n m t hin).elim (fun h => Or.inl h.1)
      (fun h => Or.inr h.1))
    hf
  simp only [List.nil_append, List.length_nil] at hloop
  unfold thriftReadToObject readStruct
  rw [show fieldsBytes Sbig obj 0 ++ [0] =
    fieldsBytes Sbig obj 0 ++ (0 :: ([] : List Nat)) from rfl]
  rw [hloop, exceptBind_ok]
  rw [show projRead Ssub Sbig obj .nil =
      VFields.nil.append (projectFields Ssub obj) from
    projRead_restrict Ssub Sbig .nil obj .nil hgB hc
      (by intro n h; rw [VFields.hasN] at h; exact absurd h (by simp))
      hagree2
      (by intro n h; rw [VFields.hasN] at h; exact absurd h (by simp))]
  rfl

/-! ## Single-scalar-field writes, evaluated -/

/-- Schema types dispatched to `write_val` by `write_struct`'s field loop
(everything except the four container types). -/
def scalarTy : Ty → Bool
  | .tlist _ => false
  | .tset _ => false
  | .tmap _ _ => false
  | .tstruct _ => false
  | _ => true

theorem popStackW_out (s : WState) : (popStackW s).out = s.out := by
  unfold popStackW
  cases s.stack <;> rfl

theorem structFields_nil_tail (ov : VFields) :
    ∀ (e : Except Err WState),
      (do
        let s2 ← e
        writeStructFields .nil ov s2) = e
  | .ok s2 => by
    show writeStructFields .nil ov s2 = Except.ok s2
    rw [writeStructFields]
  | .error err => rfl

theorem writeStructFields_single (name : String) (num : Int) (ty : Ty) (v : Val)
    (hty : scalarTy ty = true) (s : WState) :
    writeStructFields (.field name num ty .nil) (.cons name v .nil) s =
      writeVal (some num) ty.tag v s := by
  rw [writeStructFields,
    show findField name (.cons name v .nil) = some v from by rw [findField, if_pos rfl]]
  cases ty <;> first
    | exact Bool.noConfusion hty
    | (dsimp only; exact structFields_nil_tail _ _)

/-- `thriftWriteFromObject` of a one-field object against a one-scalar-field
schema: whatever `write_val` does, followed by the STOP byte. -/
theorem thriftWrite_single (name : String) (num : Int) (ty : Ty) (v : Val)
    (hty : scalarTy ty = true) :
    thriftWriteFromObject (.cons name v .nil) (.field name num ty .nil) =
      Except.map (fun s2 => s2.out ++ [0])
        (writeVal (some num) ty.tag v WState.init) := by
  unfold thriftWriteFromObject
  rw [writeStruct]
  simp only [VFields.isEmpty, Bool.false_eq_true, if_false]
  rw [writeStructFields_single name num ty v hty]
  cases hv : writeVal (some num) ty.tag v WState.init with
  | ok s2 =>
    rw [exceptBind_ok, writeStop_ok, exceptBind_ok]
    simp [Except.map, popStackW_out]
  | error e => rfl

/-- `write_val` with a field id and the DOUBLE tag: field header, then the
`UnsupportedWrite` rejection (no value bytes are ever produced). -/
theorem writeVal_some_double (fid : Int) (v : Val) (s : WState)
    (h1 : 1 ≤ fid) (h2 : fid ≤ 32767) :
    writeVal (some fid) 7 v s = .error (.unsupportedWrite 7) := by
  unfold writeVal
  rw [if_neg (by norm_num)]
  dsimp only
  rw [writeFieldBegin_ok fid 7 s h1 h2 (by norm_num) (by norm_num), exceptBind_ok]
  rw [if_neg (by norm_num), if_neg (by norm_num), if_neg (by norm_num),
    if_neg (by norm_num), if_neg (by norm_num)]

/-- `write_val` on a boolean-typed struct field: only a field header whose
tag is TRUE or FALSE according to the value, no value byte. -/
theorem writeVal_bool_header (fid : Int) (v : Val) (s : WState)
    (h1 : 1 ≤ fid) (h2 : fid ≤ 32767) :
    writeVal (some fid) 161 v s =
      .ok ⟨s.out ++ headerBytes s.prev fid (if truthy v then 1 else 2),
        fid, s.stack⟩ := by
  unfold writeVal
  rw [if_pos (show (161 : Int) = 161 from rfl)]
  dsimp only
  exact writeFieldBegin_ok fid _ s h1 h2 (by split <;> norm_num)
    (by split <;> norm_num)

/-- `write_val` with a field id and the INT_32 tag on the out-of-range
value `2^30`: the zigzag image is `-2^31`, and the varint writer wraps it
to the five bytes `80 80 80 80 00`. -/
theorem writeVal_i32_wrap (s : WState) :
    writeVal (some 1) 5 (.vnum 1073741824) s =
      .ok ⟨s.out ++ headerBytes s.prev 1 5 ++ [128, 128, 128, 128, 0], 1, s.stack⟩ := by
  unfold writeVal
  rw [if_neg (by norm_num)]
  try dsimp only
  rw [writeFieldBegin_ok 1 5 s (by norm_num) (by norm_num) (by norm_num) (by norm_num),
    exceptBind_ok]
  rw [if_neg (by norm_num), if_neg (by norm_num), if_pos (show (5 : Int) = 5 from rfl)]
  try dsimp only
  unfold writeInt
  rw [writeVarint_wrap_top _ (by decide)]

/-! # The claims -/

/-- C1: Round-trip. For every schema in the codec's round-trippable
fragment (`GoodShape`: fields among the writable scalar/list/map/struct
types — no set, double or float — with distinct names and ids in
`[1, 32767]`, nonempty nested structs) and every object whose values
conform to the codec's round-trippable ranges, decoding the buffer
produced by `thriftWriteFromObject` with the same schema (and enough fuel)
yields the object back. The claim's full generality fails: see the
counterexample with an i32 value of `2^30`. -/
theorem C1_round_trip (shape : Shape) (obj : VFields) (bytes : List Nat) (fuel : Nat)
    (hg : GoodShape shape = true) (hc : conformFields shape obj = true)
    (hw : thriftWriteFromObject obj shape = .ok bytes)
    (hf : fuelFields shape obj ≤ fuel) :
    thriftReadToObject fuel bytes shape = .ok obj := by
  rw [thriftWriteFromObject_ok shape obj hg hc] at hw
  injection hw with hw
  subst hw
  exact readBack_ok shape obj fuel hg hc hf

theorem C1_round_trip_witness :
    thriftReadToObject
        (fuelFields (.field "a" 1 .boolean .nil) (.cons "a" (.vbool true) .nil))
        [17, 0] (.field "a" 1 .boolean .nil) =
      .ok (.cons "a" (.vbool true) .nil) :=
  C1_round_trip _ _ _ _ (by decide)
    (by simp [conformFields, conform])
    (by
      rw [thriftWrite_single "a" 1 .boolean (.vbool true) rfl,
        show Ty.tag .boolean = (161 : Int) from rfl,
        writeVal_bool_header 1 (.vbool true) _ (by norm_num) (by norm_num)]
      decide)
    (Nat.le_refl _)

/-- The value `2^30` satisfies the i32 static shape, yet the encoded
varint wraps at 32 bits and decodes to `0`. -/
theorem C1_cex :
    thriftWriteFromObject (.cons "n" (.vnum 1073741824) .nil)
        (.field "n" 1 .i32 .nil) = .ok [21, 128, 128, 128, 128, 0, 0] ∧
    thriftReadToObject 20 [21, 128, 128, 128, 128, 0, 0] (.field "n" 1 .i32 .nil) =
      .ok (.cons "n" (.vnum 0) .nil) ∧
    Val.vnum 0 ≠ Val.vnum 1073741824 := by
  refine ⟨?_, by rfl, by decide⟩
  rw [thriftWrite_single "n" 1 .i32 (.vnum 1073741824) rfl,
    show Ty.tag .i32 = (5 : Int) from rfl, writeVal_i32_wrap]
  rfl

/-- C2: Zigzag laws. `fromZigZag (toZigZag n w)` returns `n` on the full
signed range for `w = 16`, on `[-2^30, 2^30)` for `w = 32` (not the full
signed 32-bit range: see the counterexample at `2^30`), and the bigint
pair realises the law on the full signed 64-bit range. -/
theorem C2_zigzag :
    (∀ n : Int, -32768 ≤ n → n < 32768 → fromZigZag (toZigZag n 16) = n) ∧
    (∀ n : Int, -1073741824 ≤ n → n < 1073741824 → fromZigZag (toZigZag n 32) = n) ∧
    (∀ n : Int, -9223372036854775808 ≤ n → n < 9223372036854775808 →
      fromZigZagToBigInt (bigintToZigZag n) = n) := by
  refine ⟨?_, ?_, ?_⟩
  · intro n h1 h2
    rw [toZigZag16_eq h1 h2,
      fromZigZag_eq (zig_nonneg n) (by unfold zig; split <;> omega), unzig_zig]
  · intro n h1 h2
    rw [toZigZag32_eq h1 h2, fromZigZag_eq (zig_nonneg n) (zig_lt_two31 h1 h2),
      unzig_zig]
  · intro n h1 h2
    rw [bigintToZigZag_eq h1 h2, fromZigZagToBigInt_eq (zig_nonneg n), unzig_zig]

/-- `2^30` is in the signed 32-bit range, but its 32-bit zigzag image
overflows and decodes to `-2^30`. -/
theorem C2_cex :
    fromZigZag (toZigZag 1073741824 32) = -1073741824 ∧
    (-1073741824 : Int) ≠ 1073741824 := by
  refine ⟨?_, by decide⟩
  have h1 : jsAnd (-2147483648) 1 = 0 := by
    unfold jsAnd intAnd
    rw [show toInt32 (-2147483648) = Int.negSucc (2 ^ 31 - 1) from by decide,
      show toInt32 1 = Int.ofNat 1 from by decide]
    show Int.ofNat (Nat.ldiff 1 (2 ^ 31 - 1)) = 0
    rw [natLdiff_two_pow_sub_one]
    norm_num
  rw [show toZigZag 1073741824 32 = -2147483648 from by decide]
  unfold fromZigZag
  rw [h1, show (-(0 : Int)) = 0 from by norm_num,
    show jsShr (-2147483648) 1 = -1073741824 from by decide]
  unfold jsXor intXor
  rw [show toInt32 (-1073741824) = Int.negSucc (2 ^ 30 - 1) from by decide,
    show toInt32 0 = Int.ofNat 0 from by decide]
  show Int.negSucc ((2 ^ 30 - 1) ^^^ 0) = -1073741824
  decide

/-- C3: Varint laws. For `n < 2^31` the written varint reads back as `n`
and its length is `floor(log2 n / 7) + 1` (equivalently
`max 1 (ceil(bits(n)/7))`). Unsigned values in `[2^31, 2^32)` fit the
claimed target width but are destroyed: see the counterexample. -/
theorem C3_varint :
    (∀ n : Nat, n < 2147483648 → ∀ s : WState,
      writeVarint (n : Int) s = .ok { s with out := s.out ++ natVarint n }) ∧
    (∀ n : Nat, n < 2147483648 → ∀ (p : Int) (st : List Int),
      readVarInt ⟨natVarint n, 0, p, st⟩ =
        ((n : Int), ⟨natVarint n, (natVarint n).length, p, st⟩)) ∧
    (∀ n : Nat, (natVarint n).length = Nat.log2 n / 7 + 1) := by
  refine ⟨?_, ?_, natVarint_length_eq⟩
  · intro n h s
    have := writeVarint_ok (z := (n : Int)) (by positivity) (by exact_mod_cast h) s
    simpa using this
  · intro n h p st
    have := readVarInt_ok n [] [] p st h
    simpa using this

/-- `2^31` fits the unsigned 32-bit width, but the writer wraps it to five
bytes that read back as `0`. -/
theorem C3_cex :
    writeVarint 2147483648 WState.init = .ok ⟨[128, 128, 128, 128, 0], 0, []⟩ ∧
    readVarInt ⟨[128, 128, 128, 128, 0], 0, 0, []⟩ =
      (0, ⟨[128, 128, 128, 128, 0], 5, 0, []⟩) ∧
    (0 : Int) ≠ 2147483648 := by
  refine ⟨?_, by rfl, by decide⟩
  rw [writeVarint_wrap_top _ (by decide)]
  rfl

/-- C4: Field delta encoding. With `delta = id - prev_field_id`, the
header is the single byte `(delta << 4) | tag` when `0 < delta < 16` and
otherwise the tag byte followed by the 16-bit zigzag varint of the
absolute id; in both cases `prev_field_id` becomes `id`. -/
theorem C4_field_header (num tag : Int) (s : WState)
    (h1 : 1 ≤ num) (h2 : num ≤ 32767) (h3 : 1 ≤ tag) (h4 : tag ≤ 15) :
    writeFieldBegin num tag s =
      .ok ⟨s.out ++
        (if 0 < num - s.prev ∧ num - s.prev < 16
          then [((num - s.prev) * 16 + tag).toNat]
          else tag.toNat :: natVarint (zig num).toNat), num, s.stack⟩ := by
  rw [writeFieldBegin_ok num tag s h1 h2 h3 h4]
  rfl

theorem C4_field_header_witness :
    writeFieldBegin 5 5 ⟨[], 3, []⟩ = .ok ⟨[37], 5, []⟩ ∧
    writeFieldBegin 20 3 ⟨[], 3, []⟩ = .ok ⟨[3, 40], 20, []⟩ := by
  constructor
  · rw [C4_field_header 5 5 ⟨[], 3, []⟩ (by norm_num) (by norm_num) (by norm_num)
      (by norm_num)]
    decide
  · rw [C4_field_header 20 3 ⟨[], 3, []⟩ (by norm_num) (by norm_num) (by norm_num)
      (by norm_num)]
    rw [if_neg (by decide), show zig 20 = 40 from by decide,
      show ((40 : Int)).toNat = 40 from rfl, natVarint_small (by norm_num)]
    decide

/-- C5: Struct frames save and restore `prev_field_id`. The writer's
`write_struct_begin` pushes the just-written id and resets `prev` to 0,
and the struct body plus STOP restore it; the reader's
`read_val_recursive` and the skip path return with `prev` and the stack
exactly as before the nested struct. -/
theorem C5_prev_invariant :
    (∀ (num : Int) (sub : Shape) (fields : VFields) (s : WState),
      1 ≤ num → num ≤ 32767 → GoodShape sub = true →
      conformFields sub fields = true →
      writeStructBegin num s =
        .ok ⟨s.out ++ headerBytes s.prev num 12, 0, num :: s.stack⟩ ∧
      writeStruct fields sub ⟨s.out ++ headerBytes s.prev num 12, 0, num :: s.stack⟩ =
        .ok ⟨s.out ++ headerBytes s.prev num 12 ++ (fieldsBytes sub fields 0 ++ [0]),
          num, s.stack⟩) ∧
    (∀ (K : Nat) (sub : Shape) (fields : VFields) (pre post : List Nat) (p : Int)
        (st : List Int),
      GoodTy (.tstruct sub) = true → conform (.tstruct sub) (.vstruct fields) = true →
      fuelV (.tstruct sub) (.vstruct fields) ≤ K →
      readValRec K (.tstruct sub)
          ⟨pre ++ valueBytes (.tstruct sub) (.vstruct fields) ++ post,
            pre.length, p, st⟩ =
        .ok (.vstruct fields,
          ⟨pre ++ valueBytes (.tstruct sub) (.vstruct fields) ++ post,
            pre.length + (valueBytes (.tstruct sub) (.vstruct fields)).length,
            p, st⟩)) ∧
    (∀ (K : Nat) (sub : Shape) (fields : VFields) (pre post : List Nat) (p : Int)
        (st : List Int),
      GoodTy (.tstruct sub) = true → conform (.tstruct sub) (.vstruct fields) = true →
      fuelV (.tstruct sub) (.vstruct fields) ≤ K →
      skipR K 12
          ⟨pre ++ valueBytes (.tstruct sub) (.vstruct fields) ++ post,
            pre.length, p, st⟩ =
        .ok ⟨pre ++ valueBytes (.tstruct sub) (.vstruct fields) ++ post,
          pre.length + (valueBytes (.tstruct sub) (.vstruct fields)).length,
          p, st⟩) := by
  refine ⟨?_, ?_, ?_⟩
  · intro num sub fields s h1 h2 hg hc
    exact ⟨writeStructBegin_ok num s h1 h2,
      writeStruct_frame_ok sub fields (s.out ++ headerBytes s.prev num 12) 0 num
        s.stack hg hc⟩
  · intro K sub fields pre post p st hg hc hf
    exact (reader_ok K).1 (.tstruct sub) (.vstruct fields) pre post p st hg
      (by simp) hc hf
  · intro K sub fields pre post p st hg hc hf
    have := (reader_ok K).2.2.2.2.1 (.tstruct sub) (.vstruct fields) pre post p st
      hg hc hf
    rw [show fieldTag (.tstruct sub) (.vstruct fields) = (12 : Int) from rfl] at this
    exact this

/-- C6: Skip tolerance. Encoding a conforming object under a schema and
decoding under a sub-schema (same names, ids and types for the fields it
keeps), both within the codec's round-trippable fragment (`GoodShape`),
succeeds and yields the projection of the object onto the sub-schema's
fields; unknown field ids are skipped, never an error. The claim's full
generality fails: see the counterexample. -/
theorem C6_subset_decode (Sbig Ssub : Shape) (obj : VFields) (bytes : List Nat)
    (fuel : Nat) (hgB : GoodShape Sbig = true) (hgS : GoodShape Ssub = true)
    (hsub : ∀ n m t, fieldIn n m t Ssub → fieldIn n m t Sbig)
    (hc : conformFields Sbig obj = true)
    (hw : thriftWriteFromObject obj Sbig = .ok bytes)
    (hf : fuelFields Sbig obj ≤ fuel) :
    thriftReadToObject fuel bytes Ssub = .ok (projectFields Ssub obj) := by
  rw [thriftWriteFromObject_ok Sbig obj hgB hc] at hw
  injection hw with hw
  subst hw
  exact readBack_sub_ok Sbig Ssub obj fuel hgB hgS hsub hc hf

set_option maxHeartbeats 1000000 in
theorem C6_subset_decode_witness :
    thriftReadToObject
        (fuelFields (.field "a" 1 .boolean (.field "b" 2 .boolean .nil))
          (.cons "a" (.vbool true) (.cons "b" (.vbool false) .nil)))
        [17, 18, 0] (.field "b" 2 .boolean .nil) =
      .ok (projectFields (.field "b" 2 .boolean .nil)
        (.cons "a" (.vbool true) (.cons "b" (.vbool false) .nil))) :=
  C6_subset_decode _ _ _ _ _ (by decide) (by decide)
    (by
      intro n m t h
      simp only [fieldIn] at h ⊢
      tauto)
    (by simp [conformFields, conform])
    (by
      unfold thriftWriteFromObject
      rw [writeStruct]
      simp only [VFields.isEmpty, Bool.false_eq_true, if_false]
      rw [writeStructFields,
        show findField "a"
            (VFields.cons "a" (Val.vbool true) (.cons "b" (.vbool false) .nil)) =
          some (.vbool true) from by rw [findField, if_pos rfl]]
      dsimp only
      rw [show Ty.tag .boolean = (161 : Int) from rfl,
        writeVal_bool_header 1 (.vbool true) _ (by norm_num) (by norm_num),
        exceptBind_ok]
      rw [writeStructFields,
        show findField "b"
            (VFields.cons "a" (Val.vbool true) (.cons "b" (.vbool false) .nil)) =
          some (.vbool false) from by
            rw [findField, if_neg (by decide), findField, if_pos rfl]]
      dsimp only
      rw [show Ty.tag .boolean = (161 : Int) from rfl, structFields_nil_tail,
        writeVal_bool_header 2 (.vbool false) _ (by norm_num) (by norm_num),
        exceptBind_ok, writeStop_ok, exceptBind_ok]
      decide)
    (Nat.le_refl _)

set_option maxHeartbeats 1000000 in
/-- Under the bigger schema the i32 field holds `2^30` — valid for the
static shape — and the projection onto the sub-schema keeps it, but the
decoded value is `0`. -/
theorem C6_cex :
    thriftWriteFromObject
        (.cons "a" (.vnum 1073741824) (.cons "x" (.vbool true) .nil))
        (.field "a" 1 .i32 (.field "x" 2 .boolean .nil)) =
      .ok [21, 128, 128, 128, 128, 0, 17, 0] ∧
    thriftReadToObject 20 [21, 128, 128, 128, 128, 0, 17, 0]
        (.field "a" 1 .i32 .nil) = .ok (.cons "a" (.vnum 0) .nil) ∧
    VFields.cons "a" (Val.vnum 0) .nil ≠
      projectFields (.field "a" 1 .i32 .nil)
        (.cons "a" (.vnum 1073741824) (.cons "x" (.vbool true) .nil)) := by
  refine ⟨?_, by rfl, by decide⟩
  unfold thriftWriteFromObject
  rw [writeStruct]
  simp only [VFields.isEmpty, Bool.false_eq_true, if_false]
  rw [writeStructFields,
    show findField "a"
        (VFields.cons "a" (Val.vnum 1073741824) (.cons "x" (.vbool true) .nil)) =
      some (.vnum 1073741824) from by rw [findField, if_pos rfl]]
  dsimp only
  rw [show Ty.tag .i32 = (5 : Int) from rfl, writeVal_i32_wrap, exceptBind_ok]
  rw [writeStructFields,
    show findField "x"
        (VFields.cons "a" (Val.vnum 1073741824) (.cons "x" (.vbool true) .nil)) =
      some (.vbool true) from by
        rw [findField, if_neg (by decide), findField, if_pos rfl]]
  dsimp only
  rw [show Ty.tag .boolean = (161 : Int) from rfl, structFields_nil_tail,
    writeVal_bool_header 2 (.vbool true) _ (by norm_num) (by norm_num),
    exceptBind_ok, writeStop_ok, exceptBind_ok]
  decide

/-- C7: TypeMismatch. A struct field whose wire tag (after the TRUE/FALSE
to BOOLEAN normalisation) differs from the schema's declared tag fails
with the `Mismatching type` error; in particular a wire i32 for a
binary-declared field. Container element headers do NOT get the boolean
equivalence: see the counterexample. -/
theorem C7_type_mismatch :
    (∀ (K : Nat) (S : Shape) (acc : VFields) (prevW num wt : Int) (name : String)
        (fty : Ty) (pre post : List Nat) (st : List Int),
      1 ≤ num → num ≤ 32767 → 1 ≤ wt → wt ≤ 15 →
      findByNum num S = some (name, fty) →
      fty.tag ≠ (if isThriftBoolean wt then (161 : Int) else wt) →
      readStructLoop (K + 1) S acc
          ⟨pre ++ (headerBytes prevW num wt ++ post), pre.length, prevW, st⟩ =
        .error (.mismatchField fty.tag wt)) ∧
    (thriftReadToObject 20 [21, 84, 0] (.field "foo" 1 .binaryStr .nil) =
      .error (.mismatchField 8 5)) :=
  ⟨readStructLoop_mismatch, rfl⟩

/-- A list header declaring item type TRUE (1) for a BOOLEAN-item list is
rejected, although the claim's TRUE/FALSE/BOOLEAN equivalence would
accept it. -/
theorem C7_cex :
    thriftReadToObject 20 [25, 17, 0] (.field "b" 1 (.tlist .boolean) .nil) =
      .error (.mismatchItem 161 1) := rfl

/-- C8: Booleans. A boolean struct field is written as a single header
byte whose tag is TRUE or FALSE (`{foo: true}` gives `0x11 0x00`), and a
boolean outside a struct (no field id, i.e. a list/set/map element) is
rejected with the `InvalidBooleanContext` error. -/
theorem C8_boolean :
    (thriftWriteFromObject (.cons "foo" (.vbool true) .nil)
        (.field "foo" 1 .boolean .nil) = .ok [17, 0]) ∧
    (∀ (v : Val) (s : WState), writeVal none 161 v s = .error .boolContext) ∧
    (∀ (fid : Int) (v : Val) (s : WState),
      writeVal (some fid) 161 v s =
        writeFieldBegin fid (if truthy v then 1 else 2) s) := by
  refine ⟨?_, fun v s => rfl, fun fid v s => rfl⟩
  rw [thriftWrite_single "foo" 1 .boolean (.vbool true) rfl,
    show Ty.tag .boolean = (161 : Int) from rfl,
    writeVal_bool_header 1 (.vbool true) _ (by norm_num) (by norm_num)]
  decide

/-- C9: `write_val` rejects DOUBLE (7) and FLOAT (13) with
`UnsupportedWrite` — with or without a field id — instead of emitting
IEEE-754 bytes as the claim states. -/
theorem C9_unsupported :
    (∀ (v : Val) (s : WState), writeVal none 7 v s = .error (.unsupportedWrite 7)) ∧
    (∀ (v : Val) (s : WState), writeVal none 13 v s = .error (.unsupportedWrite 13)) ∧
    (∀ (fid : Int) (v : Val) (s : WState), 1 ≤ fid → fid ≤ 32767 →
      writeVal (some fid) 7 v s = .error (.unsupportedWrite 7)) :=
  ⟨fun v s => rfl, fun v s => rfl, fun fid v s h1 h2 => writeVal_some_double fid v s h1 h2⟩

/-- Writing a double-typed struct field fails with `UnsupportedWrite 7`
instead of emitting 8 little-endian IEEE-754 bytes. -/
theorem C9_cex :
    thriftWriteFromObject (.cons "d" (.vnum 0) .nil) (.field "d" 1 .double .nil) =
      .error (.unsupportedWrite 7) := by
  rw [thriftWrite_single "d" 1 .double (.vnum 0) rfl,
    show Ty.tag .double = (7 : Int) from rfl,
    writeVal_some_double 1 (.vnum 0) _ (by norm_num) (by norm_num)]
  rfl

/-- C10: EmptyStructRead. A field-less struct schema makes
`read_val_recursive` fail with the empty-struct error whenever it appears
as a field's type — but NOT at the root: the root decode has no
empty-shape check and returns an empty object (see the counterexample). -/
theorem C10_empty_struct :
    (∀ (K : Nat) (s : RState), readValRec (K + 1) (.tstruct .nil) s =
      .error .emptyStruct) ∧
    (thriftReadToObject 20 [28, 0, 0] (.field "s" 1 (.tstruct .nil) .nil) =
      .error .emptyStruct) :=
  ⟨fun K s => rfl, rfl⟩

/-- The empty schema at the root decodes a lone STOP byte to the empty
object — no `EmptyStructRead` error, refuting the "including the root"
half of the claim. -/
theorem C10_cex :
    thriftReadToObject 20 [0] Shape.nil = .ok VFields.nil := rfl

end Thrift
